import Mathlib

/-!
Verification of the fex interpreter core (src/fe.c, src/fex.c) against its
natural-language specification.

The development contains several shallow embeddings, each translated from the
C source:

* an arena / mark-sweep garbage-collector model (`Fe.Gc`), translating
  `fe_mark`, `collectgarbage`, `object`, `fe_pushgc` from fe.c;
* a tree-level model of the free-variable analyzer `analyze` (`Fe.An`) and of
  the surface compiler's infix desugaring from fex.c (`Fe.Sf`);
* a printer/reader model (`Fe.Rw`), translating `fe_write`, `read_`,
  `fe_make_number`, together with models of the C library routines they call
  (`sprintf` with `%lld` / `%.7g`, `strtod`);
* a heap-level evaluator model (`Fe.Ev`), translating `eval` and its helpers
  with an explicit store and explicit fuel.

Machine integers are modelled as `Int`/`Nat` with the source's bounds made
explicit; the C `double` (`fe_Number`) is idealized as an exact rational
(`Rat`): every counterexample below uses only values on which C doubles are
exact, so no counterexample is an artifact of that idealization.
-/

namespace Fe

/-! ## Value and cell representation (fe.c `struct fe_Object`, fe_fixnum.h)

A C `fe_Object*` word is either an immediate (fixnum with LSB 1, the two
boolean patterns, or the static `nil` object) or a pointer to an arena cell.
Cell payload words (`cdr.n`, `cdr.c`, `cdr.f`, string data) are modelled as
extra constructors of the word type `Val`.  A pointer is `ref i` with `i` the
cell index; indices `i ≥ objects.length` model pointers outside the arena. -/

inductive Val where
  | ref (i : ℕ)
  | fixnum (n : ℤ)
  | boolv (b : Bool)
  | nilv
  | numv (q : ℚ)
  | strv (s : List Char)
  | primv (n : ℕ)
  | cfuncv (id : ℕ)
  | ptrv (id : ℕ)
  deriving DecidableEq, Repr

/-- One arena cell: `flags` byte plus the two value words (fe.c:81-84). -/
structure Cell where
  flags : ℕ
  car : Val
  cdr : Val
  deriving DecidableEq, Repr

/-- Type tags, in the order of the `FE_T...` enum in fe.h. -/
def tPAIR : ℕ := 0
def tFREE : ℕ := 1
def tNIL : ℕ := 2
def tNUMBER : ℕ := 3
def tSYMBOL : ℕ := 4
def tSTRING : ℕ := 5
def tFUNC : ℕ := 6
def tMAC : ℕ := 7
def tPRIM : ℕ := 8
def tCFUNC : ℕ := 9
def tPTR : ℕ := 10
def tBOOLEAN : ℕ := 11

/-- The `type(x)` macro on the flags byte (fe.c:38-41): bit 0 set means the
cell is a typed atom with the tag in bits 2..7, otherwise it is a pair.
Bit 1 (the GC mark) is dropped by the `>> 2`. -/
def typeOfCell (c : Cell) : ℕ :=
  if c.flags % 2 = 1 then c.flags / 4 else tPAIR

/-- The GC mark bit `GCMARKBIT = 0x2` (bit 1 of the flags byte). -/
def markedCell (c : Cell) : Bool :=
  c.flags / 2 % 2 = 1

/-- The `tag(obj) |= GCMARKBIT` operation: since the operation only fires when
bit 1 is clear, the bitwise OR is addition of 2. -/
def setMarkCell (c : Cell) : Cell :=
  { c with flags := if markedCell c then c.flags else c.flags + 2 }

/-- The `tag(obj) &= ~GCMARKBIT` operation in the sweep (fe.c:397). -/
def clearMarkCell (c : Cell) : Cell :=
  { c with flags := if markedCell c then c.flags - 2 else c.flags }

/-- The `settype(x,t)` macro (fe.c:42): `tag = t << 2 | 1`. -/
def settypeFlags (t : ℕ) : ℕ := 4 * t + 1

/-- Cell access with a default, avoiding embedded index proofs. -/
def cellAt (cs : List Cell) (i : ℕ) : Cell :=
  cs.getD i ⟨0, .nilv, .nilv⟩

/-- Whether a word is an immediate fixnum (`FE_IS_FIXNUM`). -/
def isFix : Val → Bool
  | .fixnum _ => true
  | _ => false

/-- Whether a word is an immediate boolean (`FE_IS_BOOLEAN`). -/
def isBool : Val → Bool
  | .boolv _ => true
  | _ => false

/-! ## The marker (fe.c:329-368, `fe_mark`)

The C function terminates because every arena cell is marked before its
fields are traversed and already-marked cells are skipped; the loop on `cdr`
and the recursion on `car` are modelled with explicit fuel, and theorem
`c10_mark_terminates` below shows one unit of fuel per arena cell suffices,
on every input, including cyclic cell graphs. -/

def markF : ℕ → List Cell → Val → List Cell
  | 0, cs, _ => cs
  | f + 1, cs, v =>
    match v with
    | .ref i =>
      if i < cs.length then
        if markedCell (cellAt cs i) then cs
        else if typeOfCell (cellAt cs i) = tPAIR then
          markF f (markF f (cs.set i (setMarkCell (cellAt cs i))) (cellAt cs i).car)
            (cellAt cs i).cdr
        else if typeOfCell (cellAt cs i) = tSYMBOL ∨ typeOfCell (cellAt cs i) = tSTRING ∨
            typeOfCell (cellAt cs i) = tFUNC ∨ typeOfCell (cellAt cs i) = tMAC then
          markF f (cs.set i (setMarkCell (cellAt cs i))) (cellAt cs i).cdr
        else cs.set i (setMarkCell (cellAt cs i))
      else cs
    | _ => cs

/-- Number of unmarked cells: the termination measure for `fe_mark`. -/
def cnt (cs : List Cell) : ℕ :=
  cs.countP (fun c => !markedCell c)

/-- `fe_mark` with the canonical fuel (one unit per arena cell, which always
bounds the number of unmarked cells). -/
def feMark (cs : List Cell) (v : Val) : List Cell :=
  markF cs.length cs v

/-! ## The context and the collector (fe.c:86-102, 371-409, 437-457) -/

/-- GC-relevant fields of `struct fe_Context`.  `GCSTACKSIZE = 1024` bounds
`gcstack`; `gcstack.length` plays the role of `gcstack_idx`. -/
structure Ctx where
  objects : List Cell
  gcstack : List Val
  modulestack : Val
  symlist : Val
  freelist : Val
  live_count : ℕ
  allocs_since_gc : ℕ
  gc_threshold : ℕ
  deriving DecidableEq, Repr

/-- Mark phase of `collectgarbage` (fe.c:374-381): each surviving root stack
entry that is neither a fixnum nor nil is marked, then the module stack and
the interned-symbol list. -/
def collectMark (st : Ctx) : List Cell :=
  let cs := st.gcstack.foldl
    (fun cs v => if !isFix v && v != Val.nilv then feMark cs v else cs)
    st.objects
  feMark (feMark cs st.modulestack) st.symlist

/-- One sweep step at index `i` (fe.c:383-400): FREE cells are skipped,
unmarked cells are retyped FREE and threaded onto the freelist (string
buffers released, PTR gc hook — both outside this model's observables),
marked cells are unmarked and counted live. -/
def sweepStep (acc : List Cell × Val × ℕ) (i : ℕ) : List Cell × Val × ℕ :=
  let c := cellAt acc.1 i
  if typeOfCell c = tFREE then acc
  else if !markedCell c then
    (acc.1.set i ⟨settypeFlags tFREE, c.car, acc.2.1⟩, (.ref i, acc.2.2))
  else
    (acc.1.set i (clearMarkCell c), (acc.2.1, acc.2.2 + 1))

theorem sweepStep_length (acc : List Cell × Val × ℕ) (i : ℕ) :
    (sweepStep acc i).1.length = acc.1.length := by
  unfold sweepStep
  dsimp only
  split
  · rfl
  · split <;> simp

/-- Sweep loop over the whole arena, from index `i` up. -/
def sweepFrom (i : ℕ) (acc : List Cell × Val × ℕ) : List Cell × Val × ℕ :=
  if h : i < acc.1.length then
    sweepFrom (i + 1) (sweepStep acc i)
  else acc
termination_by acc.1.length - i
decreasing_by
  have hl := sweepStep_length acc i
  omega

/-- `collectgarbage` (fe.c:371-409): mark the roots, sweep, and update the
adaptive threshold (`live * GC_GROWTH_FACTOR`, floored at
`GC_MIN_THRESHOLD = 1024`). -/
def collectgarbage (st : Ctx) : Ctx :=
  let cs := collectMark st
  let swept := sweepFrom 0 (cs, st.freelist, 0)
  { st with
    objects := swept.1
    freelist := swept.2.1
    live_count := swept.2.2
    allocs_since_gc := 0
    gc_threshold := max (swept.2.2 * 2) 1024 }

/-- `fe_pushgc` (fe.c:307-317): immediates never reach the root stack;
pushing on a full stack is the fatal `gc stack overflow`. -/
def pushgc (st : Ctx) (v : Val) : Except String Ctx :=
  if isFix v || isBool v || v == Val.nilv then .ok st
  else if st.gcstack.length = 1024 then .error "gc stack overflow"
  else .ok { st with gcstack := st.gcstack ++ [v] }

/-- Popping the freelist head (fe.c:448-454): take the head cell, advance
the freelist through its `cdr`, count the allocation and push the cell onto
the root stack.  A freelist head that is neither nil nor a valid cell
pointer would be dereferenced blindly by the C code; the model reports it
as a distinct error. -/
def popFree (st1 : Ctx) : Except String (Ctx × ℕ) :=
  match st1.freelist with
  | .ref i =>
    if i < st1.objects.length then
      match pushgc { st1 with
          freelist := (cellAt st1.objects i).cdr
          allocs_since_gc := st1.allocs_since_gc + 1 } (.ref i) with
      | .ok st3 => .ok (st3, i)
      | .error e => .error e
    else .error "freelist corrupt"
  | _ => .error "freelist corrupt"

/-- `object` (fe.c:437-457), the cell allocator: collect when the allocation
counter reaches the threshold or the freelist is empty; fail with
`out of memory` exactly when the freelist is still empty after that
collection; otherwise pop the freelist head. -/
def objectAlloc (st : Ctx) : Except String (Ctx × ℕ) :=
  if st.gc_threshold ≤ st.allocs_since_gc ∨ st.freelist = Val.nilv then
    if (collectgarbage st).freelist = Val.nilv then .error "out of memory"
    else popFree (collectgarbage st)
  else popFree st

/-! ## Basic lemmas about cells and flags -/

theorem cellAt_set_self (cs : List Cell) (i : ℕ) (c : Cell) (h : i < cs.length) :
    cellAt (cs.set i c) i = c := by
  simp [cellAt, List.getD, List.getElem?_set_eq_of_lt c h]

theorem cellAt_set_ne (cs : List Cell) (i j : ℕ) (c : Cell) (h : i ≠ j) :
    cellAt (cs.set i c) j = cellAt cs j := by
  simp [cellAt, List.getD, List.getElem?_set_ne h]

theorem markedCell_iff (c : Cell) : markedCell c = true ↔ c.flags / 2 % 2 = 1 := by
  simp [markedCell]

theorem markedCell_false_iff (c : Cell) : markedCell c = false ↔ c.flags / 2 % 2 ≠ 1 := by
  simp [markedCell]

theorem setMark_unmarked (c : Cell) (h : markedCell c = false) :
    setMarkCell c = { c with flags := c.flags + 2 } := by
  simp [setMarkCell, h]

theorem clearMark_marked (c : Cell) (h : markedCell c = true) :
    clearMarkCell c = { c with flags := c.flags - 2 } := by
  simp [clearMarkCell, h]

theorem clearMark_unmarked (c : Cell) (h : markedCell c = false) :
    clearMarkCell c = c := by
  simp [clearMarkCell, h]

theorem setMark_marked (c : Cell) (h : markedCell c = true) : setMarkCell c = c := by
  simp [setMarkCell, h]

theorem marked_setMark (c : Cell) : markedCell (setMarkCell c) = true := by
  cases hb : markedCell c
  · have ha := (markedCell_false_iff c).mp hb
    rw [setMark_unmarked c hb, markedCell_iff]
    dsimp only
    omega
  · rw [setMark_marked c hb]
    exact hb

theorem setMark_idem (c : Cell) : setMarkCell (setMarkCell c) = setMarkCell c :=
  setMark_marked _ (marked_setMark c)

theorem typeOf_setMark (c : Cell) : typeOfCell (setMarkCell c) = typeOfCell c := by
  cases hb : markedCell c
  · have ha := (markedCell_false_iff c).mp hb
    rw [setMark_unmarked c hb]
    unfold typeOfCell
    dsimp only
    have h2 : (c.flags + 2) % 2 = c.flags % 2 := by omega
    rw [h2]
    by_cases h3 : c.flags % 2 = 1
    · rw [if_pos h3, if_pos h3]
      omega
    · rw [if_neg h3, if_neg h3]
  · rw [setMark_marked c hb]

theorem car_setMark (c : Cell) : (setMarkCell c).car = c.car := by
  unfold setMarkCell
  rfl

theorem cdr_setMark (c : Cell) : (setMarkCell c).cdr = c.cdr := by
  unfold setMarkCell
  rfl

theorem clear_setMark (c : Cell) (h : markedCell c = false) :
    clearMarkCell (setMarkCell c) = c := by
  have ha := (markedCell_false_iff c).mp h
  rw [setMark_unmarked c h]
  have hm : markedCell { c with flags := c.flags + 2 } = true := by
    rw [markedCell_iff]
    dsimp only
    omega
  rw [clearMark_marked _ hm]
  dsimp only
  have h2 : c.flags + 2 - 2 = c.flags := by omega
  rw [h2]

theorem marked_clearMark (c : Cell) : markedCell (clearMarkCell c) = false := by
  cases hb : markedCell c
  · rw [clearMark_unmarked c hb]
    exact hb
  · have ha := (markedCell_iff c).mp hb
    rw [clearMark_marked c hb, markedCell_false_iff]
    dsimp only
    omega

/-- The fields a mark traversal follows out of a cell: both words of a pair,
the `cdr` of symbols, strings, functions and macros (fe.c:346-366), nothing
otherwise. -/
def cellRefs (c : Cell) : List Val :=
  if typeOfCell c = tPAIR then [c.car, c.cdr]
  else if typeOfCell c = tSYMBOL ∨ typeOfCell c = tSTRING ∨
      typeOfCell c = tFUNC ∨ typeOfCell c = tMAC then [c.cdr]
  else []

theorem cellRefs_setMark (c : Cell) : cellRefs (setMarkCell c) = cellRefs c := by
  unfold cellRefs
  rw [typeOf_setMark, car_setMark, cdr_setMark]

/-- Reachability along `cellRefs` edges, starting from an arbitrary root
word; only in-arena cells are reachable. -/
inductive Reaches (cs : List Cell) : Val → ℕ → Prop where
  | here (i : ℕ) (hi : i < cs.length) : Reaches cs (.ref i) i
  | step (v : Val) (i j : ℕ) (hi : i < cs.length) (hr : Reaches cs v i)
      (he : Val.ref j ∈ cellRefs (cellAt cs i)) (hj : j < cs.length) :
      Reaches cs v j

/-- The GC root set (fe.c:374-381): the root stack, the module-export stack
and the interned-symbol list. -/
def rootVals (st : Ctx) : List Val :=
  st.gcstack ++ [st.modulestack, st.symlist]

/-- A cell reachable from the root set. -/
def RootReaches (st : Ctx) (j : ℕ) : Prop :=
  ∃ v ∈ rootVals st, Reaches st.objects v j

/-! ## Mark phase: evolution relation and its invariants -/

/-- How a state may evolve under marking: lengths preserved, every cell
unchanged or mark-bit-set. -/
def MarkEvo (cs cs' : List Cell) : Prop :=
  cs'.length = cs.length ∧
    ∀ j, cellAt cs' j = cellAt cs j ∨ cellAt cs' j = setMarkCell (cellAt cs j)

theorem markEvo_refl (cs : List Cell) : MarkEvo cs cs :=
  ⟨rfl, fun _ => Or.inl rfl⟩

theorem markEvo_trans {a b c : List Cell} (h1 : MarkEvo a b) (h2 : MarkEvo b c) :
    MarkEvo a c := by
  refine ⟨h2.1.trans h1.1, fun j => ?_⟩
  rcases h2.2 j with h | h <;> rcases h1.2 j with g | g <;> rw [h, g] <;>
    simp [setMark_idem]

theorem markEvo_set (cs : List Cell) (i : ℕ) (h : i < cs.length) :
    MarkEvo cs (cs.set i (setMarkCell (cellAt cs i))) := by
  refine ⟨by simp, fun j => ?_⟩
  by_cases hij : i = j
  · subst hij
    rw [cellAt_set_self _ _ _ h]
    exact Or.inr rfl
  · rw [cellAt_set_ne _ _ _ _ hij]
    exact Or.inl rfl

theorem markEvo_typeOf {a b : List Cell} (h : MarkEvo a b) (j : ℕ) :
    typeOfCell (cellAt b j) = typeOfCell (cellAt a j) := by
  rcases h.2 j with g | g <;> rw [g]
  exact typeOf_setMark _

theorem markEvo_cellRefs {a b : List Cell} (h : MarkEvo a b) (j : ℕ) :
    cellRefs (cellAt b j) = cellRefs (cellAt a j) := by
  rcases h.2 j with g | g <;> rw [g]
  exact cellRefs_setMark _

theorem markEvo_marked {a b : List Cell} (h : MarkEvo a b) (j : ℕ)
    (hm : markedCell (cellAt a j) = true) : markedCell (cellAt b j) = true := by
  rcases h.2 j with g | g <;> rw [g]
  · exact hm
  · exact marked_setMark _

theorem markF_zero (cs : List Cell) (v : Val) : markF 0 cs v = cs := rfl

theorem markF_nonref (f : ℕ) (cs : List Cell) (v : Val) (h : ∀ i, v ≠ .ref i) :
    markF f cs v = cs := by
  cases f
  · rfl
  · cases v
    case ref i => exact absurd rfl (h i)
    all_goals rfl

theorem markF_ref_succ (f : ℕ) (cs : List Cell) (i : ℕ) :
    markF (f + 1) cs (.ref i) =
      if i < cs.length then
        if markedCell (cellAt cs i) then cs
        else if typeOfCell (cellAt cs i) = tPAIR then
          markF f (markF f (cs.set i (setMarkCell (cellAt cs i))) (cellAt cs i).car)
            (cellAt cs i).cdr
        else if typeOfCell (cellAt cs i) = tSYMBOL ∨ typeOfCell (cellAt cs i) = tSTRING ∨
            typeOfCell (cellAt cs i) = tFUNC ∨ typeOfCell (cellAt cs i) = tMAC then
          markF f (cs.set i (setMarkCell (cellAt cs i))) (cellAt cs i).cdr
        else cs.set i (setMarkCell (cellAt cs i))
      else cs := rfl

theorem markF_evo (f : ℕ) (cs : List Cell) (v : Val) : MarkEvo cs (markF f cs v) := by
  induction f generalizing cs v with
  | zero => exact markEvo_refl cs
  | succ f ih =>
    cases v
    case ref i =>
      rw [markF_ref_succ]
      split
      case isFalse => exact markEvo_refl cs
      case isTrue hlt =>
        split
        case isTrue => exact markEvo_refl cs
        case isFalse hmk =>
          have hset := markEvo_set cs i hlt
          split
          case isTrue =>
            exact markEvo_trans hset (markEvo_trans (ih _ _) (ih _ _))
          case isFalse =>
            split
            case isTrue => exact markEvo_trans hset (ih _ _)
            case isFalse => exact hset
    all_goals exact markEvo_refl cs

theorem markF_length (f : ℕ) (cs : List Cell) (v : Val) :
    (markF f cs v).length = cs.length :=
  (markF_evo f cs v).1

theorem markF_marked_mono (f : ℕ) (cs : List Cell) (v : Val) (j : ℕ)
    (h : markedCell (cellAt cs j) = true) :
    markedCell (cellAt (markF f cs v) j) = true :=
  markEvo_marked (markF_evo f cs v) j h

theorem markEvo_reaches {a b : List Cell} (h : MarkEvo a b) (v : Val) (j : ℕ) :
    Reaches a v j ↔ Reaches b v j := by
  constructor <;> intro hr
  · induction hr with
    | here i hi => exact Reaches.here i (by rw [h.1]; exact hi)
    | step v i j hi hr he hj ih =>
      exact Reaches.step v i j (by rw [h.1]; exact hi) ih
        (by rw [markEvo_cellRefs h]; exact he) (by rw [h.1]; exact hj)
  · induction hr with
    | here i hi => exact Reaches.here i (by rw [h.1] at hi; exact hi)
    | step v i j hi hr he hj ih =>
      exact Reaches.step v i j (by rw [h.1] at hi; exact hi) ih
        (by rw [markEvo_cellRefs h] at he; exact he) (by rw [h.1] at hj; exact hj)

/-! ## Counting unmarked cells -/

theorem cellAt_cons_zero (c : Cell) (cs : List Cell) : cellAt (c :: cs) 0 = c := rfl

theorem cellAt_cons_succ (c : Cell) (cs : List Cell) (j : ℕ) :
    cellAt (c :: cs) (j + 1) = cellAt cs j := rfl

theorem cellAt_lt (cs : List Cell) (j : ℕ) (h : j < cs.length) :
    cellAt cs j ∈ cs := by
  have : cellAt cs j = cs[j] := by
    simp [cellAt, List.getD, List.getElem?_eq_getElem h]
  rw [this]
  exact List.getElem_mem h

theorem cnt_le_length (cs : List Cell) : cnt cs ≤ cs.length :=
  List.countP_le_length _

theorem cnt_zero_marked (cs : List Cell) (h : cnt cs = 0) (j : ℕ)
    (hj : j < cs.length) : markedCell (cellAt cs j) = true := by
  rw [cnt, List.countP_eq_zero] at h
  have := h _ (cellAt_lt cs j hj)
  simpa using this

theorem cnt_set_mark (cs : List Cell) (i : ℕ) (hi : i < cs.length)
    (hm : markedCell (cellAt cs i) = false) :
    cnt (cs.set i (setMarkCell (cellAt cs i))) + 1 = cnt cs := by
  induction cs generalizing i with
  | nil => simp at hi
  | cons c cs ih =>
    cases i with
    | zero =>
      rw [cellAt_cons_zero] at hm ⊢
      simp only [List.set_cons_zero, cnt, List.countP_cons]
      rw [marked_setMark c, hm]
      simp
    | succ i =>
      rw [cellAt_cons_succ] at hm ⊢
      simp only [List.set_cons_succ, cnt, List.countP_cons]
      have := ih i (by simpa using hi) hm
      simp only [cnt] at this
      omega

theorem cnt_le_of_pointwise (a : List Cell) : ∀ (b : List Cell), b.length = a.length →
    (∀ j, cellAt b j = cellAt a j ∨ cellAt b j = setMarkCell (cellAt a j)) →
    cnt b ≤ cnt a := by
  induction a with
  | nil =>
    intro b hlen _
    rw [List.length_nil, List.length_eq_zero] at hlen
    subst hlen
    exact le_refl _
  | cons x a ih =>
    intro b hlen hp
    cases b with
    | nil => simp at hlen
    | cons y b =>
      have h0 := hp 0
      rw [cellAt_cons_zero, cellAt_cons_zero] at h0
      have htail := fun j => by
        have := hp (j + 1)
        rwa [cellAt_cons_succ, cellAt_cons_succ] at this
      have hlen2 : b.length = a.length := by simpa using hlen
      have hrec := ih b hlen2 htail
      simp only [cnt, List.countP_cons] at *
      have hhead : (if !markedCell y then 1 else 0) ≤ (if !markedCell x then 1 else 0) := by
        rcases h0 with h | h
        · rw [h]
        · rw [h, marked_setMark]
          simp
      omega

theorem markEvo_cnt {a b : List Cell} (h : MarkEvo a b) : cnt b ≤ cnt a :=
  cnt_le_of_pointwise a b h.1 h.2

theorem markF_cnt (f : ℕ) (cs : List Cell) (v : Val) : cnt (markF f cs v) ≤ cnt cs :=
  markEvo_cnt (markF_evo f cs v)

theorem markF_all_marked (g : ℕ) (cs : List Cell) (v : Val) (h : cnt cs = 0) :
    markF g cs v = cs := by
  cases g with
  | zero => rfl
  | succ g =>
    cases v
    case ref i =>
      rw [markF_ref_succ]
      by_cases hlt : i < cs.length
      · rw [if_pos hlt, if_pos (cnt_zero_marked cs h i hlt)]
      · rw [if_neg hlt]
    all_goals rfl

/-! ## Completeness, closure, soundness of the marker -/

theorem markF_root_marked (f : ℕ) (cs : List Cell) (i : ℕ)
    (hf : cnt cs ≤ f) (hi : i < cs.length) :
    markedCell (cellAt (markF f cs (.ref i)) i) = true := by
  cases f with
  | zero =>
    rw [markF_zero]
    exact cnt_zero_marked cs (Nat.le_zero.mp hf) i hi
  | succ f =>
    rw [markF_ref_succ, if_pos hi]
    by_cases hm : markedCell (cellAt cs i) = true
    · rw [if_pos hm]
      exact hm
    · rw [if_neg hm]
      have hmk1 : markedCell (cellAt (cs.set i (setMarkCell (cellAt cs i))) i) = true := by
        rw [cellAt_set_self _ _ _ hi]
        exact marked_setMark _
      split
      · exact markF_marked_mono _ _ _ _ (markF_marked_mono _ _ _ _ hmk1)
      · split
        · exact markF_marked_mono _ _ _ _ hmk1
        · exact hmk1

theorem reaches_prepend (cs : List Cell) (w : Val) (j i : ℕ)
    (hr : Reaches cs w j) (he : w ∈ cellRefs (cellAt cs i)) (hi : i < cs.length) :
    Reaches cs (.ref i) j := by
  induction hr with
  | here j hj => exact Reaches.step _ i j hi (Reaches.here i hi) he hj
  | step v m j hm hr hedge hj ih => exact Reaches.step _ m j hm (ih he) hedge hj

theorem markF_closure (f : ℕ) : ∀ (cs : List Cell) (v : Val), cnt cs ≤ f →
    ∀ j, j < cs.length → markedCell (cellAt cs j) = false →
    markedCell (cellAt (markF f cs v) j) = true →
    ∀ k, Val.ref k ∈ cellRefs (cellAt cs j) → k < cs.length →
    markedCell (cellAt (markF f cs v) k) = true := by
  induction f with
  | zero =>
    intro cs v _ j _ hunm hmkd
    rw [markF_zero] at hmkd
    rw [hunm] at hmkd
    cases hmkd
  | succ f ih =>
    intro cs v hf j hj hunm hmkd k hk hklen
    cases v
    case ref i =>
      rw [markF_ref_succ] at hmkd ⊢
      by_cases hlt : i < cs.length
      case neg =>
        rw [if_neg hlt] at hmkd
        rw [hunm] at hmkd
        cases hmkd
      rw [if_pos hlt] at hmkd ⊢
      by_cases hm : markedCell (cellAt cs i) = true
      case pos =>
        rw [if_pos hm] at hmkd
        rw [hunm] at hmkd
        cases hmkd
      rw [if_neg hm] at hmkd ⊢
      have hm0 : markedCell (cellAt cs i) = false := by simpa using hm
      have hcnt1 : cnt (cs.set i (setMarkCell (cellAt cs i))) ≤ f := by
        have := cnt_set_mark cs i hlt hm0
        omega
      have hlen1 : (cs.set i (setMarkCell (cellAt cs i))).length = cs.length := by simp
      have hevo1 := markEvo_set cs i hlt
      by_cases ht : typeOfCell (cellAt cs i) = tPAIR
      case pos =>
        rw [if_pos ht] at hmkd ⊢
        set cs1 := cs.set i (setMarkCell (cellAt cs i)) with hcs1def
        set A := markF f cs1 (cellAt cs i).car with hAdef
        have hevoA : MarkEvo cs A := markEvo_trans hevo1 (markF_evo f cs1 _)
        have hcntA : cnt A ≤ f := le_trans (markF_cnt f cs1 _) hcnt1
        have hlenA : A.length = cs.length := hevoA.1
        by_cases hji : j = i
        · subst hji
          have hrefs : cellRefs (cellAt cs j) = [(cellAt cs j).car, (cellAt cs j).cdr] := by
            rw [cellRefs, if_pos ht]
          rw [hrefs] at hk
          rcases List.mem_pair.mp hk with hcar | hcdr
          · have := markF_root_marked f cs1 k (hcnt1) (by rw [hlen1]; exact hklen)
            rw [hcar] at this
            exact markF_marked_mono _ _ _ _ this
          · have := markF_root_marked f A k (hcntA) (by rw [hlenA]; exact hklen)
            rw [hcdr] at this
            exact this
        · have hunm1 : markedCell (cellAt cs1 j) = false := by
            rw [hcs1def, cellAt_set_ne _ _ _ _ (fun he => hji he.symm)]
            exact hunm
          by_cases hA : markedCell (cellAt A j) = true
          · have := ih cs1 (cellAt cs i).car hcnt1 j (by rw [hlen1]; exact hj) hunm1 hA k
              (by rw [markEvo_cellRefs hevo1]; exact hk) (by rw [hlen1]; exact hklen)
            exact markF_marked_mono _ _ _ _ this
          · have hA0 : markedCell (cellAt A j) = false := by simpa using hA
            exact ih A (cellAt cs i).cdr hcntA j (by rw [hlenA]; exact hj) hA0 hmkd k
              (by rw [markEvo_cellRefs hevoA]; exact hk) (by rw [hlenA]; exact hklen)
      case neg =>
        rw [if_neg ht] at hmkd ⊢
        by_cases ht2 : typeOfCell (cellAt cs i) = tSYMBOL ∨ typeOfCell (cellAt cs i) = tSTRING ∨
            typeOfCell (cellAt cs i) = tFUNC ∨ typeOfCell (cellAt cs i) = tMAC
        case pos =>
          rw [if_pos ht2] at hmkd ⊢
          set cs1 := cs.set i (setMarkCell (cellAt cs i)) with hcs1def
          by_cases hji : j = i
          · subst hji
            have hrefs : cellRefs (cellAt cs j) = [(cellAt cs j).cdr] := by
              rw [cellRefs, if_neg ht, if_pos ht2]
            rw [hrefs] at hk
            rcases List.mem_singleton.mp hk with hcdr
            have := markF_root_marked f cs1 k (hcnt1) (by rw [hlen1]; exact hklen)
            rw [hcdr] at this
            exact this
          · have hunm1 : markedCell (cellAt cs1 j) = false := by
              rw [hcs1def, cellAt_set_ne _ _ _ _ (fun he => hji he.symm)]
              exact hunm
            exact ih cs1 (cellAt cs i).cdr hcnt1 j (by rw [hlen1]; exact hj) hunm1 hmkd k
              (by rw [markEvo_cellRefs hevo1]; exact hk) (by rw [hlen1]; exact hklen)
        case neg =>
          rw [if_neg ht2] at hmkd ⊢
          by_cases hji : j = i
          · subst hji
            have hrefs : cellRefs (cellAt cs j) = [] := by
              rw [cellRefs, if_neg ht, if_neg ht2]
            rw [hrefs] at hk
            cases hk
          · rw [cellAt_set_ne _ _ _ _ (fun he => hji he.symm)] at hmkd
            rw [hunm] at hmkd
            cases hmkd
    all_goals
      rw [markF_nonref _ _ _ (by intro m h; cases h)] at hmkd
      rw [hunm] at hmkd
      cases hmkd

theorem markF_sound (f : ℕ) : ∀ (cs : List Cell) (v : Val) (j : ℕ),
    markedCell (cellAt (markF f cs v) j) = true →
    markedCell (cellAt cs j) = true ∨ Reaches cs v j := by
  induction f with
  | zero =>
    intro cs v j h
    rw [markF_zero] at h
    exact Or.inl h
  | succ f ih =>
    intro cs v j h
    cases v
    case ref i =>
      rw [markF_ref_succ] at h
      by_cases hlt : i < cs.length
      case neg =>
        rw [if_neg hlt] at h
        exact Or.inl h
      rw [if_pos hlt] at h
      by_cases hm : markedCell (cellAt cs i) = true
      case pos =>
        rw [if_pos hm] at h
        exact Or.inl h
      rw [if_neg hm] at h
      set cs1 := cs.set i (setMarkCell (cellAt cs i)) with hcs1def
      have hevo1 := markEvo_set cs i hlt
      have hcs1j : ∀ m, markedCell (cellAt cs1 m) = true →
          markedCell (cellAt cs m) = true ∨ Reaches cs (.ref i) m := by
        intro m hmm
        by_cases hmi : m = i
        · subst hmi
          exact Or.inr (Reaches.here m hlt)
        · rw [hcs1def, cellAt_set_ne _ _ _ _ (fun he => hmi he.symm)] at hmm
          exact Or.inl hmm
      by_cases ht : typeOfCell (cellAt cs i) = tPAIR
      case pos =>
        rw [if_pos ht] at h
        have hcar : (cellAt cs i).car ∈ cellRefs (cellAt cs i) := by
          rw [cellRefs, if_pos ht]
          simp
        have hcdr : (cellAt cs i).cdr ∈ cellRefs (cellAt cs i) := by
          rw [cellRefs, if_pos ht]
          simp
        set A := markF f cs1 (cellAt cs i).car with hAdef
        have hevoA : MarkEvo cs A := markEvo_trans hevo1 (markF_evo f cs1 _)
        rcases ih A (cellAt cs i).cdr j h with hA | hrA
        · rcases ih cs1 (cellAt cs i).car j hA with h1 | hr1
          · exact hcs1j j h1
          · have : Reaches cs (cellAt cs i).car j := (markEvo_reaches hevo1 _ _).mpr hr1
            exact Or.inr (reaches_prepend cs _ j i this hcar hlt)
        · have : Reaches cs (cellAt cs i).cdr j := (markEvo_reaches hevoA _ _).mpr hrA
          exact Or.inr (reaches_prepend cs _ j i this hcdr hlt)
      case neg =>
        rw [if_neg ht] at h
        by_cases ht2 : typeOfCell (cellAt cs i) = tSYMBOL ∨ typeOfCell (cellAt cs i) = tSTRING ∨
            typeOfCell (cellAt cs i) = tFUNC ∨ typeOfCell (cellAt cs i) = tMAC
        case pos =>
          rw [if_pos ht2] at h
          have hcdr : (cellAt cs i).cdr ∈ cellRefs (cellAt cs i) := by
            rw [cellRefs, if_neg ht, if_pos ht2]
            simp
          rcases ih cs1 (cellAt cs i).cdr j h with h1 | hr1
          · exact hcs1j j h1
          · have : Reaches cs (cellAt cs i).cdr j := (markEvo_reaches hevo1 _ _).mpr hr1
            exact Or.inr (reaches_prepend cs _ j i this hcdr hlt)
        case neg =>
          rw [if_neg ht2] at h
          exact hcs1j j h
    all_goals
      rw [markF_nonref _ _ _ (by intro m hcon; cases hcon)] at h
      exact Or.inl h

/-! ## Fuel irrelevance of the marker (claim C10) -/

theorem markF_fuel (f : ℕ) : ∀ (g : ℕ) (cs : List Cell) (v : Val),
    cnt cs ≤ f → cnt cs ≤ g → markF f cs v = markF g cs v := by
  induction f with
  | zero =>
    intro g cs v hf _
    rw [markF_zero, markF_all_marked g cs v (Nat.le_zero.mp hf)]
  | succ f ih =>
    intro g cs v hf hg
    cases g with
    | zero =>
      rw [markF_zero, markF_all_marked (f + 1) cs v (Nat.le_zero.mp hg)]
    | succ g =>
      cases v
      case ref i =>
        rw [markF_ref_succ, markF_ref_succ]
        by_cases hlt : i < cs.length
        case neg => rw [if_neg hlt, if_neg hlt]
        rw [if_pos hlt, if_pos hlt]
        by_cases hm : markedCell (cellAt cs i) = true
        case pos => rw [if_pos hm, if_pos hm]
        rw [if_neg hm, if_neg hm]
        have hm0 : markedCell (cellAt cs i) = false := by simpa using hm
        have hcnt1 : cnt (cs.set i (setMarkCell (cellAt cs i))) + 1 = cnt cs :=
          cnt_set_mark cs i hlt hm0
        by_cases ht : typeOfCell (cellAt cs i) = tPAIR
        case pos =>
          rw [if_pos ht, if_pos ht]
          have h1 : markF f (cs.set i (setMarkCell (cellAt cs i))) (cellAt cs i).car =
              markF g (cs.set i (setMarkCell (cellAt cs i))) (cellAt cs i).car :=
            ih g _ _ (by omega) (by omega)
          rw [← h1]
          set A := markF f (cs.set i (setMarkCell (cellAt cs i))) (cellAt cs i).car
          have hcntA : cnt A ≤ cnt (cs.set i (setMarkCell (cellAt cs i))) := markF_cnt _ _ _
          exact ih g A _ (by omega) (by omega)
        case neg =>
          rw [if_neg ht, if_neg ht]
          by_cases ht2 : typeOfCell (cellAt cs i) = tSYMBOL ∨ typeOfCell (cellAt cs i) = tSTRING ∨
              typeOfCell (cellAt cs i) = tFUNC ∨ typeOfCell (cellAt cs i) = tMAC
          case pos =>
            rw [if_pos ht2, if_pos ht2]
            exact ih g _ _ (by omega) (by omega)
          case neg =>
            rw [if_neg ht2, if_neg ht2]
      all_goals rfl

/-- Claim C10: `fe_mark` terminates on every argument, including cyclic
object graphs: with any fuel of at least one unit per arena cell the
computation is complete (each cell is marked before traversal and marked
cells are skipped, so at most one unit of fuel is spent per cell and the
result no longer depends on the fuel); pointers outside the arena are
ignored by the bounds test in `markF`. -/
theorem c10_mark_terminates (cs : List Cell) (v : Val) (f : ℕ)
    (hf : cs.length ≤ f) : markF f cs v = feMark cs v :=
  markF_fuel f cs.length cs v (le_trans (cnt_le_length cs) hf) (cnt_le_length cs)

/-- Witness for C10 on a cyclic graph: a single pair cell whose `car` and
`cdr` both point back to itself. -/
theorem c10_mark_terminates_witness :
    ([(⟨0, .ref 0, .ref 0⟩ : Cell)] : List Cell).length ≤ 5 ∧
      markF 5 [(⟨0, .ref 0, .ref 0⟩ : Cell)] (.ref 0) =
        feMark [(⟨0, .ref 0, .ref 0⟩ : Cell)] (.ref 0) :=
  ⟨by decide, c10_mark_terminates [(⟨0, .ref 0, .ref 0⟩ : Cell)] (.ref 0) 5 (by decide)⟩

/-! ## Marking a list of roots -/

/-- Fold of `fe_mark` over a list of root words. -/
def markList (cs : List Cell) (vs : List Val) : List Cell :=
  vs.foldl feMark cs

theorem feMark_nonref (cs : List Cell) (v : Val) (h : ∀ i, v ≠ .ref i) :
    feMark cs v = cs :=
  markF_nonref _ _ _ h

theorem feMark_evo (cs : List Cell) (v : Val) : MarkEvo cs (feMark cs v) :=
  markF_evo _ _ _

/-- The conditional in the root-stack loop of `collectgarbage` (fe.c:376)
skips only words on which `fe_mark` is a no-op anyway. -/
theorem collectMark_eq (st : Ctx) :
    collectMark st = markList st.objects (rootVals st) := by
  unfold collectMark markList rootVals
  rw [List.foldl_append]
  have hfn : (fun cs v => if !isFix v && v != Val.nilv then feMark cs v else cs) =
      fun (cs : List Cell) (v : Val) => feMark cs v := by
    funext cs v
    by_cases h : (!isFix v && v != Val.nilv) = true
    · rw [if_pos h]
    · rw [if_neg h]
      rw [Bool.and_eq_true, Bool.not_eq_true', bne, Bool.not_eq_true'] at h
      by_cases hfx : isFix v = true
      · cases v <;> simp [isFix] at hfx ⊢
        rw [feMark_nonref _ _ (by intro i h; cases h)]
      · have : v = Val.nilv := by
          rcases not_and_or.mp h with h1 | h2
          · exact absurd (by simpa using h1) hfx
          · simpa [decide_eq_true_eq] using h2
        subst this
        rw [feMark_nonref _ _ (by intro i h; cases h)]
  rw [hfn]
  rfl

theorem markList_evo (cs : List Cell) (vs : List Val) : MarkEvo cs (markList cs vs) := by
  induction vs generalizing cs with
  | nil => exact markEvo_refl cs
  | cons v vs ih => exact markEvo_trans (feMark_evo cs v) (ih (feMark cs v))

theorem markList_marked_mono (cs : List Cell) (vs : List Val) (j : ℕ)
    (h : markedCell (cellAt cs j) = true) :
    markedCell (cellAt (markList cs vs) j) = true :=
  markEvo_marked (markList_evo cs vs) j h

theorem markList_root_marked (cs : List Cell) (vs : List Val) (i : ℕ)
    (hv : Val.ref i ∈ vs) (hi : i < cs.length) :
    markedCell (cellAt (markList cs vs) i) = true := by
  induction vs generalizing cs with
  | nil => cases hv
  | cons v vs ih =>
    rcases List.mem_cons.mp hv with h | h
    · subst h
      have hmk := markF_root_marked cs.length cs i (cnt_le_length cs) hi
      exact markList_marked_mono _ vs i hmk
    · exact ih (feMark cs v) h (by rwa [(feMark_evo cs v).1])

/-- Relative closure: every cell newly marked while evolving from `cs0` has
all its in-arena successors marked. -/
def ClosedRel (cs0 cs : List Cell) : Prop :=
  ∀ j, j < cs0.length → markedCell (cellAt cs0 j) = false →
    markedCell (cellAt cs j) = true →
    ∀ k, Val.ref k ∈ cellRefs (cellAt cs0 j) → k < cs0.length →
      markedCell (cellAt cs k) = true

theorem closedRel_step (cs0 cs : List Cell) (v : Val) (hevo : MarkEvo cs0 cs)
    (hcl : ClosedRel cs0 cs) : ClosedRel cs0 (feMark cs v) := by
  intro j hj h0 hmk k hk hklen
  by_cases hcs : markedCell (cellAt cs j) = true
  · exact markF_marked_mono _ _ _ _ (hcl j hj h0 hcs k hk hklen)
  · have hcs0 : markedCell (cellAt cs j) = false := by simpa using hcs
    have := markF_closure cs.length cs v (cnt_le_length cs) j
      (by rw [hevo.1]; exact hj) hcs0 hmk k
      (by rw [markEvo_cellRefs hevo]; exact hk) (by rw [hevo.1]; exact hklen)
    exact this

theorem markList_closedRel (cs : List Cell) (vs : List Val) :
    ClosedRel cs (markList cs vs) := by
  suffices h : ∀ (cs0 : List Cell) (vs : List Val) (cs : List Cell), MarkEvo cs0 cs →
      ClosedRel cs0 cs → ClosedRel cs0 (markList cs vs) by
    exact h cs vs cs (markEvo_refl cs) (fun j _ h0 hmk _ _ _ => by rw [h0] at hmk; cases hmk)
  intro cs0 vs
  induction vs with
  | nil => intro cs _ hcl; exact hcl
  | cons v vs ih =>
    intro cs hevo hcl
    exact ih (feMark cs v) (markEvo_trans hevo (feMark_evo cs v)) (closedRel_step cs0 cs v hevo hcl)

theorem markList_sound (vs : List Val) : ∀ (cs : List Cell) (j : ℕ),
    markedCell (cellAt (markList cs vs) j) = true →
    markedCell (cellAt cs j) = true ∨ ∃ v ∈ vs, Reaches cs v j := by
  induction vs with
  | nil => intro cs j h; exact Or.inl h
  | cons v vs ih =>
    intro cs j h
    rcases ih (feMark cs v) j h with h1 | ⟨u, hu, hr⟩
    · rcases markF_sound cs.length cs v j h1 with h2 | h2
      · exact Or.inl h2
      · exact Or.inr ⟨v, List.mem_cons_self v vs, h2⟩
    · have : Reaches cs u j := (markEvo_reaches (feMark_evo cs v) u j).mpr hr
      exact Or.inr ⟨u, List.mem_cons_of_mem v hu, this⟩

theorem markList_complete (cs : List Cell) (vs : List Val)
    (hm : ∀ j, j < cs.length → markedCell (cellAt cs j) = false)
    (j : ℕ) (v : Val) (hv : v ∈ vs) (hr : Reaches cs v j) :
    markedCell (cellAt (markList cs vs) j) = true := by
  induction hr with
  | here i hi => exact markList_root_marked cs vs i hv hi
  | step v i j hi hr he hj ih =>
    exact markList_closedRel cs vs i hi (hm i hi) (ih hv) j he hj

/-! ## Sweep lemmas -/

theorem sweepStep_cell_ne (acc : List Cell × Val × ℕ) (i j : ℕ) (h : i ≠ j) :
    cellAt (sweepStep acc i).1 j = cellAt acc.1 j := by
  unfold sweepStep
  dsimp only
  split
  · rfl
  · split <;> exact cellAt_set_ne _ _ _ _ h

theorem sweepStep_cell_marked (acc : List Cell × Val × ℕ) (i : ℕ)
    (hi : i < acc.1.length) (hm : markedCell (cellAt acc.1 i) = true)
    (ht : typeOfCell (cellAt acc.1 i) ≠ tFREE) :
    cellAt (sweepStep acc i).1 i = clearMarkCell (cellAt acc.1 i) := by
  unfold sweepStep
  dsimp only
  rw [if_neg ht, if_neg (by rw [hm]; simp)]
  exact cellAt_set_self _ _ _ hi

theorem sweepFrom_len : ∀ (n i : ℕ) (acc : List Cell × Val × ℕ),
    acc.1.length - i ≤ n → (sweepFrom i acc).1.length = acc.1.length := by
  intro n
  induction n with
  | zero =>
    intro i acc h
    rw [sweepFrom, dif_neg (by omega)]
  | succ n ih =>
    intro i acc h
    rw [sweepFrom]
    by_cases hlt : i < acc.1.length
    · rw [dif_pos hlt, ih (i + 1) _ (by rw [sweepStep_length]; omega), sweepStep_length]
    · rw [dif_neg hlt]

theorem sweepFrom_below : ∀ (n i : ℕ) (acc : List Cell × Val × ℕ) (j : ℕ),
    acc.1.length - i ≤ n → j < i →
    cellAt (sweepFrom i acc).1 j = cellAt acc.1 j := by
  intro n
  induction n with
  | zero =>
    intro i acc j h _
    rw [sweepFrom, dif_neg (by omega)]
  | succ n ih =>
    intro i acc j h hj
    rw [sweepFrom]
    by_cases hlt : i < acc.1.length
    · rw [dif_pos hlt, ih (i + 1) _ j (by rw [sweepStep_length]; omega) (by omega)]
      exact sweepStep_cell_ne acc i j (by omega)
    · rw [dif_neg hlt]

theorem sweepFrom_marked_cell : ∀ (n i : ℕ) (acc : List Cell × Val × ℕ) (j : ℕ),
    acc.1.length - i ≤ n → i ≤ j → j < acc.1.length →
    markedCell (cellAt acc.1 j) = true → typeOfCell (cellAt acc.1 j) ≠ tFREE →
    cellAt (sweepFrom i acc).1 j = clearMarkCell (cellAt acc.1 j) := by
  intro n
  induction n with
  | zero =>
    intro i acc j h hij hj _ _
    omega
  | succ n ih =>
    intro i acc j h hij hj hm ht
    rw [sweepFrom]
    have hlt : i < acc.1.length := by omega
    rw [dif_pos hlt]
    by_cases hji : j = i
    · subst hji
      rw [sweepFrom_below n (j + 1) _ j (by rw [sweepStep_length]; omega) (by omega)]
      exact sweepStep_cell_marked acc j hlt hm ht
    · have hne := sweepStep_cell_ne acc i j (fun he => hji he.symm)
      rw [ih (i + 1) _ j (by rw [sweepStep_length]; omega) (by omega)
        (by rw [sweepStep_length]; omega) (by rw [hne]; exact hm) (by rw [hne]; exact ht), hne]

theorem sweepFrom_unmarked : ∀ (n i : ℕ) (acc : List Cell × Val × ℕ) (j : ℕ),
    acc.1.length - i ≤ n → i ≤ j → j < acc.1.length →
    (typeOfCell (cellAt acc.1 j) = tFREE → markedCell (cellAt acc.1 j) = false) →
    markedCell (cellAt (sweepFrom i acc).1 j) = false := by
  intro n
  induction n with
  | zero =>
    intro i acc j h hij hj _
    omega
  | succ n ih =>
    intro i acc j h hij hj hfm
    rw [sweepFrom]
    have hlt : i < acc.1.length := by omega
    rw [dif_pos hlt]
    by_cases hji : j = i
    · subst hji
      rw [sweepFrom_below n (j + 1) _ j (by rw [sweepStep_length]; omega) (by omega)]
      unfold sweepStep
      dsimp only
      by_cases htf : typeOfCell (cellAt acc.1 j) = tFREE
      · rw [if_pos htf]
        exact hfm htf
      · rw [if_neg htf]
        by_cases hmk : markedCell (cellAt acc.1 j) = true
        · rw [if_neg (by rw [hmk]; simp)]
          rw [cellAt_set_self _ _ _ hlt]
          exact marked_clearMark _
        · rw [if_pos (by simp only [Bool.not_eq_true] at hmk; rw [hmk]; rfl)]
          rw [cellAt_set_self _ _ _ hlt]
          rw [markedCell_false_iff]
          unfold settypeFlags tFREE
          dsimp only
          omega
    · have hne := sweepStep_cell_ne acc i j (fun he => hji he.symm)
      exact ih (i + 1) _ j (by rw [sweepStep_length]; omega) (by omega)
        (by rw [sweepStep_length]; omega) (by rw [hne]; exact hfm)

theorem reaches_lt (cs : List Cell) (v : Val) (j : ℕ) (h : Reaches cs v j) :
    j < cs.length := by
  induction h with
  | here i hi => exact hi
  | step v i j hi hr he hj ih => exact hj

/-! ## Claim C1: the collector preserves reachable cells -/

/-- Claim C1: after `collectgarbage`, in a well-formed pre-state (no mark
bits set, and no cell reachable from the root set is already FREE — the
freelist representation of being on the freelist), every cell reachable
before the collection from the GC root stack, the module-export stack or
the interned-symbol list keeps its exact flags byte (hence its type tag),
`car` and `cdr`; it is not retyped FREE (the sweep places a cell on the
freelist exactly by retyping it FREE, fe.c:393-395); and no cell in the
arena has its GC mark bit set after the sweep. -/
theorem c1_gc_preserves_reachable (st : Ctx)
    (hm : ∀ j, j < st.objects.length → markedCell (cellAt st.objects j) = false)
    (hfree : ∀ j, RootReaches st j → typeOfCell (cellAt st.objects j) ≠ tFREE) :
    (∀ j, RootReaches st j →
      cellAt (collectgarbage st).objects j = cellAt st.objects j ∧
      typeOfCell (cellAt (collectgarbage st).objects j) ≠ tFREE) ∧
    (∀ j, j < st.objects.length →
      markedCell (cellAt (collectgarbage st).objects j) = false) := by
  have hcs1 : collectMark st = markList st.objects (rootVals st) := collectMark_eq st
  have hevo : MarkEvo st.objects (collectMark st) := by
    rw [hcs1]
    exact markList_evo st.objects (rootVals st)
  have hlen1 : (collectMark st).length = st.objects.length := hevo.1
  have hobj : (collectgarbage st).objects =
      (sweepFrom 0 (collectMark st, st.freelist, 0)).1 := rfl
  have htup : ((collectMark st, st.freelist, (0 : ℕ))).1 = collectMark st := rfl
  have hfm : ∀ j, j < st.objects.length →
      (typeOfCell (cellAt (collectMark st) j) = tFREE →
        markedCell (cellAt (collectMark st) j) = false) := by
    intro j hj htf
    by_cases hmk : markedCell (cellAt (collectMark st) j) = true
    · exfalso
      rw [hcs1] at hmk
      rcases markList_sound (rootVals st) st.objects j hmk with h1 | ⟨v, hv, hr⟩
      · rw [hm j hj] at h1
        cases h1
      · have : typeOfCell (cellAt st.objects j) ≠ tFREE := hfree j ⟨v, hv, hr⟩
        rw [markEvo_typeOf hevo j] at htf
        exact this htf
    · simpa using hmk
  constructor
  · intro j hrr
    obtain ⟨v, hv, hr⟩ := hrr
    have hj : j < st.objects.length := reaches_lt st.objects v j hr
    have hmkd : markedCell (cellAt (collectMark st) j) = true := by
      rw [hcs1]
      exact markList_complete st.objects (rootVals st) hm j v hv hr
    have htype : typeOfCell (cellAt (collectMark st) j) ≠ tFREE := by
      rw [markEvo_typeOf hevo j]
      exact hfree j ⟨v, hv, hr⟩
    have hsw : cellAt (sweepFrom 0 (collectMark st, st.freelist, 0)).1 j =
        clearMarkCell (cellAt (collectMark st) j) := by
      refine sweepFrom_marked_cell ((collectMark st).length) 0
        (collectMark st, st.freelist, 0) j ?_ ?_ ?_ hmkd htype
      · rw [htup]
        omega
      · omega
      · rw [htup, hlen1]
        exact hj
    have hsm : cellAt (collectMark st) j = setMarkCell (cellAt st.objects j) := by
      rcases hevo.2 j with h1 | h1
      · rw [h1] at hmkd
        rw [hm j hj] at hmkd
        cases hmkd
      · exact h1
    constructor
    · rw [hobj, hsw, hsm, clear_setMark _ (hm j hj)]
    · rw [hobj, hsw, hsm, clear_setMark _ (hm j hj)]
      exact hfree j ⟨v, hv, hr⟩
  · intro j hj
    rw [hobj]
    refine sweepFrom_unmarked ((collectMark st).length) 0
      (collectMark st, st.freelist, 0) j ?_ ?_ ?_ ?_
    · rw [htup]
      omega
    · omega
    · rw [htup, hlen1]
      exact hj
    · rw [htup]
      exact hfm j hj

/-- Helper for discharging reachability side conditions on concrete states:
any list of indices containing the root cells and closed under `cellRefs`
edges over-approximates the reachable set. -/
theorem reaches_in_closed_set (cs : List Cell) (S : List ℕ)
    (hS : ∀ i ∈ S, ∀ k, Val.ref k ∈ cellRefs (cellAt cs i) → k < cs.length → k ∈ S)
    (v : Val) (j : ℕ) (hr : Reaches cs v j)
    (hroot : ∀ m, v = Val.ref m → m < cs.length → m ∈ S) : j ∈ S := by
  induction hr with
  | here i hi => exact hroot i rfl hi
  | step v i j hi hr he hj ih => exact hS i (ih hroot) j he hj

/-- Witness state for C1: cell 0 is a live pair reaching the number cell 1,
cell 2 is garbage, cell 3 is the freelist. -/
def c1WitnessCtx : Ctx :=
  { objects :=
      [⟨0, .ref 1, .nilv⟩, ⟨13, .nilv, .numv 7⟩, ⟨0, .nilv, .nilv⟩, ⟨5, .nilv, .nilv⟩]
    gcstack := [.ref 0]
    modulestack := .nilv
    symlist := .nilv
    freelist := .ref 3
    live_count := 0
    allocs_since_gc := 0
    gc_threshold := 1024 }

theorem c1_gc_preserves_reachable_witness :
    (∀ j, j < c1WitnessCtx.objects.length →
      markedCell (cellAt c1WitnessCtx.objects j) = false) ∧
    (∀ j, RootReaches c1WitnessCtx j →
      typeOfCell (cellAt c1WitnessCtx.objects j) ≠ tFREE) ∧
    ((∀ j, RootReaches c1WitnessCtx j →
      cellAt (collectgarbage c1WitnessCtx).objects j = cellAt c1WitnessCtx.objects j ∧
      typeOfCell (cellAt (collectgarbage c1WitnessCtx).objects j) ≠ tFREE) ∧
    (∀ j, j < c1WitnessCtx.objects.length →
      markedCell (cellAt (collectgarbage c1WitnessCtx).objects j) = false)) := by
  have hm : ∀ j, j < c1WitnessCtx.objects.length →
      markedCell (cellAt c1WitnessCtx.objects j) = false := by decide
  have hS : ∀ i ∈ [0, 1], ∀ k,
      Val.ref k ∈ cellRefs (cellAt c1WitnessCtx.objects i) →
      k < c1WitnessCtx.objects.length → k ∈ [0, 1] := by
    intro i hi k hk _
    fin_cases hi
    · have : Val.ref k ∈ [Val.ref 1, Val.nilv] := hk
      rcases List.mem_pair.mp this with h | h
      · cases h
        simp
      · cases h
    · have : Val.ref k ∈ ([] : List Val) := hk
      cases this
  have hfree : ∀ j, RootReaches c1WitnessCtx j →
      typeOfCell (cellAt c1WitnessCtx.objects j) ≠ tFREE := by
    intro j hrr
    obtain ⟨v, hv, hr⟩ := hrr
    have hj : j ∈ [0, 1] := by
      refine reaches_in_closed_set _ [0, 1] hS v j hr ?_
      intro m hvm _
      have : v ∈ [Val.ref 0, Val.nilv, Val.nilv] := hv
      fin_cases this <;> cases hvm
      simp
    fin_cases hj <;> decide
  exact ⟨hm, hfree, c1_gc_preserves_reachable c1WitnessCtx hm hfree⟩

/-! ## Claim C3: allocation raises out-of-memory iff collection left the
freelist empty -/

/-- Claim C3: `object` raises `out of memory` exactly when the GC-trigger
condition held (allocation counter at or past the threshold, or the
freelist already empty — in particular a collection was attempted first)
and the freelist is still empty after that collection; on any other path
the allocator cannot report out-of-memory. -/
theorem popFree_ne_oom (st1 : Ctx) : popFree st1 ≠ .error "out of memory" := by
  intro h
  unfold popFree at h
  split at h
  · split at h
    · split at h
      · cases h
      · injection h with h
        rename_i heq
        unfold pushgc at heq
        split at heq
        · cases heq
        · split at heq
          · injection heq with heq
            rw [← heq] at h
            exact absurd h (by decide)
          · cases heq
    · injection h with h
      exact absurd h (by decide)
  · injection h with h
    exact absurd h (by decide)

theorem c3_alloc_oom_iff (st : Ctx) :
    objectAlloc st = .error "out of memory" ↔
      ((st.gc_threshold ≤ st.allocs_since_gc ∨ st.freelist = Val.nilv) ∧
        (collectgarbage st).freelist = Val.nilv) := by
  unfold objectAlloc
  by_cases ht : (st.gc_threshold ≤ st.allocs_since_gc ∨ st.freelist = Val.nilv)
  · rw [if_pos ht]
    by_cases hf : (collectgarbage st).freelist = Val.nilv
    · rw [if_pos hf]
      simp [ht, hf]
    · rw [if_neg hf]
      simp only [ht, true_and, hf, iff_false]
      exact popFree_ne_oom _
  · rw [if_neg ht]
    simp only [ht, false_and, iff_false]
    exact popFree_ne_oom _

end Fe

namespace Fe.An

/-! ## Tree-level model of the free-variable analyzer (fe.c:127-211)

`analyze` walks reader- or parser-produced forms, which are acyclic cons
trees, so the embedding uses an inductive term type.  Interned symbols are
identified by their names: within one context, pointer equality of symbol
cells coincides with name equality (fe.c:511-525), and the sentinel
comparisons `op == quote_sym` etc. compare against the interned symbols of
that context (see `Fe.Ev` and claim C7 for the multi-context failure of
this identification).

The C `car`/`cdr` macros applied to a non-pair read raw union fields
(undefined behaviour); the model makes them total by returning nil, and
walks that terminate on nil in C (`!isnil(p)`) terminate on any non-pair
here.  These corners are outside every defined execution of the source. -/

inductive SExpr where
  | nilE
  | boolE (b : Bool)
  | numE (q : ℚ)
  | strE (s : String)
  | symE (name : String)
  | pairE (a d : SExpr)
  deriving DecidableEq, Repr

open SExpr

def isSym : SExpr → Bool
  | .symE _ => true
  | _ => false

def carT : SExpr → SExpr
  | .pairE a _ => a
  | _ => .nilE

def cdrT : SExpr → SExpr
  | .pairE _ d => d
  | _ => .nilE

/-- `list_has` (fe.c:115-120): linear scan with pointer equality, which for
interned symbols is name equality. -/
def list_has : List SExpr → SExpr → Bool
  | [], _ => false
  | y :: l, x => if y = x then true else list_has l x

/-- Detection of a `(let name expr)` statement inside `do` (fe.c:153). -/
def stmtIsLet (stmt : SExpr) : Bool :=
  match stmt with
  | .pairE op _ => op = .symE "let"
  | _ => false

/-- The `inner_bound` loop of the `fn`/`mac` case (fe.c:180-184): cons each
parameter onto the bound list. -/
def paramsBound : SExpr → List SExpr → List SExpr
  | .pairE a rest, acc => paramsBound rest (a :: acc)
  | _, acc => acc

/-- The base case of `analyze` (fe.c:129-134): a symbol not bound and not
already collected is free. -/
def freeStep (x : SExpr) (bound fv : List SExpr) : List SExpr :=
  if isSym x ∧ ¬ list_has bound x ∧ ¬ list_has fv x then x :: fv else fv

/-- The re-analysis loop over the inner function's free list (fe.c:193-196):
the loop applies `analyze` to each collected name; every collected name is a
symbol atom (`analyze_all_syms` below), on which `analyze` is exactly
`freeStep` (`analyze_atom` below), so the loop is written with that step. -/
def analyzeFree : List SExpr → List SExpr → List SExpr → List SExpr
  | [], _, fv => fv
  | x :: l, bound, fv => analyzeFree l bound (freeStep x bound fv)

theorem sizeOf_carT (x : SExpr) : sizeOf (carT x) ≤ sizeOf x := by
  cases x <;> simp [carT] <;> omega

theorem sizeOf_cdrT (x : SExpr) : sizeOf (cdrT x) ≤ sizeOf x := by
  cases x <;> simp [cdrT] <;> omega

theorem sizeOf_pairE (a d : SExpr) :
    sizeOf (SExpr.pairE a d) = 1 + sizeOf a + sizeOf d := rfl

mutual

/-- `analyze` (fe.c:127-211): accumulate the free names of `node` under
`bound` into `free_vars` (passed and returned functionally; the C mutates
through `fe_Object **free_vars`).  GC root pushes are no-ops here. -/
def analyze : SExpr → List SExpr → List SExpr → List SExpr
  | .pairE op args, bound, fv =>
    if op = .symE "quote" then fv
    else if op = .symE "do" then analyzeDo args bound fv
    else if op = .symE "fn" ∨ op = .symE "mac" then
      analyzeFree (analyze (carT (cdrT args)) (paramsBound (carT args) []) []) bound fv
    else analyzeSpine args bound (analyze op bound fv)
  | node, bound, fv => freeStep node bound fv
termination_by node _ _ => 2 * sizeOf node
decreasing_by
  all_goals simp_wf
  all_goals
    try have hA1 := sizeOf_carT (cdrT args)
    try have hA2 := sizeOf_cdrT args
    try have hB1 := sizeOf_carT (cdrT (cdrT op))
    try have hB2 := sizeOf_cdrT (cdrT op)
    try have hB3 := sizeOf_cdrT op
    try have hC1 := sizeOf_carT (cdrT (cdrT stmt))
    try have hC2 := sizeOf_cdrT (cdrT stmt)
    try have hC3 := sizeOf_cdrT stmt
    omega

/-- The `do` statement loop (fe.c:145-171) with its evolving local bound
list for `(let name expr)` statements. -/
def analyzeDo : SExpr → List SExpr → List SExpr → List SExpr
  | .pairE stmt rest, bound, fv =>
    if stmtIsLet stmt then
      analyzeDo rest (carT (cdrT stmt) :: bound)
        (analyze (carT (cdrT (cdrT stmt))) bound fv)
    else analyzeDo rest bound (analyze stmt bound fv)
  | _, _, fv => fv
termination_by args _ _ => 2 * sizeOf args + 1
decreasing_by
  all_goals simp_wf
  all_goals
    try have hA1 := sizeOf_carT (cdrT args)
    try have hA2 := sizeOf_cdrT args
    try have hB1 := sizeOf_carT (cdrT (cdrT op))
    try have hB2 := sizeOf_cdrT (cdrT op)
    try have hB3 := sizeOf_cdrT op
    try have hC1 := sizeOf_carT (cdrT (cdrT stmt))
    try have hC2 := sizeOf_cdrT (cdrT stmt)
    try have hC3 := sizeOf_cdrT stmt
    omega

/-- The generic-call argument loop (fe.c:202-210), analyzing a dotted tail
as an expression. -/
def analyzeSpine : SExpr → List SExpr → List SExpr → List SExpr
  | .pairE a rest, bound, fv => analyzeSpine rest bound (analyze a bound fv)
  | .nilE, _, fv => fv
  | t, bound, fv => analyze t bound fv
termination_by args _ _ => 2 * sizeOf args + 1
decreasing_by
  all_goals simp_wf
  all_goals
    try have hA1 := sizeOf_carT (cdrT args)
    try have hA2 := sizeOf_cdrT args
    try have hB1 := sizeOf_carT (cdrT (cdrT op))
    try have hB2 := sizeOf_cdrT (cdrT op)
    try have hB3 := sizeOf_cdrT op
    try have hC1 := sizeOf_carT (cdrT (cdrT stmt))
    try have hC2 := sizeOf_cdrT (cdrT stmt)
    try have hC3 := sizeOf_cdrT stmt
    omega

end

/-! ## Set-level characterization of `analyze` -/

mutual

/-- Free names of a form under a bound list, without the accumulator and its
deduplication: `analyze node bound fv` collects exactly `fv ∪ fvList node
bound` (`analyze_mem`). -/
def fvList : SExpr → List SExpr → List SExpr
  | .pairE op args, bound =>
    if op = .symE "quote" then []
    else if op = .symE "do" then fvDo args bound
    else if op = .symE "fn" ∨ op = .symE "mac" then
      (fvList (carT (cdrT args)) (paramsBound (carT args) [])).filter
        (fun y => !list_has bound y)
    else fvList op bound ++ fvSpine args bound
  | node, bound => if isSym node ∧ ¬ list_has bound node then [node] else []
termination_by node _ => 2 * sizeOf node
decreasing_by
  all_goals simp_wf
  all_goals
    try have hA1 := sizeOf_carT (cdrT args)
    try have hA2 := sizeOf_cdrT args
    try have hD1 := sizeOf_carT (cdrT rest)
    try have hD2 := sizeOf_cdrT rest
    omega

def fvDo : SExpr → List SExpr → List SExpr
  | .pairE stmt rest, bound =>
    if stmtIsLet stmt then
      fvList (carT (cdrT (cdrT stmt))) bound ++ fvDo rest (carT (cdrT stmt) :: bound)
    else fvList stmt bound ++ fvDo rest bound
  | _, _ => []
termination_by args _ => 2 * sizeOf args + 1
decreasing_by
  all_goals simp_wf
  all_goals
    try have hB1 := sizeOf_carT (cdrT (cdrT op))
    try have hB2 := sizeOf_cdrT (cdrT op)
    try have hB3 := sizeOf_cdrT op
    try have hC1 := sizeOf_carT (cdrT (cdrT stmt))
    try have hC2 := sizeOf_cdrT (cdrT stmt)
    try have hC3 := sizeOf_cdrT stmt
    try have hE1 := sizeOf_carT (cdrT (cdrT a))
    try have hE2 := sizeOf_cdrT (cdrT a)
    try have hE3 := sizeOf_cdrT a
    omega

def fvSpine : SExpr → List SExpr → List SExpr
  | .pairE a rest, bound => fvList a bound ++ fvSpine rest bound
  | .nilE, _ => []
  | t, bound => fvList t bound
termination_by args _ => 2 * sizeOf args + 1
decreasing_by
  all_goals simp_wf
  all_goals omega

end

theorem list_has_iff (l : List SExpr) (x : SExpr) : list_has l x = true ↔ x ∈ l := by
  induction l with
  | nil => simp [list_has]
  | cons y l ih =>
    unfold list_has
    by_cases h : y = x
    · simp [h]
    · rw [if_neg h, ih]
      constructor
      · exact fun hm => List.mem_cons_of_mem y hm
      · intro hm
        rcases List.mem_cons.mp hm with h1 | h1
        · exact absurd h1.symm h
        · exact h1

theorem list_has_false_iff (l : List SExpr) (x : SExpr) :
    list_has l x = false ↔ x ∉ l := by
  rw [← list_has_iff]
  cases list_has l x <;> simp

theorem freeStep_mem (x : SExpr) (bound fv : List SExpr) (y : SExpr) :
    y ∈ freeStep x bound fv ↔
      y ∈ fv ∨ (y = x ∧ isSym x = true ∧ x ∉ bound) := by
  unfold freeStep
  by_cases h : isSym x ∧ ¬ list_has bound x ∧ ¬ list_has fv x
  · rw [if_pos h]
    constructor
    · intro hm
      rcases List.mem_cons.mp hm with h1 | h1
      · refine Or.inr ⟨h1, h.1, ?_⟩
        rw [← list_has_iff]
        cases hb : list_has bound x
        · simp
        · exact absurd hb h.2.1
      · exact Or.inl h1
    · intro hm
      rcases hm with h1 | h1
      · exact List.mem_cons_of_mem x h1
      · rw [h1.1]
        exact List.mem_cons_self x fv
  · rw [if_neg h]
    constructor
    · exact Or.inl
    · intro hm
      rcases hm with h1 | h1
      · exact h1
      · rcases h1 with ⟨hyx, hsym, hnb⟩
        subst hyx
        have hb : list_has bound y = false := (list_has_false_iff bound y).mpr hnb
        have h2 : ¬ list_has bound y = true := by
          rw [hb]
          exact Bool.false_ne_true
        have h3 : list_has fv y = true := by
          by_contra hc
          exact h ⟨hsym, h2, hc⟩
        exact (list_has_iff fv y).mp h3

theorem analyzeFree_mem (l : List SExpr) (bound : List SExpr) :
    ∀ (fv : List SExpr) (y : SExpr),
    y ∈ analyzeFree l bound fv ↔
      y ∈ fv ∨ (y ∈ l ∧ isSym y = true ∧ y ∉ bound) := by
  induction l with
  | nil => intro fv y; simp [analyzeFree]
  | cons x l ih =>
    intro fv y
    unfold analyzeFree
    rw [ih, freeStep_mem]
    constructor
    · intro hm
      rcases hm with (h1 | ⟨hyx, hs, hb⟩) | h1
      · exact Or.inl h1
      · subst hyx
        exact Or.inr ⟨List.mem_cons_self y l, hs, hb⟩
      · exact Or.inr ⟨List.mem_cons_of_mem x h1.1, h1.2.1, h1.2.2⟩
    · intro hm
      rcases hm with h1 | ⟨hyl, hs, hb⟩
      · exact Or.inl (Or.inl h1)
      · rcases List.mem_cons.mp hyl with h2 | h2
        · subst h2
          exact Or.inl (Or.inr ⟨rfl, hs, hb⟩)
        · exact Or.inr ⟨h2, hs, hb⟩

theorem fvList_sym_aux : ∀ (n : ℕ),
    (∀ node bound, 2 * sizeOf node ≤ n →
      ∀ x ∈ fvList node bound, isSym x = true) ∧
    (∀ args bound, 2 * sizeOf args + 1 ≤ n →
      ∀ x ∈ fvDo args bound, isSym x = true) ∧
    (∀ args bound, 2 * sizeOf args + 1 ≤ n →
      ∀ x ∈ fvSpine args bound, isSym x = true) := by
  intro n
  induction n using Nat.strong_induction_on with
  | _ n ih =>
    refine ⟨?_, ?_, ?_⟩
    · intro node bound hn x hx
      cases node
      case pairE op args =>
        have hsz : sizeOf args < sizeOf (SExpr.pairE op args) := by
          rw [sizeOf_pairE]
          omega
        have hop : sizeOf op < sizeOf (SExpr.pairE op args) := by
          rw [sizeOf_pairE]
          omega
        rw [fvList] at hx
        split at hx
        · cases hx
        · split at hx
          · exact (ih (2 * sizeOf args + 1) (by omega)).2.1 args bound le_rfl x hx
          · split at hx
            · have hb := sizeOf_carT (cdrT args)
              have hb2 := sizeOf_cdrT args
              have := List.mem_filter.mp hx
              exact (ih (2 * sizeOf (carT (cdrT args))) (by omega)).1 _ _ le_rfl x this.1
            · rcases List.mem_append.mp hx with h1 | h1
              · exact (ih (2 * sizeOf op) (by omega)).1 op bound le_rfl x h1
              · exact (ih (2 * sizeOf args + 1) (by omega)).2.2 args bound le_rfl x h1
      all_goals
        simp only [fvList] at hx
        split at hx
        · rename_i hcond
          rw [List.mem_singleton.mp hx]
          exact hcond.1
        · cases hx
    · intro args bound hn x hx
      cases args
      case pairE stmt rest =>
        have h1 := sizeOf_carT (cdrT (cdrT stmt))
        have h2 := sizeOf_cdrT (cdrT stmt)
        have h3 := sizeOf_cdrT stmt
        have hsz : sizeOf stmt < sizeOf (SExpr.pairE stmt rest) ∧
            sizeOf rest < sizeOf (SExpr.pairE stmt rest) := by
          rw [sizeOf_pairE]
          omega
        rw [fvDo] at hx
        split at hx
        · rcases List.mem_append.mp hx with ha | ha
          · exact (ih (2 * sizeOf (carT (cdrT (cdrT stmt)))) (by omega)).1 _ _ le_rfl x ha
          · exact (ih (2 * sizeOf rest + 1) (by omega)).2.1 _ _ le_rfl x ha
        · rcases List.mem_append.mp hx with ha | ha
          · exact (ih (2 * sizeOf stmt) (by omega)).1 _ _ le_rfl x ha
          · exact (ih (2 * sizeOf rest + 1) (by omega)).2.1 _ _ le_rfl x ha
      all_goals
        simp [fvDo] at hx
    · intro args bound hn x hx
      cases args
      case pairE a rest =>
        have hsz : sizeOf a < sizeOf (SExpr.pairE a rest) ∧
            sizeOf rest < sizeOf (SExpr.pairE a rest) := by
          rw [sizeOf_pairE]
          omega
        rw [fvSpine] at hx
        rcases List.mem_append.mp hx with ha | ha
        · exact (ih (2 * sizeOf a) (by omega)).1 _ _ le_rfl x ha
        · exact (ih (2 * sizeOf rest + 1) (by omega)).2.2 _ _ le_rfl x ha
      case nilE =>
        simp [fvSpine] at hx
      all_goals
        simp only [fvSpine] at hx
        exact (ih (n - 1) (by omega)).1 _ _ (by omega) x hx

theorem fvList_sym (node : SExpr) (bound : List SExpr) :
    ∀ x ∈ fvList node bound, isSym x = true :=
  (fvList_sym_aux (2 * sizeOf node)).1 node bound le_rfl

theorem atom_mem_iff (node : SExpr) (bound fv : List SExpr) (x : SExpr) :
    x ∈ freeStep node bound fv ↔
      x ∈ fv ∨ x ∈ (if isSym node ∧ ¬ list_has bound node then [node] else []) := by
  rw [freeStep_mem]
  by_cases hc : isSym node ∧ ¬ list_has bound node
  · rw [if_pos hc]
    constructor
    · intro h
      rcases h with h | ⟨hxz, hs, hb⟩
      · exact Or.inl h
      · rw [hxz]
        exact Or.inr (List.mem_singleton.mpr rfl)
    · intro h
      rcases h with h | h
      · exact Or.inl h
      · refine Or.inr ⟨List.mem_singleton.mp h, hc.1, ?_⟩
        rw [← list_has_iff]
        cases hb : list_has bound node
        · simp
        · exact absurd hb hc.2
  · rw [if_neg hc]
    constructor
    · intro h
      rcases h with h | ⟨hxz, hs, hb⟩
      · exact Or.inl h
      · exfalso
        exact hc ⟨hs, fun ht => hb ((list_has_iff bound node).mp ht)⟩
    · intro h
      rcases h with h | h
      · exact Or.inl h
      · cases h

theorem analyze_mem_aux : ∀ (n : ℕ),
    (∀ node bound fv x, 2 * sizeOf node ≤ n →
      (x ∈ analyze node bound fv ↔ x ∈ fv ∨ x ∈ fvList node bound)) ∧
    (∀ args bound fv x, 2 * sizeOf args + 1 ≤ n →
      (x ∈ analyzeDo args bound fv ↔ x ∈ fv ∨ x ∈ fvDo args bound)) ∧
    (∀ args bound fv x, 2 * sizeOf args + 1 ≤ n →
      (x ∈ analyzeSpine args bound fv ↔ x ∈ fv ∨ x ∈ fvSpine args bound)) := by
  intro n
  induction n using Nat.strong_induction_on with
  | _ n ih =>
    refine ⟨?_, ?_, ?_⟩
    · intro node bound fv x hn
      cases node
      case pairE op args =>
        rw [sizeOf_pairE] at hn
        rw [analyze, fvList]
        by_cases hq : op = SExpr.symE "quote"
        · rw [if_pos hq, if_pos hq]
          simp
        · rw [if_neg hq, if_neg hq]
          by_cases hdo : op = SExpr.symE "do"
          · rw [if_pos hdo, if_pos hdo]
            exact (ih (2 * sizeOf args + 1) (by omega)).2.1 args bound fv x le_rfl
          · rw [if_neg hdo, if_neg hdo]
            by_cases hfn : op = SExpr.symE "fn" ∨ op = SExpr.symE "mac"
            · rw [if_pos hfn, if_pos hfn]
              have hb1 := sizeOf_carT (cdrT args)
              have hb2 := sizeOf_cdrT args
              rw [analyzeFree_mem]
              have hin := (ih (2 * sizeOf (carT (cdrT args))) (by omega)).1
                (carT (cdrT args)) (paramsBound (carT args) []) [] x le_rfl
              simp only [List.not_mem_nil, false_or] at hin
              rw [hin]
              constructor
              · intro h
                rcases h with h | ⟨hfv, hs, hb⟩
                · exact Or.inl h
                · refine Or.inr (List.mem_filter.mpr ⟨hfv, ?_⟩)
                  rw [(list_has_false_iff bound x).mpr hb]
                  rfl
              · intro h
                rcases h with h | h
                · exact Or.inl h
                · have hf := List.mem_filter.mp h
                  refine Or.inr ⟨hf.1, fvList_sym _ _ x hf.1, ?_⟩
                  rw [← list_has_iff]
                  cases hlh : list_has bound x
                  · simp
                  · rw [hlh] at hf
                    simpa using hf.2
            · rw [if_neg hfn, if_neg hfn]
              rw [(ih (2 * sizeOf args + 1) (by omega)).2.2 args bound _ x le_rfl]
              rw [(ih (2 * sizeOf op) (by omega)).1 op bound fv x le_rfl]
              rw [List.mem_append]
              tauto
      all_goals
        simp only [analyze, fvList]
        exact atom_mem_iff _ bound fv x
    · intro args bound fv x hn
      cases args
      case pairE stmt rest =>
        rw [sizeOf_pairE] at hn
        have h1 := sizeOf_carT (cdrT (cdrT stmt))
        have h2 := sizeOf_cdrT (cdrT stmt)
        have h3 := sizeOf_cdrT stmt
        rw [analyzeDo, fvDo]
        by_cases hlet : stmtIsLet stmt = true
        · rw [if_pos hlet, if_pos hlet]
          rw [(ih (2 * sizeOf rest + 1) (by omega)).2.1 rest _ _ x le_rfl]
          rw [(ih (2 * sizeOf (carT (cdrT (cdrT stmt)))) (by omega)).1 _ bound fv x le_rfl]
          rw [List.mem_append]
          tauto
        · rw [if_neg hlet, if_neg hlet]
          rw [(ih (2 * sizeOf rest + 1) (by omega)).2.1 rest _ _ x le_rfl]
          rw [(ih (2 * sizeOf stmt) (by omega)).1 stmt bound fv x le_rfl]
          rw [List.mem_append]
          tauto
      all_goals
        simp [analyzeDo, fvDo]
    · intro args bound fv x hn
      cases args
      case pairE a rest =>
        rw [sizeOf_pairE] at hn
        rw [analyzeSpine, fvSpine]
        rw [(ih (2 * sizeOf rest + 1) (by omega)).2.2 rest _ _ x le_rfl]
        rw [(ih (2 * sizeOf a) (by omega)).1 a bound fv x le_rfl]
        rw [List.mem_append]
        tauto
      case nilE =>
        simp [analyzeSpine, fvSpine]
      all_goals
        simp only [analyzeSpine, fvSpine]
        exact (ih (n - 1) (by omega)).1 _ bound fv x (by omega)

/-- Set-level characterization: `analyze` returns exactly its accumulator
extended with the free set of the form. -/
theorem analyze_mem (node : SExpr) (bound fv : List SExpr) (x : SExpr) :
    x ∈ analyze node bound fv ↔ x ∈ fv ∨ x ∈ fvList node bound :=
  (analyze_mem_aux (2 * sizeOf node)).1 node bound fv x le_rfl

theorem fvList_mono_atom (node : SExpr) (B Bp : List SExpr)
    (hsub : ∀ y ∈ B, y ∈ Bp) (x : SExpr)
    (hx : x ∈ (if isSym node ∧ ¬ list_has Bp node then [node] else [])) :
    x ∈ (if isSym node ∧ ¬ list_has B node then [node] else []) := by
  split at hx
  · rename_i hcond
    have hxn := List.mem_singleton.mp hx
    subst hxn
    have hnbB : ¬ list_has B x = true := fun ht =>
      hcond.2 ((list_has_iff Bp x).mpr (hsub x ((list_has_iff B x).mp ht)))
    rw [if_pos ⟨hcond.1, hnbB⟩]
    exact List.mem_singleton.mpr rfl
  · cases hx

theorem fvList_mono_aux : ∀ (n : ℕ),
    (∀ node B Bp, (∀ y ∈ B, y ∈ Bp) → 2 * sizeOf node ≤ n →
      ∀ x ∈ fvList node Bp, x ∈ fvList node B) ∧
    (∀ args B Bp, (∀ y ∈ B, y ∈ Bp) → 2 * sizeOf args + 1 ≤ n →
      ∀ x ∈ fvDo args Bp, x ∈ fvDo args B) ∧
    (∀ args B Bp, (∀ y ∈ B, y ∈ Bp) → 2 * sizeOf args + 1 ≤ n →
      ∀ x ∈ fvSpine args Bp, x ∈ fvSpine args B) := by
  intro n
  induction n using Nat.strong_induction_on with
  | _ n ih =>
    refine ⟨?_, ?_, ?_⟩
    · intro node B Bp hsub hn x hx
      cases node
      case pairE op args =>
        rw [sizeOf_pairE] at hn
        rw [fvList] at hx ⊢
        by_cases hq : op = SExpr.symE "quote"
        · rw [if_pos hq] at hx
          cases hx
        · rw [if_neg hq] at hx ⊢
          by_cases hdo : op = SExpr.symE "do"
          · rw [if_pos hdo] at hx ⊢
            exact (ih (2 * sizeOf args + 1) (by omega)).2.1 args B Bp hsub le_rfl x hx
          · rw [if_neg hdo] at hx ⊢
            by_cases hfn : op = SExpr.symE "fn" ∨ op = SExpr.symE "mac"
            · rw [if_pos hfn] at hx ⊢
              have hf := List.mem_filter.mp hx
              refine List.mem_filter.mpr ⟨hf.1, ?_⟩
              have hnb : x ∉ Bp := by
                have := hf.2
                cases hlh : list_has Bp x
                · exact (list_has_false_iff Bp x).mp hlh
                · rw [hlh] at this
                  simp at this
              have : x ∉ B := fun hxb => hnb (hsub x hxb)
              rw [(list_has_false_iff B x).mpr this]
              rfl
            · rw [if_neg hfn] at hx ⊢
              rw [List.mem_append] at hx ⊢
              rcases hx with h | h
              · exact Or.inl ((ih (2 * sizeOf op) (by omega)).1 op B Bp hsub le_rfl x h)
              · exact Or.inr
                  ((ih (2 * sizeOf args + 1) (by omega)).2.2 args B Bp hsub le_rfl x h)
      all_goals
        simp only [fvList] at hx ⊢
        exact fvList_mono_atom _ B Bp hsub x hx
    · intro args B Bp hsub hn x hx
      cases args
      case pairE stmt rest =>
        rw [sizeOf_pairE] at hn
        have h1 := sizeOf_carT (cdrT (cdrT stmt))
        have h2 := sizeOf_cdrT (cdrT stmt)
        have h3 := sizeOf_cdrT stmt
        rw [fvDo] at hx ⊢
        by_cases hlet : stmtIsLet stmt = true
        · rw [if_pos hlet] at hx ⊢
          rw [List.mem_append] at hx ⊢
          rcases hx with h | h
          · exact Or.inl ((ih (2 * sizeOf (carT (cdrT (cdrT stmt)))) (by omega)).1
              _ B Bp hsub le_rfl x h)
          · refine Or.inr ((ih (2 * sizeOf rest + 1) (by omega)).2.1 rest _ _ ?_ le_rfl x h)
            intro y hy
            rcases List.mem_cons.mp hy with h2 | h2
            · rw [h2]
              exact List.mem_cons_self _ _
            · exact List.mem_cons_of_mem _ (hsub y h2)
        · rw [if_neg hlet] at hx ⊢
          rw [List.mem_append] at hx ⊢
          rcases hx with h | h
          · exact Or.inl ((ih (2 * sizeOf stmt) (by omega)).1 stmt B Bp hsub le_rfl x h)
          · exact Or.inr ((ih (2 * sizeOf rest + 1) (by omega)).2.1 rest B Bp hsub le_rfl x h)
      all_goals
        simp [fvDo] at hx
    · intro args B Bp hsub hn x hx
      cases args
      case pairE a rest =>
        rw [sizeOf_pairE] at hn
        rw [fvSpine] at hx ⊢
        rw [List.mem_append] at hx ⊢
        rcases hx with h | h
        · exact Or.inl ((ih (2 * sizeOf a) (by omega)).1 a B Bp hsub le_rfl x h)
        · exact Or.inr ((ih (2 * sizeOf rest + 1) (by omega)).2.2 rest B Bp hsub le_rfl x h)
      case nilE =>
        simp [fvSpine] at hx
      all_goals
        simp only [fvSpine] at hx ⊢
        exact (ih (n - 1) (by omega)).1 _ B Bp hsub (by omega) x hx

/-- Claim C6: the free-variable analysis is monotone in its bound set: if
every name of `B` is in `Bp`, the free set produced under `Bp` is contained
in the free set produced under `B`. -/
theorem c6_analyze_monotone (node : SExpr) (B Bp : List SExpr)
    (hsub : ∀ y ∈ B, y ∈ Bp) :
    ∀ x ∈ analyze node Bp [], x ∈ analyze node B [] := by
  intro x hx
  rw [analyze_mem] at hx ⊢
  rcases hx with h | h
  · cases h
  · exact Or.inr
      ((fvList_mono_aux (2 * sizeOf node)).1 node B Bp hsub le_rfl x h)

/-- Witness for C6: the body `(f y)` analyzed under the empty bound list and
under the bound list containing `y`. -/
theorem c6_analyze_monotone_witness :
    (∀ y ∈ ([] : List SExpr), y ∈ [SExpr.symE "y"]) ∧
      (∀ x ∈ analyze (SExpr.pairE (SExpr.symE "f")
          (SExpr.pairE (SExpr.symE "y") SExpr.nilE)) [SExpr.symE "y"] [],
        x ∈ analyze (SExpr.pairE (SExpr.symE "f")
          (SExpr.pairE (SExpr.symE "y") SExpr.nilE)) [] []) :=
  ⟨fun y hy => absurd hy (List.not_mem_nil y),
    c6_analyze_monotone _ [] [SExpr.symE "y"]
      (fun y hy => absurd hy (List.not_mem_nil y))⟩

end Fe.An

namespace Fe.Sf

/-! ## Surface compiler: infix-operator desugaring (fex.c:597-670)

The Pratt parser's loop, on reading a standard binary operator, parses the
right operand at one precedence level higher and then builds a core form
from the operator token and the two operand ASTs (fex.c:639-667).  That
final step is a pure function of the token and the two subtrees; it is
translated here over the same tree type as the analyzer model, with
`make_unary`/`make_binary` from fex.c:517-541 (span recording dropped). -/

open Fe.An (SExpr)

/-- Token kinds of the surface lexer (fex.c:138-159). -/
inductive TokenType where
  | LPAREN | RPAREN | LBRACE | RBRACE | LBRACKET | RBRACKET
  | COMMA | DOT | MINUS | PLUS | SEMICOLON | SLASH | STAR
  | BANG | BANG_EQUAL | EQUAL | EQUAL_EQUAL
  | GREATER | GREATER_EQUAL | LESS | LESS_EQUAL
  | IDENTIFIER | STRING | NUMBER
  | AND | ELSE | EXPORT | FALSE | FN | IF
  | IMPORT | LET | MODULE | NIL | OR | RETURN
  | TRUE | WHILE
  | ERROR | EOF
  deriving DecidableEq, Repr

/-- `make_unary` (fex.c:517-527): `(op right)`. -/
def make_unary (op : String) (right : SExpr) : SExpr :=
  .pairE (.symE op) (.pairE right .nilE)

/-- `make_binary` (fex.c:529-541): `(op left right)`. -/
def make_binary (op : String) (left right : SExpr) : SExpr :=
  .pairE (.symE op) (.pairE left (.pairE right .nilE))

/-- The `op_str` switch (fex.c:641-655). -/
def opStr : TokenType → Option String
  | .PLUS => some "+"
  | .MINUS => some "-"
  | .STAR => some "*"
  | .SLASH => some "/"
  | .EQUAL_EQUAL => some "is"
  | .BANG_EQUAL => some "not is"
  | .LESS => some "<"
  | .LESS_EQUAL => some "<="
  | .GREATER => some ">"
  | .GREATER_EQUAL => some ">="
  | .AND => some "and"
  | .OR => some "or"
  | _ => none

/-- The standard-binary-operator arm of `parse_precedence_new`
(fex.c:639-667): `!=` becomes `(not (is a b))`, `>` and `>=` swap their
operands into `<` / `<=`, every other operator maps directly; an operator
outside the switch is the `Unhandled infix operator` parse error. -/
def stdBinaryOp (t : TokenType) (left right : SExpr) : Option SExpr :=
  match opStr t with
  | none => none
  | some s =>
    if t = TokenType.BANG_EQUAL then
      some (make_unary "not" (make_binary "is" left right))
    else if t = TokenType.GREATER then some (make_binary "<" right left)
    else if t = TokenType.GREATER_EQUAL then some (make_binary "<=" right left)
    else some (make_binary s left right)

/-- Claim C8: the surface compiler desugars the equality and comparison
operators exactly as specified: `a == b` to `(is a b)`, `a != b` to
`(not (is a b))`, `a > b` to `(< b a)` and `a >= b` to `(<= b a)`, with
the operand order swapped for `>` and `>=`. -/
theorem c8_desugar_cmp (a b : SExpr) :
    stdBinaryOp TokenType.EQUAL_EQUAL a b =
      some (.pairE (.symE "is") (.pairE a (.pairE b .nilE))) ∧
    stdBinaryOp TokenType.BANG_EQUAL a b =
      some (.pairE (.symE "not")
        (.pairE (.pairE (.symE "is") (.pairE a (.pairE b .nilE))) .nilE)) ∧
    stdBinaryOp TokenType.GREATER a b =
      some (.pairE (.symE "<") (.pairE b (.pairE a .nilE))) ∧
    stdBinaryOp TokenType.GREATER_EQUAL a b =
      some (.pairE (.symE "<=") (.pairE b (.pairE a .nilE))) :=
  ⟨rfl, rfl, rfl, rfl⟩

end Fe.Sf

namespace Fe.Rw

/-! ### Number printing and reading (fe.c: `fe_make_number`, the `FE_TNUMBER`
case of `fe_write`, and the number path of `read_`)

`fe_Number` is a C `double`; we idealize it as an exact rational.  The
printer for boxed numbers is `sprintf(buf, "%.7g", ...)` (fe.c:590), which
rounds the value to 7 significant decimal digits and then chooses fixed or
exponent style by the decimal exponent, stripping trailing zeros, per the C
standard's rules for `%g`.  We model the rounding as exact half-up rounding
of the rational (a C library rounds the double in the current rounding mode;
the two agree except on exact ties, and every concrete value used below is
tie-free).  Fixnums print with `sprintf(buf, "%lld", ...)` (fe.c:588).  The
reader recognizes a token as a number when `strtod` consumes the whole token
(fe.c:795-798); `strtodParse` below models C `strtod` on exact rationals. -/

def digitChar (n : ℕ) : Char := Char.ofNat (48 + n)

def isDigitC (c : Char) : Bool := 48 ≤ c.toNat && c.toNat ≤ 57

def digitVal (c : Char) : ℕ := c.toNat - 48

def natToCharsAux : ℕ → ℕ → List Char
  | 0, _ => []
  | f+1, n => if n < 10 then [digitChar n] else natToCharsAux f (n / 10) ++ [digitChar (n % 10)]

/-- Decimal digits of `n`, most significant first.  Fuel `n+1` always
suffices since `n` has at most `n+1` digits. -/
def natToChars (n : ℕ) : List Char := natToCharsAux (n+1) n

/-- `sprintf "%lld"` (fe_write, fixnum case, fe.c:588). -/
def intToChars (i : ℤ) : List Char :=
  if i < 0 then '-' :: natToChars i.natAbs else natToChars i.toNat

def ndigitsAux : ℕ → ℕ → ℕ
  | 0, _ => 0
  | f+1, n => if n < 10 then 1 else ndigitsAux f (n / 10) + 1

/-- Number of decimal digits of `n` (1 for `n = 0`). -/
def ndigits (n : ℕ) : ℕ := ndigitsAux (n+1) n

/-- Value of a most-significant-first digit string. -/
def digitsVal (ds : List Char) : ℕ := ds.foldl (fun a c => 10 * a + digitVal c) 0

/-! #### The `%.7g` formatter, integer core.

For `q = num/den > 0` the decimal exponent `X` is the unique integer with
`10^X ≤ q < 10^(X+1)`; `%.7g` rounds `q` to a 7-digit mantissa
`m = round(q · 10^(6-X)) ∈ [10^6, 10^7]`, bumping `(10^7, X)` to
`(10^6, X+1)`, and prints in exponent style when `X < -4 ∨ 7 ≤ X`, fixed
style otherwise, stripping trailing fraction zeros (and a bare point). -/

/-- Least `k` with `n ≤ 10^k`. -/
def clog10 (n : ℕ) : ℕ := if n ≤ 1 then 0 else ndigits (n - 1)

/-- Decimal exponent of `num/den` (both positive): the unique `X` with
`10^X ≤ num/den < 10^(X+1)`. -/
def decExp (num den : ℕ) : ℤ :=
  if den ≤ num then ((ndigits (num / den) - 1 : ℕ) : ℤ)
  else -(clog10 ((den + num - 1) / num) : ℤ)

/-- Scale `num/den` by `10^(6-X)`, as a fraction `A/B` of naturals. -/
def g7scaled (num den : ℕ) : ℕ × ℕ :=
  if decExp num den ≤ 6 then (num * 10 ^ (6 - decExp num den).toNat, den)
  else (num, den * 10 ^ (decExp num den - 6).toNat)

/-- Mantissa (7 digits) and exponent of the `%.7g` representation of
`num/den`: `m = ⌊A/B + 1/2⌋ = ⌊(2A+B)/2B⌋`, with the overflow `m = 10^7`
renormalized. -/
def g7parts (num den : ℕ) : ℕ × ℤ :=
  if (2 * (g7scaled num den).1 + (g7scaled num den).2) / (2 * (g7scaled num den).2) = 10 ^ 7
  then (10 ^ 6, decExp num den + 1)
  else ((2 * (g7scaled num den).1 + (g7scaled num den).2) / (2 * (g7scaled num den).2),
        decExp num den)

/-- Drop trailing `'0'` characters. -/
def stripZeros (ds : List Char) : List Char :=
  (ds.reverse.dropWhile (fun c => c = '0')).reverse

/-- Exponent field of `%g` exponent style: sign always printed, at least
two digits. -/
def expChars (e : ℤ) : List Char :=
  (if e < 0 then ['-'] else ['+']) ++
  (if (natToChars e.natAbs).length < 2 then '0' :: natToChars e.natAbs else natToChars e.natAbs)

/-- `%.7g` of the positive rational `num/den`. -/
def g7fmtPos (num den : ℕ) : List Char :=
  if (g7parts num den).2 < -4 ∨ 7 ≤ (g7parts num den).2 then
    (natToChars (g7parts num den).1).take 1 ++
      (if stripZeros ((natToChars (g7parts num den).1).drop 1) = [] then []
       else '.' :: stripZeros ((natToChars (g7parts num den).1).drop 1)) ++
      'e' :: expChars (g7parts num den).2
  else if 0 ≤ (g7parts num den).2 then
    (natToChars (g7parts num den).1).take ((g7parts num den).2.toNat + 1) ++
      (if stripZeros ((natToChars (g7parts num den).1).drop ((g7parts num den).2.toNat + 1)) = [] then []
       else '.' :: stripZeros ((natToChars (g7parts num den).1).drop ((g7parts num den).2.toNat + 1)))
  else
    '0' :: '.' :: (List.replicate (-(g7parts num den).2 - 1).toNat '0' ++
      stripZeros (natToChars (g7parts num den).1))

/-- `sprintf "%.7g"` on an exact rational (fe_write, boxed-number case,
fe.c:590). -/
def format_g7 (q : ℚ) : List Char :=
  if q = 0 then ['0']
  else (if q < 0 then ['-'] else []) ++ g7fmtPos q.num.natAbs q.den

/-- The rational actually denoted by the `%.7g` output of `q`: `q` rounded
to 7 significant digits. -/
def g7round (q : ℚ) : ℚ :=
  if q = 0 then 0
  else (if q < 0 then -1 else 1) *
    ((g7parts q.num.natAbs q.den).1 : ℚ) * 10 ^ ((g7parts q.num.natAbs q.den).2 - 6)

end Fe.Rw

namespace Fe.Rw

/-! #### C `strtod`, modeled on exact rationals.

`read_` (fe.c:786-798) collects a token of at most 63 characters, runs
`strtod(buf, &p)` and treats the token as a number iff some prefix was
converted (`p != buf`) and the stop character is a delimiter — since the
token itself contains no delimiter characters and `strchr` matches the
terminating NUL, that means: iff `strtod` consumed the entire token.
`strtodParse` returns the converted value and the unconsumed rest, or
`none` when no conversion is performed. -/

inductive StrtodVal where
  | finite (q : ℚ)
  | inf (neg : Bool)
  | nan
deriving DecidableEq, Repr

def isSpaceC (c : Char) : Bool :=
  c = ' ' || c = '\t' || c = '\n' || c.toNat = 11 || c.toNat = 12 || c = '\r'

def toLowerC (c : Char) : Char :=
  if 65 ≤ c.toNat && c.toNat ≤ 90 then Char.ofNat (c.toNat + 32) else c

/-- Case-insensitive match of `pat` as a prefix of `s`. -/
def matchesSeq (s pat : List Char) : Bool :=
  decide ((s.take pat.length).map toLowerC = pat)

def hexPrefix : List Char → Bool
  | c0 :: c1 :: _ => c0 = '0' && (c1 = 'x' || c1 = 'X')
  | _ => false

def isHexDigitC (c : Char) : Bool :=
  isDigitC c || (97 ≤ c.toNat && c.toNat ≤ 102) || (65 ≤ c.toNat && c.toNat ≤ 70)

def hexDigitVal (c : Char) : ℕ :=
  if isDigitC c then c.toNat - 48
  else if 97 ≤ c.toNat then c.toNat - 87
  else c.toNat - 55

def hexVal (ds : List Char) : ℕ := ds.foldl (fun a c => 16 * a + hexDigitVal c) 0

/-- Exponent digits after the `e`/`p` marker and optional sign: if there is
no digit the whole exponent field stays unconsumed (`orig`). -/
def parseExpDigits (sign : Bool) (orig r2 : List Char) : ℤ × List Char :=
  if r2.takeWhile isDigitC = [] then (0, orig)
  else ((if sign then -1 else 1) * (digitsVal (r2.takeWhile isDigitC) : ℤ),
        r2.dropWhile isDigitC)

/-- Optional decimal exponent `e[±]ddd`. -/
def parseExp (s : List Char) : ℤ × List Char :=
  match s with
  | [] => (0, [])
  | c :: r =>
    if c = 'e' ∨ c = 'E' then
      match r with
      | [] => (0, s)
      | c2 :: r2 =>
        if c2 = '+' then parseExpDigits false s r2
        else if c2 = '-' then parseExpDigits true s r2
        else parseExpDigits false s r
    else (0, s)

/-- Optional binary exponent `p[±]ddd` (hex floats; exponent digits are
decimal, the scale is a power of two). -/
def parsePExp (s : List Char) : ℤ × List Char :=
  match s with
  | [] => (0, [])
  | c :: r =>
    if c = 'p' ∨ c = 'P' then
      match r with
      | [] => (0, s)
      | c2 :: r2 =>
        if c2 = '+' then parseExpDigits false s r2
        else if c2 = '-' then parseExpDigits true s r2
        else parseExpDigits false s r
    else (0, s)

/-- Fraction digits after an optional decimal point. -/
def parseFrac (r1 : List Char) : List Char × List Char :=
  match r1 with
  | [] => ([], [])
  | c :: r =>
    if c = '.' then (r.takeWhile isDigitC, r.dropWhile isDigitC) else ([], r1)

def parseHexFrac (r1 : List Char) : List Char × List Char :=
  match r1 with
  | [] => ([], [])
  | c :: r =>
    if c = '.' then (r.takeWhile isHexDigitC, r.dropWhile isHexDigitC) else ([], r1)

def decValue (ids fds : List Char) (e : ℤ) : ℚ :=
  ((digitsVal ids : ℚ) + (digitsVal fds : ℚ) / 10 ^ fds.length) * 10 ^ e

def hexValue (ids fds : List Char) (e : ℤ) : ℚ :=
  ((hexVal ids : ℚ) + (hexVal fds : ℚ) / 16 ^ fds.length) * 2 ^ e

/-- Decimal form: digits, optional fraction, optional exponent; fails when
there is no digit before or after the point. -/
def parseDec (s : List Char) : Option (ℚ × List Char) :=
  if s.takeWhile isDigitC = [] ∧ (parseFrac (s.dropWhile isDigitC)).1 = [] then none
  else
    some (decValue (s.takeWhile isDigitC) (parseFrac (s.dropWhile isDigitC)).1
            (parseExp (parseFrac (s.dropWhile isDigitC)).2).1,
          (parseExp (parseFrac (s.dropWhile isDigitC)).2).2)

/-- Hex-float body after `0x`. -/
def parseHexBody (s : List Char) : Option (ℚ × List Char) :=
  if s.takeWhile isHexDigitC = [] ∧ (parseHexFrac (s.dropWhile isHexDigitC)).1 = [] then none
  else
    some (hexValue (s.takeWhile isHexDigitC) (parseHexFrac (s.dropWhile isHexDigitC)).1
            (parsePExp (parseHexFrac (s.dropWhile isHexDigitC)).2).1,
          (parsePExp (parseHexFrac (s.dropWhile isHexDigitC)).2).2)

/-- Body after the optional sign: `inf`/`infinity`, `nan`, hex float with
the `strtod` fallback (a bare `0x` converts just the `0`), or decimal. -/
def afterSign (neg : Bool) (r : List Char) : Option (StrtodVal × List Char) :=
  if matchesSeq r ['i','n','f'] then
    if matchesSeq r ['i','n','f','i','n','i','t','y'] then some (.inf neg, r.drop 8)
    else some (.inf neg, r.drop 3)
  else if matchesSeq r ['n','a','n'] then some (.nan, r.drop 3)
  else if hexPrefix r then
    match parseHexBody (r.drop 2) with
    | some (v, r3) => some (.finite (if neg then -v else v), r3)
    | none => some (.finite 0, r.drop 1)
  else
    match parseDec r with
    | some (v, r3) => some (.finite (if neg then -v else v), r3)
    | none => none

/-- Optional sign, then the body. -/
def strtodBody : List Char → Option (StrtodVal × List Char)
  | [] => none
  | c :: r =>
    if c = '-' then afterSign true r
    else if c = '+' then afterSign false r
    else afterSign false (c :: r)

/-- C `strtod` on exact rationals: skip whitespace, optional sign, body;
`none` when no conversion is performed (endptr = start). -/
def strtodParse (s : List Char) : Option (StrtodVal × List Char) :=
  strtodBody (s.dropWhile isSpaceC)

/-! #### `fe_make_number` (fe.c:284-298). -/

inductive FeVal where
  | nilV
  | boolV (b : Bool)
  | fixV (n : ℤ)
  | numV (q : ℚ)
  | symV (name : List Char)
  | strV (s : List Char)
  | pairV (a d : FeVal)
deriving DecidableEq, Repr

/-- `fe_make_number`: the C code boxes `v` unless `v == (double)(intptr_t)v`
(integrality; for an exact rational, denominator 1) and the integer
sign-extends from 62 bits (`i >> 62` is `0` or `-1`, i.e.
`-2^62 ≤ i < 2^62`), in which case it returns the immediate fixnum. -/
def fe_make_number (v : ℚ) : FeVal :=
  if v.den = 1 ∧ -(2 ^ 62) ≤ v.num ∧ v.num < 2 ^ 62 then .fixV v.num else .numV v

end Fe.Rw

namespace Fe.Rw

lemma digitChar_toNat {n : ℕ} (h : n < 10) : (digitChar n).toNat = 48 + n := by
  interval_cases n <;> decide

lemma isDigitC_digitChar {n : ℕ} (h : n < 10) : isDigitC (digitChar n) = true := by
  interval_cases n <;> decide

lemma digitVal_digitChar {n : ℕ} (h : n < 10) : digitVal (digitChar n) = n := by
  interval_cases n <;> decide

lemma isDigitC_iff {c : Char} : isDigitC c = true ↔ 48 ≤ c.toNat ∧ c.toNat ≤ 57 := by
  simp [isDigitC]

lemma digitVal_lt_ten {c : Char} (h : isDigitC c = true) : digitVal c < 10 := by
  rw [isDigitC_iff] at h
  simp only [digitVal]
  omega

lemma digitsVal_foldl (ds : List Char) :
    ∀ a : ℕ, ds.foldl (fun a c => 10 * a + digitVal c) a = a * 10 ^ ds.length + digitsVal ds := by
  induction ds with
  | nil => intro a; simp [digitsVal]
  | cons c t ih =>
    intro a
    simp only [List.foldl_cons, List.length_cons, digitsVal] at *
    rw [ih (10 * a + digitVal c), ih (10 * 0 + digitVal c)]
    ring

lemma digitsVal_append (a b : List Char) :
    digitsVal (a ++ b) = digitsVal a * 10 ^ b.length + digitsVal b := by
  simp only [digitsVal, List.foldl_append]
  rw [digitsVal_foldl b (List.foldl (fun a c => 10 * a + digitVal c) 0 a)]
  rfl

lemma digitsVal_lt (ds : List Char) (hall : ∀ c ∈ ds, isDigitC c = true) :
    digitsVal ds < 10 ^ ds.length := by
  induction ds with
  | nil => simp [digitsVal]
  | cons c t ih =>
    have hc : digitVal c < 10 := digitVal_lt_ten (hall c (by simp))
    have ht := ih (fun x hx => hall x (by simp [hx]))
    have hcons : digitsVal (c :: t) = digitVal c * 10 ^ t.length + digitsVal t := by
      have := digitsVal_append [c] t
      simpa [digitsVal] using this
    rw [hcons, List.length_cons, pow_succ]
    calc digitVal c * 10 ^ t.length + digitsVal t
        < digitVal c * 10 ^ t.length + 10 ^ t.length := by omega
      _ = (digitVal c + 1) * 10 ^ t.length := by ring
      _ ≤ 10 * 10 ^ t.length := by
          have : digitVal c + 1 ≤ 10 := hc
          exact Nat.mul_le_mul_right _ this
      _ = 10 ^ t.length * 10 := by ring

lemma digitsVal_replicate_zero (t : ℕ) : digitsVal (List.replicate t '0') = 0 := by
  induction t with
  | zero => rfl
  | succ t ih =>
    have : List.replicate (t+1) '0' = '0' :: List.replicate t '0' := rfl
    rw [this]
    show List.foldl (fun a c => 10 * a + digitVal c) (10 * 0 + digitVal '0') _ = 0
    have h0 : (10 * 0 + digitVal '0') = 0 := by decide
    rw [h0]
    exact ih

lemma digitsVal_cons_zero (ds : List Char) : digitsVal ('0' :: ds) = digitsVal ds := by
  show List.foldl (fun a c => 10 * a + digitVal c) (10 * 0 + digitVal '0') _ = _
  have h0 : (10 * 0 + digitVal '0') = 0 := by decide
  rw [h0]
  rfl

lemma lt_ten_pow (n : ℕ) : n < 10 ^ (n + 1) := by
  have h1 : n < 10 ^ n := Nat.lt_pow_self (by norm_num) n
  have h2 : 10 ^ n ≤ 10 ^ (n + 1) := Nat.pow_le_pow_right (by norm_num) (by omega)
  omega

lemma natToCharsAux_spec :
    ∀ f n, n < 10 ^ f →
      (∀ c ∈ natToCharsAux f n, isDigitC c = true) ∧
      digitsVal (natToCharsAux f n) = n ∧
      (natToCharsAux f n).length = ndigitsAux f n := by
  intro f
  induction f with
  | zero =>
    intro n hn
    interval_cases n
    refine ⟨by simp [natToCharsAux], by simp [natToCharsAux, digitsVal], by simp [natToCharsAux, ndigitsAux]⟩
  | succ f ih =>
    intro n hn
    by_cases h10 : n < 10
    · refine ⟨?_, ?_, ?_⟩
      · intro c hc
        simp only [natToCharsAux, if_pos h10, List.mem_singleton] at hc
        rw [hc]; exact isDigitC_digitChar h10
      · simp only [natToCharsAux, if_pos h10]
        have : digitsVal [digitChar n] = digitVal (digitChar n) := by
          simp [digitsVal]
        rw [this, digitVal_digitChar h10]
      · simp [natToCharsAux, ndigitsAux, if_pos h10]
    · have hdiv : n / 10 < 10 ^ f := by
        rw [Nat.div_lt_iff_lt_mul (by norm_num : (0:ℕ) < 10)]
        calc n < 10 ^ (f + 1) := hn
          _ = 10 ^ f * 10 := by rw [pow_succ]
      obtain ⟨hallr, hvalr, hlenr⟩ := ih (n / 10) hdiv
      have hmod : n % 10 < 10 := Nat.mod_lt _ (by norm_num)
      refine ⟨?_, ?_, ?_⟩
      · intro c hc
        simp only [natToCharsAux, if_neg h10, List.mem_append, List.mem_singleton] at hc
        rcases hc with hc | hc
        · exact hallr c hc
        · rw [hc]; exact isDigitC_digitChar hmod
      · simp only [natToCharsAux, if_neg h10]
        rw [digitsVal_append]
        have h1 : digitsVal [digitChar (n % 10)] = digitVal (digitChar (n % 10)) := by
          simp [digitsVal]
        rw [h1, digitVal_digitChar hmod, hvalr]
        simp only [List.length_singleton, pow_one]
        have := Nat.div_add_mod n 10
        omega
      · simp only [natToCharsAux, ndigitsAux, if_neg h10]
        rw [List.length_append, hlenr]
        simp

lemma natToChars_digits (n : ℕ) : ∀ c ∈ natToChars n, isDigitC c = true :=
  (natToCharsAux_spec (n+1) n (lt_ten_pow n)).1

lemma digitsVal_natToChars (n : ℕ) : digitsVal (natToChars n) = n :=
  (natToCharsAux_spec (n+1) n (lt_ten_pow n)).2.1

lemma length_natToChars (n : ℕ) : (natToChars n).length = ndigits n :=
  (natToCharsAux_spec (n+1) n (lt_ten_pow n)).2.2

lemma ndigitsAux_spec :
    ∀ f n, 0 < n → n < 10 ^ f →
      10 ^ (ndigitsAux f n - 1) ≤ n ∧ n < 10 ^ ndigitsAux f n := by
  intro f
  induction f with
  | zero => intro n h0 hn; omega
  | succ f ih =>
    intro n h0 hn
    by_cases h10 : n < 10
    · simp only [ndigitsAux, if_pos h10]
      constructor
      · simpa using h0
      · simpa using h10
    · have hdiv : n / 10 < 10 ^ f := by
        rw [Nat.div_lt_iff_lt_mul (by norm_num : (0:ℕ) < 10)]
        calc n < 10 ^ (f + 1) := hn
          _ = 10 ^ f * 10 := by rw [pow_succ]
      have hdpos : 0 < n / 10 := Nat.div_pos (by omega) (by norm_num)
      obtain ⟨hl, hu⟩ := ih (n / 10) hdpos hdiv
      simp only [ndigitsAux, if_neg h10]
      have hd1 : 1 ≤ ndigitsAux f (n / 10) := by
        by_contra h
        push_neg at h
        interval_cases (ndigitsAux f (n / 10))
        simp at hu
        omega
      constructor
      · have : 10 ^ (ndigitsAux f (n / 10) + 1 - 1) = 10 ^ (ndigitsAux f (n / 10) - 1) * 10 := by
          rw [← pow_succ]
          congr 1
          omega
        rw [this]
        have h2 : 10 ^ (ndigitsAux f (n / 10) - 1) * 10 ≤ (n / 10) * 10 :=
          Nat.mul_le_mul_right _ hl
        have h3 : (n / 10) * 10 ≤ n := by
          have := Nat.div_add_mod n 10
          have := Nat.mod_lt n (by norm_num : (0:ℕ) < 10)
          omega
        omega
      · rw [pow_succ]
        have h2 : n / 10 + 1 ≤ 10 ^ ndigitsAux f (n / 10) := hu
        have := Nat.div_add_mod n 10
        have hm := Nat.mod_lt n (by norm_num : (0:ℕ) < 10)
        have h3 : n < (n / 10 + 1) * 10 := by omega
        calc n < (n / 10 + 1) * 10 := h3
          _ ≤ 10 ^ ndigitsAux f (n / 10) * 10 := Nat.mul_le_mul_right _ h2

lemma ndigits_spec (n : ℕ) (h0 : 0 < n) :
    10 ^ (ndigits n - 1) ≤ n ∧ n < 10 ^ ndigits n :=
  ndigitsAux_spec (n+1) n h0 (lt_ten_pow n)

lemma ndigits_pos (n : ℕ) (h0 : 0 < n) : 1 ≤ ndigits n := by
  obtain ⟨_, hu⟩ := ndigits_spec n h0
  by_contra h
  push_neg at h
  interval_cases (ndigits n)
  simp at hu
  omega

lemma ndigits_eq (n k : ℕ) (h1 : 10 ^ k ≤ n) (h2 : n < 10 ^ (k + 1)) :
    ndigits n = k + 1 := by
  have h0 : 0 < n := lt_of_lt_of_le (Nat.pos_pow_of_pos k (by norm_num)) h1
  obtain ⟨hl, hu⟩ := ndigits_spec n h0
  have hd1 := ndigits_pos n h0
  by_contra h
  rcases Nat.lt_or_ge (ndigits n) (k + 1) with hlt | hge
  · have : 10 ^ ndigits n ≤ 10 ^ k := Nat.pow_le_pow_right (by norm_num) (by omega)
    omega
  · have hge2 : k + 2 ≤ ndigits n := by omega
    have : 10 ^ (k + 1) ≤ 10 ^ (ndigits n - 1) := Nat.pow_le_pow_right (by norm_num) (by omega)
    omega

end Fe.Rw

namespace Fe.Rw

lemma g7scaled_bounds (num den : ℕ) (hn : 0 < num) (hd : 0 < den) :
    0 < (g7scaled num den).2 ∧
    (g7scaled num den).2 * 10 ^ 6 ≤ (g7scaled num den).1 ∧
    (g7scaled num den).1 < (g7scaled num den).2 * 10 ^ 7 := by
  by_cases hle : den ≤ num
  · -- q = num/den ≥ 1 : X = ndigits (num/den) - 1 ≥ 0
    have hq1 : 1 ≤ num / den := (Nat.one_le_div_iff hd).mpr hle
    set d := ndigits (num / den) with hdd
    obtain ⟨hl, hu⟩ := ndigits_spec (num / den) hq1
    have hd1 : 1 ≤ d := ndigits_pos _ hq1
    have hX : decExp num den = ((d - 1 : ℕ) : ℤ) := by
      simp [decExp, if_pos hle, hdd]
    have key1 : den * 10 ^ (d - 1) ≤ num := by
      calc den * 10 ^ (d - 1) ≤ den * (num / den) := Nat.mul_le_mul_left den hl
        _ ≤ num := by
            rw [Nat.mul_comm]
            exact Nat.div_mul_le_self num den
    have key2 : num < den * 10 ^ d := by
      have h := (Nat.div_lt_iff_lt_mul hd).mp hu
      rw [Nat.mul_comm] at h
      exact h
    by_cases h7 : d ≤ 7
    · have hX6 : decExp num den ≤ 6 := by rw [hX]; omega
      have htn : (6 - decExp num den).toNat = 7 - d := by rw [hX]; omega
      have hsc : g7scaled num den = (num * 10 ^ (7 - d), den) := by
        rw [g7scaled, if_pos hX6, htn]
      rw [hsc]
      refine ⟨hd, ?_, ?_⟩
      · have hsplit : (10:ℕ) ^ 6 = 10 ^ (d - 1) * 10 ^ (7 - d) := by
          rw [← pow_add]
          congr 1
          omega
        calc den * 10 ^ 6 = den * 10 ^ (d - 1) * 10 ^ (7 - d) := by rw [hsplit, Nat.mul_assoc]
          _ ≤ num * 10 ^ (7 - d) := Nat.mul_le_mul_right _ key1
      · have hsplit : (10:ℕ) ^ 7 = 10 ^ d * 10 ^ (7 - d) := by
          rw [← pow_add]
          congr 1
          omega
        calc num * 10 ^ (7 - d) < den * 10 ^ d * 10 ^ (7 - d) :=
              (Nat.mul_lt_mul_right (by positivity : 0 < (10:ℕ) ^ (7 - d))).mpr key2
          _ = den * 10 ^ 7 := by rw [hsplit, Nat.mul_assoc]
    · have hX6 : ¬ decExp num den ≤ 6 := by rw [hX]; omega
      have htn : (decExp num den - 6).toNat = d - 7 := by rw [hX]; omega
      have hsc : g7scaled num den = (num, den * 10 ^ (d - 7)) := by
        rw [g7scaled, if_neg hX6, htn]
      rw [hsc]
      refine ⟨by positivity, ?_, ?_⟩
      · have hsplit : (10:ℕ) ^ (d - 7) * 10 ^ 6 = 10 ^ (d - 1) := by
          rw [← pow_add]
          congr 1
          omega
        calc den * 10 ^ (d - 7) * 10 ^ 6 = den * 10 ^ (d - 1) := by
              rw [Nat.mul_assoc, hsplit]
          _ ≤ num := key1
      · have hsplit : (10:ℕ) ^ (d - 7) * 10 ^ 7 = 10 ^ d := by
          rw [← pow_add]
          congr 1
          omega
        calc num < den * 10 ^ d := key2
          _ = den * 10 ^ (d - 7) * 10 ^ 7 := by rw [Nat.mul_assoc, hsplit]
  · -- q = num/den < 1 : X = -(clog10 (ceil (den/num)))
    have hlt : num < den := by omega
    obtain ⟨c, hcc⟩ : ∃ c, c = (den + num - 1) / num := ⟨_, rfl⟩
    have hc2 : 2 ≤ c := by
      rw [hcc, Nat.le_div_iff_mul_le hn]
      omega
    have hk : clog10 ((den + num - 1) / num) = ndigits (c - 1) := by
      rw [← hcc, clog10, if_neg (by omega)]
    obtain ⟨k, hkk⟩ : ∃ k, k = ndigits (c - 1) := ⟨_, rfl⟩
    obtain ⟨hl, hu⟩ := ndigits_spec (c - 1) (by omega)
    rw [← hkk] at hl hu
    have hk1 : 1 ≤ k := hkk ▸ ndigits_pos _ (by omega)
    have hcle : c ≤ 10 ^ k := by omega
    have hclt : 10 ^ (k - 1) < c := by omega
    -- ceil facts
    have hdm := Nat.div_add_mod (den + num - 1) num
    rw [← hcc] at hdm
    have hmod := Nat.mod_lt (den + num - 1) hn
    obtain ⟨r, hr⟩ : ∃ r, r = (den + num - 1) % num := ⟨_, rfl⟩
    rw [← hr] at hdm hmod
    obtain ⟨M, hM⟩ : ∃ M, M = num * c := ⟨_, rfl⟩
    rw [← hM] at hdm
    have hMc : M = num * c := hM
    have keyA : den ≤ M := by omega
    have keyB : num * (c - 1) < den := by
      have hsub : num * (c - 1) + num = M := by
        rw [hM]
        have h1 : c - 1 + 1 = c := by omega
        calc num * (c - 1) + num = num * (c - 1 + 1) := by ring
          _ = num * c := by rw [h1]
      omega
    have hX : decExp num den = -(k : ℤ) := by
      rw [decExp, if_neg hle, hk, ← hkk]
    have hX6 : decExp num den ≤ 6 := by rw [hX]; omega
    have htn : (6 - decExp num den).toNat = 6 + k := by rw [hX]; omega
    have hsc : g7scaled num den = (num * 10 ^ (6 + k), den) := by
      rw [g7scaled, if_pos hX6, htn]
    rw [hsc]
    refine ⟨hd, ?_, ?_⟩
    · have h1 : den ≤ num * 10 ^ k := by
        calc den ≤ M := keyA
          _ = num * c := hMc
          _ ≤ num * 10 ^ k := Nat.mul_le_mul_left num hcle
      calc den * 10 ^ 6 ≤ num * 10 ^ k * 10 ^ 6 := Nat.mul_le_mul_right _ h1
        _ = num * 10 ^ (6 + k) := by rw [Nat.mul_assoc, ← pow_add, Nat.add_comm]
    · have h1 : num * 10 ^ (k - 1) < den := by
        calc num * 10 ^ (k - 1) ≤ num * (c - 1) := Nat.mul_le_mul_left num (by omega)
          _ < den := keyB
      have hsplit : (10:ℕ) ^ (k - 1) * 10 ^ 7 = 10 ^ (6 + k) := by
        rw [← pow_add]
        congr 1
        omega
      calc num * 10 ^ (6 + k) = num * 10 ^ (k - 1) * 10 ^ 7 := by
            rw [Nat.mul_assoc, hsplit]
        _ < den * 10 ^ 7 := (Nat.mul_lt_mul_right (by norm_num : 0 < (10:ℕ) ^ 7)).mpr h1

lemma g7m_div_bounds (A B : ℕ) (hB : 0 < B) (hl : B * 10 ^ 6 ≤ A) (hu : A < B * 10 ^ 7) :
    10 ^ 6 ≤ (2 * A + B) / (2 * B) ∧ (2 * A + B) / (2 * B) ≤ 10 ^ 7 := by
  have h6 : (10:ℕ) ^ 6 = 1000000 := by norm_num
  have h7 : (10:ℕ) ^ 7 = 10000000 := by norm_num
  rw [h6, h7] at *
  constructor
  · rw [Nat.le_div_iff_mul_le (by omega : 0 < 2 * B)]
    omega
  · have : (2 * A + B) / (2 * B) < 10000001 := by
      rw [Nat.div_lt_iff_lt_mul (by omega : 0 < 2 * B)]
      omega
    omega

lemma g7parts_bounds (num den : ℕ) (hn : 0 < num) (hd : 0 < den) :
    10 ^ 6 ≤ (g7parts num den).1 ∧ (g7parts num den).1 < 10 ^ 7 := by
  obtain ⟨hB, hl, hu⟩ := g7scaled_bounds num den hn hd
  obtain ⟨hml, hmu⟩ := g7m_div_bounds (g7scaled num den).1 (g7scaled num den).2 hB hl hu
  by_cases hbump :
      (2 * (g7scaled num den).1 + (g7scaled num den).2) / (2 * (g7scaled num den).2) = 10 ^ 7
  · rw [g7parts, if_pos hbump]
    norm_num
  · rw [g7parts, if_neg hbump]
    exact ⟨hml, by omega⟩

end Fe.Rw

namespace Fe.Rw

lemma takeWhile_app (p : Char → Bool) (ds r : List Char) (h : ∀ c ∈ ds, p c = true) :
    (ds ++ r).takeWhile p = ds ++ r.takeWhile p := by
  induction ds with
  | nil => simp
  | cons c t ih =>
    simp only [List.cons_append, List.takeWhile_cons, h c (by simp), if_true]
    rw [ih (fun x hx => h x (by simp [hx]))]

lemma dropWhile_app (p : Char → Bool) (ds r : List Char) (h : ∀ c ∈ ds, p c = true) :
    (ds ++ r).dropWhile p = r.dropWhile p := by
  induction ds with
  | nil => simp
  | cons c t ih =>
    simp only [List.cons_append, List.dropWhile_cons, h c (by simp), if_true]
    exact ih (fun x hx => h x (by simp [hx]))

lemma takeWhile_stop (p : Char → Bool) (c : Char) (r : List Char) (h : p c = false) :
    (c :: r).takeWhile p = [] ∧ (c :: r).dropWhile p = c :: r := by
  constructor
  · simp [List.takeWhile_cons, h]
  · simp [List.dropWhile_cons, h]

lemma takeWhile_all (p : Char → Bool) (ds : List Char) (h : ∀ c ∈ ds, p c = true) :
    ds.takeWhile p = ds ∧ ds.dropWhile p = [] := by
  induction ds with
  | nil => simp
  | cons c t ih =>
    obtain ⟨ih1, ih2⟩ := ih (fun x hx => h x (by simp [hx]))
    constructor
    · simp only [List.takeWhile_cons, h c (by simp), if_true, ih1]
    · simp only [List.dropWhile_cons, h c (by simp), if_true, ih2]

lemma stripZeros_decomp (ds : List Char) :
    ∃ t, ds = stripZeros ds ++ List.replicate t '0' ∧
      digitsVal ds = digitsVal (stripZeros ds) * 10 ^ t ∧
      ds.length = (stripZeros ds).length + t := by
  have hsplit := List.takeWhile_append_dropWhile (p := fun c => c = '0') (l := ds.reverse)
  have hT : ds.reverse.takeWhile (fun c => c = '0') =
      List.replicate (ds.reverse.takeWhile (fun c => c = '0')).length '0' := by
    rw [List.eq_replicate_iff]
    refine ⟨rfl, ?_⟩
    intro b hb
    have := List.mem_takeWhile_imp hb
    simpa using this
  have hds : ds = stripZeros ds ++
      List.replicate (ds.reverse.takeWhile (fun c => c = '0')).length '0' := by
    calc ds = (ds.reverse).reverse := (List.reverse_reverse ds).symm
      _ = (ds.reverse.takeWhile (fun c => c = '0') ++
            ds.reverse.dropWhile (fun c => c = '0')).reverse := by rw [hsplit]
      _ = (ds.reverse.dropWhile (fun c => c = '0')).reverse ++
            (ds.reverse.takeWhile (fun c => c = '0')).reverse := List.reverse_append _ _
      _ = stripZeros ds ++
            List.replicate (ds.reverse.takeWhile (fun c => c = '0')).length '0' := by
          rw [stripZeros]
          congr 1
          rw [hT, List.reverse_replicate, List.length_replicate]
  refine ⟨(ds.reverse.takeWhile (fun c => c = '0')).length, hds, ?_, ?_⟩
  · conv_lhs => rw [hds]
    rw [digitsVal_append, digitsVal_replicate_zero, List.length_replicate]
    omega
  · conv_lhs => rw [hds]
    rw [List.length_append, List.length_replicate]

end Fe.Rw

namespace Fe.Rw

lemma digits_take_drop (ds : List Char) (j : ℕ)
    (hall : ∀ c ∈ ds, isDigitC c = true) (hj : j ≤ ds.length) :
    digitsVal (ds.take j) = digitsVal ds / 10 ^ (ds.length - j) ∧
    digitsVal (ds.drop j) = digitsVal ds % 10 ^ (ds.length - j) := by
  have happ : ds.take j ++ ds.drop j = ds := List.take_append_drop j ds
  have hlen : (ds.drop j).length = ds.length - j := List.length_drop j ds
  have hv : digitsVal ds =
      10 ^ (ds.length - j) * digitsVal (ds.take j) + digitsVal (ds.drop j) := by
    conv_lhs => rw [← happ]
    rw [digitsVal_append, hlen, Nat.mul_comm]
  have hlt : digitsVal (ds.drop j) < 10 ^ (ds.length - j) := by
    rw [← hlen]
    exact digitsVal_lt _ (fun c hc => hall c (List.drop_subset j ds hc))
  have hP : 0 < 10 ^ (ds.length - j) := by positivity
  constructor
  · rw [hv, Nat.mul_add_div hP, Nat.div_eq_of_lt hlt, Nat.add_zero]
  · rw [hv, Nat.mul_add_mod, Nat.mod_eq_of_lt hlt]

lemma toLowerC_digit {c : Char} (hc : isDigitC c = true) : toLowerC c = c := by
  rw [isDigitC_iff] at hc
  rw [toLowerC, if_neg]
  simp only [Bool.and_eq_true, decide_eq_true_eq, not_and]
  omega

lemma matchesSeq_digit_head (c p0 : Char) (rest pat' : List Char)
    (hc : isDigitC c = true) (hp0 : isDigitC p0 = false) :
    matchesSeq (c :: rest) (p0 :: pat') = false := by
  simp only [matchesSeq, decide_eq_false_iff_not]
  intro h
  rw [List.length_cons, List.take_succ_cons, List.map_cons] at h
  have h1 : toLowerC c = p0 := by
    injection h
  rw [toLowerC_digit hc] at h1
  rw [h1] at hc
  rw [hc] at hp0
  exact absurd hp0 (by decide)

lemma isSpaceC_eq_false {c : Char} (h48 : 48 ≤ c.toNat) : isSpaceC c = false := by
  have hne : ∀ d : Char, d.toNat < 48 → ¬ c = d := by
    intro d hd he
    rw [he] at h48
    omega
  simp only [isSpaceC, Bool.or_eq_false_iff, decide_eq_false_iff_not]
  refine ⟨⟨⟨⟨⟨hne ' ' (by decide), hne '\t' (by decide)⟩, hne '\n' (by decide)⟩,
    by omega⟩, by omega⟩, hne '\r' (by decide)⟩

lemma natToChars_ne_nil (n : ℕ) : natToChars n ≠ [] := by
  have hlen := length_natToChars n
  intro h
  rw [h] at hlen
  rcases Nat.eq_zero_or_pos n with h0 | h0
  · subst h0
    simp at hlen
    exact absurd hlen.symm (by decide)
  · have := ndigits_pos n h0
    simp at hlen
    omega

lemma cast_div_mod_split (m k : ℕ) :
    ((m / 10 ^ k : ℕ) : ℚ) + ((m % 10 ^ k : ℕ) : ℚ) / 10 ^ k = (m : ℚ) / 10 ^ k := by
  have h10 : ((10:ℚ)) ^ k ≠ 0 := by positivity
  have hnat : m / 10 ^ k * 10 ^ k + m % 10 ^ k = m := by
    have h := Nat.div_add_mod m (10 ^ k)
    rw [Nat.mul_comm] at h
    exact h
  rw [eq_div_iff h10, add_mul, div_mul_cancel₀ _ h10]
  exact_mod_cast hnat

lemma frac_compress (d t fl : ℕ) :
    (d : ℚ) / 10 ^ fl = ((d * 10 ^ t : ℕ) : ℚ) / 10 ^ (fl + t) := by
  have h1 : ((10:ℚ)) ^ fl ≠ 0 := by positivity
  have h2 : ((10:ℚ)) ^ (fl + t) ≠ 0 := by positivity
  rw [div_eq_div_iff h1 h2]
  push_cast
  rw [pow_add]
  ring

lemma val_shiftA (m : ℕ) (X : ℤ) :
    ((m : ℚ) / 10 ^ (6:ℕ)) * 10 ^ X = (m : ℚ) * 10 ^ (X - 6) := by
  rw [zpow_sub₀ (by norm_num : (10:ℚ) ≠ 0)]
  rw [show ((10:ℚ) ^ (6:ℤ)) = (10:ℚ) ^ (6:ℕ) by norm_num]
  ring

lemma val_shiftB (m P : ℕ) (X : ℤ) (h : (P : ℤ) = 6 - X) :
    (m : ℚ) / 10 ^ P = (m : ℚ) * 10 ^ (X - 6) := by
  have hx : (X - 6 : ℤ) = -(P : ℤ) := by omega
  rw [hx, zpow_neg, zpow_natCast]
  ring

end Fe.Rw

namespace Fe.Rw

lemma parseExpDigits_all (sign : Bool) (orig pad : List Char)
    (hall : ∀ c ∈ pad, isDigitC c = true) (hne : pad ≠ []) :
    parseExpDigits sign orig pad = ((if sign then -1 else 1) * (digitsVal pad : ℤ), []) := by
  obtain ⟨ht, hd⟩ := takeWhile_all isDigitC pad hall
  rw [parseExpDigits, ht, hd, if_neg hne]

lemma parseExp_expChars (X : ℤ) : parseExp ('e' :: expChars X) = (X, []) := by
  set pad := (if (natToChars X.natAbs).length < 2
    then '0' :: natToChars X.natAbs else natToChars X.natAbs) with hpad
  have hall : ∀ c ∈ pad, isDigitC c = true := by
    intro c hc
    rw [hpad] at hc
    split at hc
    · rcases List.mem_cons.mp hc with rfl | hc
      · decide
      · exact natToChars_digits _ c hc
    · exact natToChars_digits _ c hc
  have hne : pad ≠ [] := by
    rw [hpad]
    split
    · simp
    · exact natToChars_ne_nil _
  have hval : digitsVal pad = X.natAbs := by
    rw [hpad]
    split
    · rw [digitsVal_cons_zero, digitsVal_natToChars]
    · rw [digitsVal_natToChars]
  by_cases hXneg : X < 0
  · have hexp : expChars X = '-' :: pad := by
      rw [expChars, if_pos hXneg, hpad]
      rfl
    rw [hexp]
    show parseExp ('e' :: '-' :: pad) = (X, [])
    rw [parseExp]
    rw [if_pos (Or.inl rfl)]
    show (if ('-' : Char) = '+' then parseExpDigits false ('e' :: '-' :: pad) pad
      else if ('-' : Char) = '-' then parseExpDigits true ('e' :: '-' :: pad) pad
      else parseExpDigits false ('e' :: '-' :: pad) ('-' :: pad)) = (X, [])
    rw [if_neg (by decide), if_pos rfl, parseExpDigits_all true _ pad hall hne, hval]
    have hx : (if true then (-1:ℤ) else 1) * (X.natAbs : ℤ) = X := by
      show (-1:ℤ) * (X.natAbs : ℤ) = X
      omega
    rw [hx]
  · have hexp : expChars X = '+' :: pad := by
      rw [expChars, if_neg hXneg, hpad]
      rfl
    rw [hexp]
    show parseExp ('e' :: '+' :: pad) = (X, [])
    rw [parseExp]
    rw [if_pos (Or.inl rfl)]
    show (if ('+' : Char) = '+' then parseExpDigits false ('e' :: '+' :: pad) pad
      else if ('+' : Char) = '-' then parseExpDigits true ('e' :: '+' :: pad) pad
      else parseExpDigits false ('e' :: '+' :: pad) ('+' :: pad)) = (X, [])
    rw [if_pos rfl, parseExpDigits_all false _ pad hall hne, hval]
    have hx : (if false then (-1:ℤ) else 1) * (X.natAbs : ℤ) = X := by
      show (1:ℤ) * (X.natAbs : ℤ) = X
      omega
    rw [hx]

end Fe.Rw

namespace Fe.Rw

lemma parseFrac_nodot (tail : List Char) (hth : ∀ c r, tail = c :: r → ¬ c = '.') :
    parseFrac tail = ([], tail) := by
  cases tail with
  | nil => rfl
  | cons c r =>
    rw [parseFrac, if_neg (hth c r rfl)]

lemma parseDec_walk (ids fr tail : List Char) (e : ℤ)
    (hids : ids ≠ []) (hida : ∀ c ∈ ids, isDigitC c = true)
    (hfra : ∀ c ∈ fr, isDigitC c = true)
    (hexp : parseExp tail = (e, []))
    (hth : ∀ c r, tail = c :: r → isDigitC c = false ∧ ¬ c = '.') :
    parseDec (ids ++ (if fr = [] then [] else '.' :: fr) ++ tail) =
      some (decValue ids fr e, []) := by
  have htailtw : tail.takeWhile isDigitC = [] ∧ tail.dropWhile isDigitC = tail := by
    cases tail with
    | nil => exact ⟨rfl, rfl⟩
    | cons c r => exact takeWhile_stop isDigitC c r (hth c r rfl).1
  by_cases hfr : fr = []
  · subst hfr
    rw [if_pos rfl, List.append_nil]
    have htw : (ids ++ tail).takeWhile isDigitC = ids := by
      rw [takeWhile_app _ ids _ hida, htailtw.1, List.append_nil]
    have hdw : (ids ++ tail).dropWhile isDigitC = tail := by
      rw [dropWhile_app _ ids _ hida, htailtw.2]
    have hpf : parseFrac tail = ([], tail) := parseFrac_nodot tail (fun c r h => (hth c r h).2)
    rw [parseDec, htw, hdw, hpf, hexp]
    rw [if_neg (fun h => hids h.1)]
  · have hdot : isDigitC '.' = false := by decide
    have hassoc : ids ++ ('.' :: fr) ++ tail = ids ++ ('.' :: (fr ++ tail)) := by
      simp [List.append_assoc]
    rw [if_neg hfr, hassoc]
    have htw : (ids ++ ('.' :: (fr ++ tail))).takeWhile isDigitC = ids := by
      rw [takeWhile_app _ ids _ hida, (takeWhile_stop isDigitC '.' _ hdot).1, List.append_nil]
    have hdw : (ids ++ ('.' :: (fr ++ tail))).dropWhile isDigitC = '.' :: (fr ++ tail) := by
      rw [dropWhile_app _ ids _ hida, (takeWhile_stop isDigitC '.' _ hdot).2]
    have hpf : parseFrac ('.' :: (fr ++ tail)) = (fr, tail) := by
      rw [parseFrac, if_pos rfl]
      rw [takeWhile_app _ fr _ hfra, htailtw.1, List.append_nil,
        dropWhile_app _ fr _ hfra, htailtw.2]
    rw [parseDec, htw, hdw, hpf, hexp]
    rw [if_neg (fun h => hids h.1)]

end Fe.Rw

namespace Fe.Rw

lemma parseDec_g7_estyle (m : ℕ) (X : ℤ) (hm6 : 10 ^ 6 ≤ m) (hm7 : m < 10 ^ 7) :
    parseDec ((natToChars m).take 1 ++
        (if stripZeros ((natToChars m).drop 1) = [] then []
         else '.' :: stripZeros ((natToChars m).drop 1)) ++ 'e' :: expChars X) =
      some ((m : ℚ) * 10 ^ (X - 6), []) := by
  have hall := natToChars_digits m
  have hval := digitsVal_natToChars m
  have hlen : (natToChars m).length = 7 := by
    rw [length_natToChars]
    exact ndigits_eq m 6 hm6 hm7
  obtain ⟨tdd1, tdd2⟩ := digits_take_drop (natToChars m) 1 hall (by omega)
  rw [hval, hlen] at tdd1 tdd2
  rw [show (7:ℕ) - 1 = 6 from rfl] at tdd1 tdd2
  obtain ⟨t, hdec, hdv, hlt⟩ := stripZeros_decomp ((natToChars m).drop 1)
  have hdlen : ((natToChars m).drop 1).length = 6 := by
    rw [List.length_drop, hlen]
  have hfra : ∀ c ∈ stripZeros ((natToChars m).drop 1), isDigitC c = true := by
    intro c hc
    apply hall
    refine List.drop_subset 1 (natToChars m) ?_
    rw [hdec]
    exact List.mem_append_left _ hc
  have hids : (natToChars m).take 1 ≠ [] := by
    have hl1 : ((natToChars m).take 1).length = 1 := by
      rw [List.length_take, hlen]
      omega
    intro h
    rw [h] at hl1
    simp at hl1
  have hida : ∀ c ∈ (natToChars m).take 1, isDigitC c = true :=
    fun c hc => hall c (List.take_subset _ _ hc)
  have hth : ∀ c r, ('e' :: expChars X) = c :: r → isDigitC c = false ∧ ¬ c = '.' := by
    intro c r h
    injection h with h1 _
    rw [← h1]
    exact ⟨by decide, by decide⟩
  rw [parseDec_walk _ _ _ X hids hida hfra (parseExp_expChars X) hth]
  have hfrac : ((digitsVal (stripZeros ((natToChars m).drop 1)) : ℕ) : ℚ) /
      10 ^ (stripZeros ((natToChars m).drop 1)).length = ((m % 10 ^ 6 : ℕ) : ℚ) / 10 ^ 6 := by
    rw [frac_compress _ t _, ← hdv, tdd2]
    rw [show (stripZeros ((natToChars m).drop 1)).length + t = 6 by omega]
  rw [decValue, tdd1, hfrac, cast_div_mod_split m 6, val_shiftA m X]

lemma parseDec_g7_fstyle (m : ℕ) (X : ℤ) (hm6 : 10 ^ 6 ≤ m) (hm7 : m < 10 ^ 7)
    (hX0 : 0 ≤ X) (hX6 : X ≤ 6) :
    parseDec ((natToChars m).take (X.toNat + 1) ++
        (if stripZeros ((natToChars m).drop (X.toNat + 1)) = [] then []
         else '.' :: stripZeros ((natToChars m).drop (X.toNat + 1))) ++ []) =
      some ((m : ℚ) * 10 ^ (X - 6), []) := by
  have hall := natToChars_digits m
  have hval := digitsVal_natToChars m
  have hlen : (natToChars m).length = 7 := by
    rw [length_natToChars]
    exact ndigits_eq m 6 hm6 hm7
  have hj7 : X.toNat + 1 ≤ 7 := by omega
  obtain ⟨tdd1, tdd2⟩ := digits_take_drop (natToChars m) (X.toNat + 1) hall (by omega)
  rw [hval, hlen] at tdd1 tdd2
  rw [show (7:ℕ) - (X.toNat + 1) = 6 - X.toNat by omega] at tdd1 tdd2
  obtain ⟨t, hdec, hdv, hlt⟩ := stripZeros_decomp ((natToChars m).drop (X.toNat + 1))
  have hdlen : ((natToChars m).drop (X.toNat + 1)).length = 6 - X.toNat := by
    rw [List.length_drop, hlen]
    omega
  have hfra : ∀ c ∈ stripZeros ((natToChars m).drop (X.toNat + 1)), isDigitC c = true := by
    intro c hc
    apply hall
    refine List.drop_subset (X.toNat + 1) (natToChars m) ?_
    rw [hdec]
    exact List.mem_append_left _ hc
  have hids : (natToChars m).take (X.toNat + 1) ≠ [] := by
    have hl1 : ((natToChars m).take (X.toNat + 1)).length = X.toNat + 1 := by
      rw [List.length_take, hlen]
      omega
    intro h
    rw [h] at hl1
    simp at hl1
  have hida : ∀ c ∈ (natToChars m).take (X.toNat + 1), isDigitC c = true :=
    fun c hc => hall c (List.take_subset _ _ hc)
  have hth : ∀ c r, ([] : List Char) = c :: r → isDigitC c = false ∧ ¬ c = '.' := by
    intro c r h
    exact absurd h (by simp)
  rw [parseDec_walk _ _ [] 0 hids hida hfra rfl hth]
  have hfrac : ((digitsVal (stripZeros ((natToChars m).drop (X.toNat + 1))) : ℕ) : ℚ) /
      10 ^ (stripZeros ((natToChars m).drop (X.toNat + 1))).length =
      ((m % 10 ^ (6 - X.toNat) : ℕ) : ℚ) / 10 ^ (6 - X.toNat) := by
    rw [frac_compress _ t _, ← hdv, tdd2]
    rw [show (stripZeros ((natToChars m).drop (X.toNat + 1))).length + t = 6 - X.toNat by omega]
  rw [decValue, tdd1, hfrac, cast_div_mod_split m (6 - X.toNat)]
  rw [val_shiftB m (6 - X.toNat) X (by omega)]
  rw [zpow_zero, mul_one]

lemma parseDec_g7_small (m : ℕ) (X : ℤ) (hm6 : 10 ^ 6 ≤ m) (hm7 : m < 10 ^ 7)
    (hX : X ≤ -1) :
    parseDec ('0' :: '.' :: (List.replicate (-X - 1).toNat '0' ++ stripZeros (natToChars m))) =
      some ((m : ℚ) * 10 ^ (X - 6), []) := by
  have hall := natToChars_digits m
  have hval := digitsVal_natToChars m
  have hlen : (natToChars m).length = 7 := by
    rw [length_natToChars]
    exact ndigits_eq m 6 hm6 hm7
  obtain ⟨t, hdec, hdv, hlt⟩ := stripZeros_decomp (natToChars m)
  have hsne : stripZeros (natToChars m) ≠ [] := by
    intro h
    rw [h] at hdv
    rw [hval] at hdv
    simp [digitsVal] at hdv
    omega
  have hfne : List.replicate (-X - 1).toNat '0' ++ stripZeros (natToChars m) ≠ [] := by
    intro h
    exact hsne (List.append_eq_nil.mp h).2
  have hshape : '0' :: '.' :: (List.replicate (-X - 1).toNat '0' ++ stripZeros (natToChars m)) =
      ['0'] ++ (if List.replicate (-X - 1).toNat '0' ++ stripZeros (natToChars m) = [] then []
        else '.' :: (List.replicate (-X - 1).toNat '0' ++ stripZeros (natToChars m))) ++ [] := by
    rw [if_neg hfne]
    simp
  have hfra : ∀ c ∈ List.replicate (-X - 1).toNat '0' ++ stripZeros (natToChars m),
      isDigitC c = true := by
    intro c hc
    rcases List.mem_append.mp hc with hc | hc
    · rw [List.eq_of_mem_replicate hc]
      decide
    · apply hall
      rw [hdec]
      exact List.mem_append_left _ hc
  have hth : ∀ c r, ([] : List Char) = c :: r → isDigitC c = false ∧ ¬ c = '.' := by
    intro c r h
    exact absurd h (by simp)
  rw [hshape]
  rw [parseDec_walk _ _ [] 0 (by simp) (by intro c hc; rw [List.mem_singleton.mp hc]; decide)
    hfra rfl hth]
  rw [decValue]
  have h0 : digitsVal ['0'] = 0 := by decide
  have hv2 : digitsVal (List.replicate (-X - 1).toNat '0' ++ stripZeros (natToChars m)) =
      digitsVal (stripZeros (natToChars m)) := by
    rw [digitsVal_append, digitsVal_replicate_zero]
    omega
  have hl2 : (List.replicate (-X - 1).toNat '0' ++ stripZeros (natToChars m)).length =
      (-X - 1).toNat + (stripZeros (natToChars m)).length := by
    rw [List.length_append, List.length_replicate]
  rw [h0, hv2, hl2]
  have hfrac : ((digitsVal (stripZeros (natToChars m)) : ℕ) : ℚ) /
      10 ^ ((-X - 1).toNat + (stripZeros (natToChars m)).length) =
      (m : ℚ) * 10 ^ (X - 6) := by
    have hc := frac_compress (digitsVal (stripZeros (natToChars m))) t
      ((-X - 1).toNat + (stripZeros (natToChars m)).length)
    rw [hc, ← hdv, hval]
    exact val_shiftB m _ X (by omega)
  rw [hfrac]
  rw [zpow_zero, mul_one, Nat.cast_zero, zero_add]

end Fe.Rw

namespace Fe.Rw

lemma parseDec_g7fmtPos (num den : ℕ) (hn : 0 < num) (hd : 0 < den) :
    parseDec (g7fmtPos num den) =
      some (((g7parts num den).1 : ℚ) * 10 ^ ((g7parts num den).2 - 6), []) := by
  have hb := g7parts_bounds num den hn hd
  rw [g7fmtPos]
  by_cases hE : (g7parts num den).2 < -4 ∨ 7 ≤ (g7parts num den).2
  · rw [if_pos hE]
    exact parseDec_g7_estyle (g7parts num den).1 (g7parts num den).2 hb.1 hb.2
  · rw [if_neg hE]
    push_neg at hE
    by_cases hX0 : 0 ≤ (g7parts num den).2
    · rw [if_pos hX0]
      have h := parseDec_g7_fstyle (g7parts num den).1 (g7parts num den).2 hb.1 hb.2 hX0
        (by omega)
      rwa [List.append_nil] at h
    · rw [if_neg hX0]
      exact parseDec_g7_small (g7parts num den).1 (g7parts num den).2 hb.1 hb.2 (by omega)

end Fe.Rw

namespace Fe.Rw

lemma hexPrefix_ne_zero (c : Char) (rest : List Char) (hc : ¬ c = '0') :
    hexPrefix (c :: rest) = false := by
  cases rest with
  | nil => rfl
  | cons c2 r2 => simp [hexPrefix, hc]

lemma natToChars_head (m : ℕ) (hm6 : 10 ^ 6 ≤ m) (hm7 : m < 10 ^ 7) :
    ∃ c1 rest1, natToChars m = c1 :: rest1 ∧ isDigitC c1 = true ∧ ¬ c1 = '0' := by
  have hall := natToChars_digits m
  have hlen : (natToChars m).length = 7 := by
    rw [length_natToChars]
    exact ndigits_eq m 6 hm6 hm7
  obtain ⟨c1, rest1, hcons⟩ : ∃ c1 rest1, natToChars m = c1 :: rest1 := by
    cases h : natToChars m with
    | nil => rw [h] at hlen; simp at hlen
    | cons a b => exact ⟨a, b, rfl⟩
  have hdig : isDigitC c1 = true := hall c1 (by rw [hcons]; simp)
  refine ⟨c1, rest1, hcons, hdig, ?_⟩
  obtain ⟨tdd1, _⟩ := digits_take_drop (natToChars m) 1 hall (by omega)
  rw [digitsVal_natToChars, hlen] at tdd1
  have htake : (natToChars m).take 1 = [c1] := by
    rw [hcons]
    rfl
  rw [htake] at tdd1
  have hd1 : digitsVal [c1] = digitVal c1 := by
    simp [digitsVal]
  rw [hd1] at tdd1
  have hge : 1 ≤ m / 10 ^ (7 - 1) := by
    rw [Nat.le_div_iff_mul_le (by norm_num)]
    calc 1 * 10 ^ (7 - 1) = 10 ^ 6 := by norm_num
      _ ≤ m := hm6
  intro h
  rw [h] at tdd1
  have : digitVal '0' = 0 := by decide
  omega

lemma g7fmtPos_shape (num den : ℕ) (hn : 0 < num) (hd : 0 < den) :
    ∃ c rest, g7fmtPos num den = c :: rest ∧ isDigitC c = true ∧
      hexPrefix (c :: rest) = false := by
  obtain ⟨hm6, hm7⟩ := g7parts_bounds num den hn hd
  obtain ⟨c1, rest1, hcons, hdig, hne0⟩ := natToChars_head (g7parts num den).1 hm6 hm7
  rw [g7fmtPos]
  by_cases hE : (g7parts num den).2 < -4 ∨ 7 ≤ (g7parts num den).2
  · rw [if_pos hE, hcons]
    refine ⟨c1, (if stripZeros (List.drop 1 (c1 :: rest1)) = [] then []
        else '.' :: stripZeros (List.drop 1 (c1 :: rest1))) ++
        'e' :: expChars (g7parts num den).2,
      ?_, hdig, hexPrefix_ne_zero c1 _ hne0⟩
    simp
  · rw [if_neg hE]
    by_cases hX0 : 0 ≤ (g7parts num den).2
    · rw [if_pos hX0, hcons]
      rw [List.take_succ_cons]
      refine ⟨c1, List.take (g7parts num den).2.toNat rest1 ++
          (if stripZeros (List.drop ((g7parts num den).2.toNat + 1) (c1 :: rest1)) = [] then []
           else '.' :: stripZeros (List.drop ((g7parts num den).2.toNat + 1) (c1 :: rest1))),
        ?_, hdig, hexPrefix_ne_zero c1 _ hne0⟩
      simp
    · rw [if_neg hX0]
      exact ⟨'0', _, rfl, by decide, rfl⟩

lemma afterSign_digit (neg : Bool) (c : Char) (rest : List Char)
    (hdig : isDigitC c = true) (hhex : hexPrefix (c :: rest) = false)
    (v : ℚ) (r2 : List Char) (hpd : parseDec (c :: rest) = some (v, r2)) :
    afterSign neg (c :: rest) = some (.finite (if neg then -v else v), r2) := by
  have hinf : matchesSeq (c :: rest) ['i','n','f'] = false :=
    matchesSeq_digit_head c 'i' rest ['n','f'] hdig (by decide)
  have hnan : matchesSeq (c :: rest) ['n','a','n'] = false :=
    matchesSeq_digit_head c 'n' rest ['a','n'] hdig (by decide)
  rw [afterSign]
  simp only [hinf, hnan, hhex, Bool.false_eq_true, if_false]
  rw [hpd]

end Fe.Rw

namespace Fe.Rw

lemma strtodParse_format_g7 (q : ℚ) :
    strtodParse (format_g7 q) = some (.finite (g7round q), []) := by
  by_cases h0 : q = 0
  · subst h0
    rw [format_g7, if_pos rfl, g7round, if_pos rfl]
    have h3 : decValue ['0'] [] 0 = 0 := by
      have hd : digitsVal ['0'] = 0 := by decide
      have hd2 : digitsVal [] = 0 := rfl
      rw [decValue, hd, hd2]
      norm_num
    calc strtodParse ['0'] = some (.finite (decValue ['0'] [] 0), []) := rfl
      _ = some (.finite 0, []) := by rw [h3]
  · have hn : 0 < q.num.natAbs := Int.natAbs_pos.mpr (Rat.num_ne_zero.mpr h0)
    have hdp : 0 < q.den := q.den_pos
    obtain ⟨c, rest, hcons, hdig, hhex⟩ := g7fmtPos_shape q.num.natAbs q.den hn hdp
    have h48 : 48 ≤ c.toNat := (isDigitC_iff.mp hdig).1
    have hpd : parseDec (c :: rest) =
        some (((g7parts q.num.natAbs q.den).1 : ℚ) *
          10 ^ ((g7parts q.num.natAbs q.den).2 - 6), []) := by
      rw [← hcons]
      exact parseDec_g7fmtPos q.num.natAbs q.den hn hdp
    have hdw : (c :: rest).dropWhile isSpaceC = c :: rest := by
      simp [List.dropWhile_cons, isSpaceC_eq_false h48]
    have hcm : ¬ c = '-' := fun h => by rw [h] at h48; exact absurd h48 (by decide)
    have hcp : ¬ c = '+' := fun h => by rw [h] at h48; exact absurd h48 (by decide)
    by_cases hneg : q < 0
    · rw [format_g7, if_neg h0, if_pos hneg, hcons]
      have hshape : ['-'] ++ (c :: rest) = '-' :: c :: rest := rfl
      rw [hshape, strtodParse]
      have hdw2 : ('-' :: c :: rest).dropWhile isSpaceC = '-' :: c :: rest := by
        simp [List.dropWhile_cons, show isSpaceC '-' = false from by decide]
      rw [hdw2, strtodBody, if_pos rfl]
      rw [afterSign_digit true c rest hdig hhex _ _ hpd]
      rw [g7round, if_neg h0, if_pos hneg]
      simp only [Option.some.injEq, Prod.mk.injEq, StrtodVal.finite.injEq, and_true]
      show -(((g7parts q.num.natAbs q.den).1 : ℚ) *
          10 ^ ((g7parts q.num.natAbs q.den).2 - 6)) = _
      ring
    · rw [format_g7, if_neg h0, if_neg hneg, List.nil_append, hcons]
      rw [strtodParse, hdw, strtodBody, if_neg hcm, if_neg hcp]
      rw [afterSign_digit false c rest hdig hhex _ _ hpd]
      rw [g7round, if_neg h0, if_neg hneg]
      simp only [Option.some.injEq, Prod.mk.injEq, StrtodVal.finite.injEq, and_true]
      show (((g7parts q.num.natAbs q.den).1 : ℚ) *
          10 ^ ((g7parts q.num.natAbs q.den).2 - 6)) = _
      ring

end Fe.Rw

namespace Fe.Rw

/-- `2^62`, the first integer above the fixnum range; exactly representable
as a C double. -/
def qBig : ℚ := ⟨4611686018427387904, 1, one_ne_zero, Nat.coprime_one_right _⟩

/-- A non-integral number (`1/2`, exactly representable as a C double). -/
def qHalf : ℚ := ⟨1, 2, by decide, Nat.coprime_one_left _⟩

/-- Claim C4 (corrected): `fe_make_number` returns an immediate fixnum
exactly for integral values in `[-2^62, 2^62)` and a boxed NUMBER cell
otherwise; the `%.7g` text of a boxed value, read back by `strtod`, denotes
the value rounded to 7 significant digits (`g7round`) — not, in general,
the original value. -/
theorem c4_make_number_print :
    (∀ n : ℤ, -(2 ^ 62) ≤ n → n < 2 ^ 62 → fe_make_number (n : ℚ) = .fixV n) ∧
    (∀ v : ℚ, ¬(v.den = 1 ∧ -(2 ^ 62) ≤ v.num ∧ v.num < 2 ^ 62) →
      fe_make_number v = .numV v) ∧
    (∀ v : ℚ, strtodParse (format_g7 v) = some (.finite (g7round v), [])) := by
  refine ⟨?_, ?_, strtodParse_format_g7⟩
  · intro n h1 h2
    rw [fe_make_number, if_pos]
    · rw [Rat.num_intCast]
    · rw [Rat.den_intCast, Rat.num_intCast]
      exact ⟨rfl, h1, h2⟩
  · intro v hv
    rw [fe_make_number, if_neg hv]

/-- C4, witness: `5` is an immediate fixnum, `1/2` is boxed, and the boxed
`1/2` prints as text that `strtod` reads back as `g7round (1/2)`. -/
theorem c4_make_number_print_witness :
    fe_make_number ((5 : ℤ) : ℚ) = .fixV 5 ∧
    fe_make_number qHalf = .numV qHalf ∧
    strtodParse (format_g7 qHalf) = some (.finite (g7round qHalf), []) :=
  ⟨c4_make_number_print.1 5 (by decide) (by decide),
   c4_make_number_print.2.1 qHalf (by decide),
   c4_make_number_print.2.2 qHalf⟩

/-- C4, counterexample to the claim's round-trip clause: `2^62` is outside
the fixnum range, so it is boxed; `%.7g` prints it as `4.611686e+18`, which
reads back as `4611686·10^12 = g7round (2^62) ≠ 2^62`.  (The value `2^62`
is exactly representable as a double, so the idealization is faithful
here.) -/
theorem c4_roundtrip_counterexample :
    fe_make_number qBig = .numV qBig ∧
    format_g7 qBig = ['4','.','6','1','1','6','8','6','e','+','1','8'] ∧
    strtodParse ['4','.','6','1','1','6','8','6','e','+','1','8'] =
      some (.finite (g7round qBig), []) ∧
    g7round qBig ≠ qBig := by
  have hfmt : format_g7 qBig = ['4','.','6','1','1','6','8','6','e','+','1','8'] := by
    decide
  refine ⟨by decide, hfmt, ?_, ?_⟩
  · rw [← hfmt]
    exact strtodParse_format_g7 qBig
  · have hparts : g7parts qBig.num.natAbs qBig.den = (4611686, 18) := by decide
    have hq : qBig = ((4611686018427387904 : ℤ) : ℚ) := by
      rw [← Rat.num_div_den qBig]
      rw [show qBig.num = 4611686018427387904 from rfl, show qBig.den = 1 from rfl]
      norm_num
    rw [g7round, if_neg (by decide), if_neg (by decide), hparts]
    dsimp only
    rw [one_mul]
    intro h
    rw [show (18 : ℤ) - 6 = ((12 : ℕ) : ℤ) by decide, zpow_natCast, hq] at h
    norm_num at h

end Fe.Rw

namespace Fe.Rw

/-! ### The writer (`fe_write`, fe.c:573-633) and reader (`read_`,
fe.c:711-803) over `FeVal` trees.

Symbols are identified by name: fe interns symbols, so the code's pointer
comparison `car(obj) == frame_sym` coincides with comparing the symbol
name against `"[frame]"` (the name interned by `fe_open`, fe.c:1293).
The reader's character-stream functions `fn`/`ctx->nextchr` are modeled by
a `List Char` stream; the one-character pushback is modeled by leaving the
terminating delimiter in the returned rest of the stream. -/

def frameName : List Char := ['[','f','r','a','m','e',']']

/-- String-body escaping of `fe_write`'s `FE_TSTRING` case: only `"` is
escaped (fe.c:622-626). -/
def escapeStr : List Char → List Char
  | [] => []
  | c :: r => if c = '"' then '\\' :: c :: escapeStr r else c :: escapeStr r

mutual
/-- `fe_write`: `qt` is the quote flag (strings print quoted and escaped
only when it is set; list elements always print with `qt = 1`). -/
def writeVal (qt : Bool) : FeVal → List Char
  | .nilV => ['n','i','l']
  | .boolV b => if b then ['t','r','u','e'] else ['f','a','l','s','e']
  | .fixV n => intToChars n
  | .numV q => format_g7 q
  | .symV name => name
  | .strV s => if qt then '"' :: (escapeStr s ++ ['"']) else s
  | .pairV a d =>
    if a = .symV frameName then ['[','e','n','v',' ','f','r','a','m','e',']']
    else '(' :: (writeVal true a ++ (writeSpine d ++ [')']))
termination_by v => 2 * sizeOf v
decreasing_by
  all_goals simp_wf
  all_goals omega

/-- The `for (;;)` loop of `fe_write`'s pair case: the spine is iterated
without re-checking the `[env frame]` tag, each element printed with
`qt = 1`, a non-nil non-pair tail printed after `" . "`. -/
def writeSpine : FeVal → List Char
  | .nilV => []
  | .pairV a d => ' ' :: (writeVal true a ++ writeSpine d)
  | x => ' ' :: '.' :: ' ' :: writeVal true x
termination_by v => 2 * sizeOf v + 1
decreasing_by
  all_goals simp_wf
  all_goals omega
end

/-- Reader character classes: `read_`'s delimiter string is `" \n\t\r();"`
and its whitespace-skipping set is `" \n\t\r"` (fe.c:712, 723). -/
def isWS (c : Char) : Bool := c = ' ' || c = '\n' || c = '\t' || c = '\r'

def isDelim (c : Char) : Bool := isWS c || c = '(' || c = ')' || c = ';'

/-- A character that continues a token: not a delimiter and not the NUL
end-of-input marker. -/
def isTokChar (c : Char) : Bool := !(isDelim c) && !(c.toNat == 0)

/-- Reader results: a value, the `&rparen` sentinel, end of input
(`read_` returns NULL), or a `fe_error` (unclosed list/string, stray
quote, symbol too long; also the undefined `make_number` on an
infinity/NaN token, which cannot occur for written values). -/
inductive RdRes where
  | ok (v : FeVal) (rest : List Char)
  | rp (rest : List Char)
  | eof
  | err
deriving DecidableEq, Repr

/-- String-literal body scan of `read_` (fe.c:764-784): until the closing
quote, `\n`/`\r`/`\t` escapes decoded, any other escaped character taken
literally; end of input is the `unclosed string` error. -/
def readStrF : List Char → Option (List Char × List Char)
  | [] => none
  | c :: r =>
    if c = '"' then some ([], r)
    else if c.toNat = 0 then none
    else if c = '\\' then
      match r with
      | [] => none
      | e :: r2 =>
        match readStrF r2 with
        | some (cs, rest) =>
          some ((if e = 'n' then '\n' else if e = 'r' then '\r'
                 else if e = 't' then '\t' else e) :: cs, rest)
        | none => none
    else
      match readStrF r with
      | some (cs, rest) => some (c :: cs, rest)
      | none => none

/-- The token branch of `read_` (fe.c:786-802): `symbol too long` past 63
characters, then `strtod`; the token is a number iff `strtod` converts a
nonempty prefix and stops on a delimiter, which for a delimiter-free
NUL-terminated token means consuming it entirely.  A whole-token infinity
or NaN reaches `fe_make_number`, whose `(intptr_t)` cast of the value is
undefined; we model that as an error.  Then the `nil`/`true`/`false`
keywords, else an interned symbol. -/
def tokKw (tok rest : List Char) : RdRes :=
  if tok = ['n','i','l'] then .ok .nilV rest
  else if tok = ['t','r','u','e'] then .ok (.boolV true) rest
  else if tok = ['f','a','l','s','e'] then .ok (.boolV false) rest
  else .ok (.symV tok) rest

def tokDispatch (tok rest : List Char) : Option (StrtodVal × List Char) → RdRes
  | some (.finite q, []) => .ok (fe_make_number q) rest
  | some (.inf _, []) => .err
  | some (.nan, []) => .err
  | _ => tokKw tok rest

def readTok (tok rest : List Char) : RdRes :=
  if 63 < tok.length then .err
  else tokDispatch tok rest (strtodParse tok)

/-- The list built by `read_`'s `'('` loop: elements appended through the
tail pointer, with the current tail-slot value (set by a dotted pair,
overwritten by a later element — the `(a . b c)` quirk). -/
def buildList : List FeVal → FeVal → FeVal
  | [], tl => tl
  | v :: r, tl => .pairV v (buildList r tl)

/-- The quote case of `read_` (fe.c:758-761): wrap the next form (read via
`fe_read`, so a stray `)` or end of input is an error) in `(quote _)`. -/
def quoteCase : RdRes → RdRes
  | .ok v rest => .ok (.pairV (.symV ['q','u','o','t','e']) (.pairV v .nilV)) rest
  | _ => .err

/-- The string case of `read_`: package the scanned body. -/
def strCase : Option (List Char × List Char) → RdRes
  | some (cs, rest) => .ok (.strV cs) rest
  | none => .err

mutual
/-- `read_` (fe.c:711-803), fuel-indexed: skip whitespace, then dispatch. -/
def readF : ℕ → List Char → RdRes
  | 0, _ => .err
  | f+1, s => readCore f (s.dropWhile isWS)
termination_by f s => 4 * f

/-- Dispatch of `read_` on the first non-whitespace character:
end-of-input, comment, `)`, `(`, quote, string, or token. -/
def readCore : ℕ → List Char → RdRes
  | _, [] => .eof
  | f, c :: r =>
    if c = ';' then readF f ((r.dropWhile (fun x => decide (¬ x = '\n'))).drop 1)
    else if c = ')' then .rp r
    else if c = '(' then readListF f [] .nilV r
    else if c = '\'' then quoteCase (readTopF f r)
    else if c = '"' then strCase (readStrF r)
    else readTok (c :: r.takeWhile isTokChar) (r.dropWhile isTokChar)
termination_by f s => 4 * f + 3
decreasing_by
  all_goals simp_wf
  all_goals omega

/-- `fe_read` (fe.c:808-812): a stray `)` is an error. -/
def readTopF (f : ℕ) (s : List Char) : RdRes :=
  match readF f s with
  | .rp _ => .err
  | r => r
termination_by 4 * f + 1

/-- The `'('` loop of `read_` (fe.c:737-756): `acc` holds the elements
consed so far, `tl` the value currently in the open tail slot. -/
def readListF : ℕ → List FeVal → FeVal → List Char → RdRes
  | 0, _, _, _ => .err
  | f+1, acc, tl, s =>
    match readF f s with
    | .rp rest => .ok (buildList acc tl) rest
    | .ok v rest =>
      if v = .symV ['.'] then
        match readTopF f rest with
        | .ok x rest2 => readListF f acc x rest2
        | _ => .err
      else readListF f (acc ++ [v]) .nilV rest
    | _ => .err
termination_by f acc tl s => 4 * f + 2
decreasing_by
  all_goals simp_wf
  all_goals omega
end

end Fe.Rw

namespace Fe.Rw

/-- Is the whole string a number token?  (`read_`'s acceptance test:
`strtod` converted a nonempty prefix and stopped at the NUL.) -/
def numTok (s : List Char) : Bool :=
  match strtodParse s with
  | some (_, []) => true
  | _ => false

/-- A symbol name the reader tokenizes back to the same symbol: nonempty,
at most 63 characters, all token characters, not starting a quote or
string, not a keyword, and not parsed as a number by `strtod`. -/
def goodSym (name : List Char) : Bool :=
  !name.isEmpty && decide (name.length ≤ 63) && name.all isTokChar &&
  (match name with
   | [] => false
   | c :: _ => !(c == '\'') && !(c == '"')) &&
  !(name == ['n','i','l']) && !(name == ['t','r','u','e']) && !(name == ['f','a','l','s','e']) &&
  !(numTok name)

mutual
/-- The readable values: written text tokenizes back to the same value.
Fixnums must be in range (else they would not have been immediates);
boxed numbers must be 7-significant-digit stable, not fixnum-convertible,
and print within the 63-character token limit; strings must avoid `\`
(written unescaped but meaningful to the reader) and NUL; a pair's car
must not be the interned `[frame]` symbol (printed as `[env frame]`) nor
the symbol `.` (misparsed as a dotted pair). -/
def good : FeVal → Bool
  | .nilV => true
  | .boolV _ => true
  | .fixV n => decide (-(2 ^ 62) ≤ n) && decide (n < 2 ^ 62)
  | .numV q => !(decide (q.den = 1 ∧ -(2 ^ 62) ≤ q.num ∧ q.num < 2 ^ 62)) &&
      decide (g7round q = q) && decide ((format_g7 q).length ≤ 63)
  | .symV name => goodSym name
  | .strV s => s.all (fun c => !(c == '\\') && !(c.toNat == 0))
  | .pairV a d => good a && !(a == .symV ['.']) && !(a == .symV frameName) && goodSpine d
termination_by v => 2 * sizeOf v
decreasing_by
  all_goals simp_wf
  all_goals omega

/-- Readability of a cdr spine: elements readable and not the dot symbol
(inner spine pairs are not `[env frame]`-checked by the writer); a dotted
tail is any readable value. -/
def goodSpine : FeVal → Bool
  | .nilV => true
  | .pairV a d => good a && !(a == .symV ['.']) && goodSpine d
  | x => good x
termination_by v => 2 * sizeOf v + 1
decreasing_by
  all_goals simp_wf
  all_goals omega
end

/-- Boundary condition for reading a written value out of a longer stream:
token-shaped values must be followed by a delimiter or the end of input;
strings and lists are self-terminating. -/
def bnd (v : FeVal) (rest : List Char) : Prop :=
  match v with
  | .strV _ => True
  | .pairV _ _ => True
  | _ => rest = [] ∨ ∃ c r, rest = c :: r ∧ isDelim c = true

lemma isTokChar_mk {c : Char} (h : ¬ c = ' ' ∧ ¬ c = '\n' ∧ ¬ c = '\t' ∧ ¬ c = '\r' ∧
    ¬ c = '(' ∧ ¬ c = ')' ∧ ¬ c = ';' ∧ ¬ c.toNat = 0) : isTokChar c = true := by
  obtain ⟨h1, h2, h3, h4, h5, h6, h7, h8⟩ := h
  simp [isTokChar, isDelim, isWS, h1, h2, h3, h4, h5, h6, h7, h8]

lemma isTokChar_elim {c : Char} (h : isTokChar c = true) :
    isDelim c = false ∧ ¬ c.toNat = 0 := by
  simp only [isTokChar, Bool.and_eq_true, Bool.not_eq_true', beq_eq_false_iff_ne, ne_eq,
    Nat.beq_eq_true_eq] at h
  refine ⟨h.1, ?_⟩
  simpa using h.2

lemma char_ne_of_toNat {c d : Char} (hc : 48 ≤ c.toNat) (hd : d.toNat < 48) : ¬ c = d := by
  intro h
  rw [h] at hc
  omega

lemma isTokChar_digit {c : Char} (h : isDigitC c = true) : isTokChar c = true := by
  rw [isDigitC_iff] at h
  refine isTokChar_mk ⟨char_ne_of_toNat h.1 (by decide), char_ne_of_toNat h.1 (by decide),
    char_ne_of_toNat h.1 (by decide), char_ne_of_toNat h.1 (by decide),
    char_ne_of_toNat h.1 (by decide), char_ne_of_toNat h.1 (by decide), ?_, by omega⟩
  intro he
  rw [he] at h
  revert h
  decide

lemma hexPrefix_digits (ds : List Char) (hall : ∀ c ∈ ds, isDigitC c = true) :
    hexPrefix ds = false := by
  match ds with
  | [] => rfl
  | [c] => rfl
  | c0 :: c1 :: r =>
    have h1 : isDigitC c1 = true := hall c1 (by simp)
    rw [isDigitC_iff] at h1
    have hx : ¬ c1 = 'x' := by
      intro h
      rw [h] at h1
      revert h1
      decide
    have hX : ¬ c1 = 'X' := by
      intro h
      rw [h] at h1
      revert h1
      decide
    simp [hexPrefix, hx, hX]

lemma afterSign_natToChars (neg : Bool) (k : ℕ) :
    afterSign neg (natToChars k) =
      some (.finite (if neg then -(k : ℚ) else (k : ℚ)), []) := by
  have hall := natToChars_digits k
  obtain ⟨c, r0, hcons⟩ : ∃ c r0, natToChars k = c :: r0 := by
    cases h : natToChars k with
    | nil => exact absurd h (natToChars_ne_nil k)
    | cons a b => exact ⟨a, b, rfl⟩
  have hdig : isDigitC c = true := hall c (by rw [hcons]; simp)
  have hpd : parseDec (natToChars k) = some ((k : ℚ), []) := by
    obtain ⟨htw, hdw⟩ := takeWhile_all isDigitC (natToChars k) hall
    rw [parseDec, htw, hdw]
    rw [if_neg (fun h => (natToChars_ne_nil k) h.1)]
    have hpf : parseFrac [] = ([], []) := rfl
    rw [hpf]
    have hpe : parseExp [] = (0, []) := rfl
    rw [hpe]
    have hval : decValue (natToChars k) [] 0 = (k : ℚ) := by
      rw [decValue, digitsVal_natToChars]
      have hnil : digitsVal [] = 0 := rfl
      rw [hnil]
      norm_num
    rw [hval]
  rw [hcons] at hpd ⊢
  rw [afterSign_digit neg c r0 hdig (by rw [← hcons]; exact hexPrefix_digits _ hall) _ _ hpd]

lemma strtodParse_intToChars (n : ℤ) :
    strtodParse (intToChars n) = some (.finite (n : ℚ), []) := by
  by_cases hn : n < 0
  · rw [intToChars, if_pos hn, strtodParse]
    have hdw : ('-' :: natToChars n.natAbs).dropWhile isSpaceC = '-' :: natToChars n.natAbs := by
      simp [List.dropWhile_cons, show isSpaceC '-' = false from by decide]
    rw [hdw, strtodBody, if_pos rfl, afterSign_natToChars true n.natAbs]
    have hcast : -((n.natAbs : ℕ) : ℚ) = (n : ℚ) := by
      have h1 : ((n.natAbs : ℕ) : ℤ) = -n := by omega
      have h2 : ((n.natAbs : ℕ) : ℚ) = (((n.natAbs : ℕ) : ℤ) : ℚ) := (Int.cast_natCast _).symm
      rw [h2, h1]
      push_cast
      ring
    rw [if_pos rfl, hcast]
  · rw [intToChars, if_neg hn, strtodParse]
    have hall := natToChars_digits n.toNat
    obtain ⟨c, r0, hcons⟩ : ∃ c r0, natToChars n.toNat = c :: r0 := by
      cases h : natToChars n.toNat with
      | nil => exact absurd h (natToChars_ne_nil n.toNat)
      | cons a b => exact ⟨a, b, rfl⟩
    have hdig : isDigitC c = true := hall c (by rw [hcons]; simp)
    have h48 : 48 ≤ c.toNat := (isDigitC_iff.mp hdig).1
    have hdw : (natToChars n.toNat).dropWhile isSpaceC = natToChars n.toNat := by
      rw [hcons]
      simp [List.dropWhile_cons, isSpaceC_eq_false h48]
    rw [hdw, hcons, strtodBody]
    rw [if_neg (char_ne_of_toNat h48 (by decide)), if_neg (char_ne_of_toNat h48 (by decide))]
    rw [← hcons, afterSign_natToChars false n.toNat]
    have : ((n.toNat : ℕ) : ℚ) = (n : ℚ) := by
      have h1 : ((n.toNat : ℕ) : ℤ) = n := by omega
      exact_mod_cast congrArg (fun x : ℤ => (x : ℚ)) h1
    rw [if_neg (by decide), this]

end Fe.Rw

namespace Fe.Rw

lemma readF_cons (f : ℕ) (c : Char) (r : List Char) (hws : isWS c = false) :
    readF (f + 1) (c :: r) = readCore f (c :: r) := by
  rw [readF]
  congr 1
  simp [List.dropWhile_cons, hws]

lemma readCore_tok (f : ℕ) (c : Char) (r : List Char)
    (h1 : ¬ c = ';') (h2 : ¬ c = ')') (h3 : ¬ c = '(') (h4 : ¬ c = '\'') (h5 : ¬ c = '"') :
    readCore f (c :: r) = readTok (c :: r.takeWhile isTokChar) (r.dropWhile isTokChar) := by
  rw [readCore, if_neg h1, if_neg h2, if_neg h3, if_neg h4, if_neg h5]

lemma isWS_false_of_not_delim {c : Char} (hdel : isDelim c = false) : isWS c = false := by
  cases hw : isWS c
  · rfl
  · rw [isDelim, hw] at hdel
    simp at hdel

lemma isTokChar_false_of_delim {d : Char} (hd : isDelim d = true) : isTokChar d = false := by
  simp [isTokChar, hd]

lemma readF_token (f : ℕ) (tok rest : List Char)
    (hne : tok ≠ []) (hall : ∀ c ∈ tok, isTokChar c = true)
    (hhead : ∀ c r, tok = c :: r → ¬ c = '\'' ∧ ¬ c = '"')
    (hrest : rest = [] ∨ ∃ c r, rest = c :: r ∧ isDelim c = true) :
    readF (f + 1) (tok ++ rest) = readTok tok rest := by
  obtain ⟨c, r0, hcons⟩ : ∃ c r0, tok = c :: r0 := by
    cases tok with
    | nil => exact absurd rfl hne
    | cons a b => exact ⟨a, b, rfl⟩
  have htc := hall c (by rw [hcons]; simp)
  obtain ⟨hdel, _⟩ := isTokChar_elim htc
  have hws : isWS c = false := isWS_false_of_not_delim hdel
  have hof : ∀ d : Char, isDelim d = true → ¬ c = d := by
    intro d hd he
    rw [he, hd] at hdel
    exact absurd hdel (by decide)
  obtain ⟨hq1, hq2⟩ := hhead c r0 hcons
  subst hcons
  rw [List.cons_append]
  rw [readF_cons f c _ hws,
    readCore_tok f c _ (hof ';' (by decide)) (hof ')' (by decide)) (hof '(' (by decide)) hq1 hq2]
  have hr0 : ∀ x ∈ r0, isTokChar x = true := fun x hx => hall x (by simp [hx])
  have htw : (r0 ++ rest).takeWhile isTokChar = r0 ∧ (r0 ++ rest).dropWhile isTokChar = rest := by
    rcases hrest with hrest | ⟨d, r', hr', hd⟩
    · subst hrest
      obtain ⟨t1, t2⟩ := takeWhile_all isTokChar r0 hr0
      rw [List.append_nil]
      exact ⟨t1, t2⟩
    · subst hr'
      obtain ⟨s1, s2⟩ := takeWhile_stop isTokChar d r' (isTokChar_false_of_delim hd)
      rw [takeWhile_app _ r0 _ hr0, dropWhile_app _ r0 _ hr0, s1, s2, List.append_nil]
      exact ⟨rfl, rfl⟩
  rw [htw.1, htw.2]

lemma readStrF_escape (s : List Char) (rest : List Char)
    (hgood : s.all (fun c => !(c == '\\') && !(c.toNat == 0)) = true) :
    readStrF (escapeStr s ++ '"' :: rest) = some (s, rest) := by
  induction s with
  | nil =>
    show readStrF ('"' :: rest) = some ([], rest)
    rw [readStrF.eq_def]
    dsimp only
    rw [if_pos rfl]
  | cons c t ih =>
    rw [List.all_cons, Bool.and_eq_true] at hgood
    obtain ⟨hc, ht⟩ := hgood
    have hcbs : ¬ c = '\\' := by
      simp only [Bool.and_eq_true, Bool.not_eq_true', beq_eq_false_iff_ne, ne_eq] at hc
      exact hc.1
    have hc0 : ¬ c.toNat = 0 := by
      simp only [Bool.and_eq_true, Bool.not_eq_true', beq_eq_false_iff_ne, ne_eq,
        Nat.beq_eq_true_eq] at hc
      exact hc.2
    by_cases hq : c = '"'
    · subst hq
      rw [escapeStr, if_pos rfl]
      show readStrF ('\\' :: '"' :: (escapeStr t ++ '"' :: rest)) = _
      simp only [readStrF]
      rw [if_pos trivial, ih ht]
      rfl
    · rw [escapeStr, if_neg hq]
      show readStrF (c :: (escapeStr t ++ '"' :: rest)) = _
      rw [readStrF.eq_def]
      dsimp only
      rw [if_neg hq, if_neg hc0, if_neg hcbs, ih ht]

end Fe.Rw

namespace Fe.Rw

lemma fe_make_number_int (n : ℤ) (h1 : -(2 ^ 62) ≤ n) (h2 : n < 2 ^ 62) :
    fe_make_number (n : ℚ) = .fixV n := by
  rw [fe_make_number, if_pos]
  · rw [Rat.num_intCast]
  · rw [Rat.den_intCast, Rat.num_intCast]
    exact ⟨rfl, h1, h2⟩

lemma ndigits_zero_eq : ndigits 0 = 1 := by decide

lemma length_natToChars_le (k d : ℕ) (h : k < 10 ^ d) (hd : 1 ≤ d) :
    (natToChars k).length ≤ d := by
  rw [length_natToChars]
  rcases Nat.eq_zero_or_pos k with h0 | h0
  · rw [h0, ndigits_zero_eq]
    omega
  · obtain ⟨hl, _⟩ := ndigits_spec k h0
    by_contra hc
    push_neg at hc
    have : 10 ^ d ≤ 10 ^ (ndigits k - 1) := Nat.pow_le_pow_right (by norm_num) (by omega)
    omega

lemma length_intToChars_le (n : ℤ) (h1 : -(2 ^ 62) ≤ n) (h2 : n < 2 ^ 62) :
    (intToChars n).length ≤ 63 := by
  rw [intToChars]
  split
  · rw [List.length_cons]
    have hb : n.natAbs < 10 ^ 19 := by
      have : n.natAbs ≤ 2 ^ 62 := by omega
      calc n.natAbs ≤ 2 ^ 62 := this
        _ < 10 ^ 19 := by norm_num
    have := length_natToChars_le n.natAbs 19 hb (by norm_num)
    omega
  · have hb : n.toNat < 10 ^ 19 := by
      have : n.toNat < 2 ^ 62 := by omega
      calc n.toNat < 2 ^ 62 := this
        _ < 10 ^ 19 := by norm_num
    have := length_natToChars_le n.toNat 19 hb (by norm_num)
    omega

lemma mem_stripZeros {c : Char} {l : List Char} (h : c ∈ stripZeros l) : c ∈ l := by
  obtain ⟨t, hdec, _, _⟩ := stripZeros_decomp l
  rw [hdec]
  exact List.mem_append_left _ h

lemma isTokChar_expChars (X : ℤ) : ∀ c ∈ expChars X, isTokChar c = true := by
  intro c hc
  rw [expChars] at hc
  rcases List.mem_append.mp hc with hc | hc
  · split at hc
    · rw [List.mem_singleton.mp hc]; decide
    · rw [List.mem_singleton.mp hc]; decide
  · split at hc
    · rcases List.mem_cons.mp hc with rfl | hc
      · decide
      · exact isTokChar_digit (natToChars_digits _ c hc)
    · exact isTokChar_digit (natToChars_digits _ c hc)

lemma isTokChar_g7fmtPos (num den : ℕ) : ∀ c ∈ g7fmtPos num den, isTokChar c = true := by
  intro c hc
  have hdig := natToChars_digits (g7parts num den).1
  have hdrop : ∀ j, ∀ x ∈ stripZeros ((natToChars (g7parts num den).1).drop j),
      isTokChar x = true := by
    intro j x hx
    exact isTokChar_digit (hdig x (List.drop_subset j _ (mem_stripZeros hx)))
  rw [g7fmtPos] at hc
  split at hc
  · rcases List.mem_append.mp hc with hc | hc
    · rcases List.mem_append.mp hc with hc | hc
      · exact isTokChar_digit (hdig c (List.take_subset _ _ hc))
      · split at hc
        · simp at hc
        · rcases List.mem_cons.mp hc with rfl | hc
          · decide
          · exact hdrop 1 c hc
    · rcases List.mem_cons.mp hc with rfl | hc
      · decide
      · exact isTokChar_expChars _ c hc
  · split at hc
    · rcases List.mem_append.mp hc with hc | hc
      · exact isTokChar_digit (hdig c (List.take_subset _ _ hc))
      · split at hc
        · simp at hc
        · rcases List.mem_cons.mp hc with rfl | hc
          · decide
          · exact hdrop _ c hc
    · rcases List.mem_cons.mp hc with rfl | hc
      · decide
      · rcases List.mem_cons.mp hc with rfl | hc
        · decide
        · rcases List.mem_append.mp hc with hc | hc
          · rw [List.eq_of_mem_replicate hc]; decide
          · exact isTokChar_digit (hdig c (mem_stripZeros hc))

lemma num_good_ne_zero (q : ℚ)
    (hnf : ¬(q.den = 1 ∧ -(2 ^ 62) ≤ q.num ∧ q.num < 2 ^ 62)) : q ≠ 0 := by
  intro h
  subst h
  exact hnf ⟨rfl, by decide, by decide⟩

lemma isTokChar_format_g7 (q : ℚ) (hq : q ≠ 0) : ∀ c ∈ format_g7 q, isTokChar c = true := by
  intro c hc
  rw [format_g7, if_neg hq] at hc
  rcases List.mem_append.mp hc with hc | hc
  · split at hc
    · rw [List.mem_singleton.mp hc]; decide
    · simp at hc
  · exact isTokChar_g7fmtPos _ _ c hc

lemma format_g7_head (q : ℚ) (hq : q ≠ 0) :
    ∃ c r, format_g7 q = c :: r ∧ (c = '-' ∨ isDigitC c = true) := by
  have hn : 0 < q.num.natAbs := Int.natAbs_pos.mpr (Rat.num_ne_zero.mpr hq)
  obtain ⟨c, rest, hcons, hdig, _⟩ := g7fmtPos_shape q.num.natAbs q.den hn q.den_pos
  rw [format_g7, if_neg hq]
  split
  · exact ⟨'-', _, by rw [hcons]; rfl, Or.inl rfl⟩
  · rw [List.nil_append, hcons]
    exact ⟨c, rest, rfl, Or.inr hdig⟩

end Fe.Rw

namespace Fe.Rw

lemma readTok_kw_nil (rest : List Char) : readTok ['n','i','l'] rest = .ok .nilV rest := by
  rw [readTok, if_neg (by decide)]
  have h : strtodParse ['n','i','l'] = none := by decide
  rw [h]
  simp only [tokDispatch]
  rw [tokKw, if_pos rfl]

lemma readTok_kw_true (rest : List Char) :
    readTok ['t','r','u','e'] rest = .ok (.boolV true) rest := by
  rw [readTok, if_neg (by decide)]
  have h : strtodParse ['t','r','u','e'] = none := by decide
  rw [h]
  simp only [tokDispatch]
  rw [tokKw, if_neg (by decide), if_pos rfl]

lemma readTok_kw_false (rest : List Char) :
    readTok ['f','a','l','s','e'] rest = .ok (.boolV false) rest := by
  rw [readTok, if_neg (by decide)]
  have h : strtodParse ['f','a','l','s','e'] = none := by decide
  rw [h]
  simp only [tokDispatch]
  rw [tokKw, if_neg (by decide), if_neg (by decide), if_pos rfl]

lemma readTok_fix (n : ℤ) (rest : List Char) (h1 : -(2 ^ 62) ≤ n) (h2 : n < 2 ^ 62) :
    readTok (intToChars n) rest = .ok (.fixV n) rest := by
  have hlen := length_intToChars_le n h1 h2
  rw [readTok, if_neg (by omega), strtodParse_intToChars n, tokDispatch,
    fe_make_number_int n h1 h2]

lemma readTok_num (q : ℚ) (rest : List Char)
    (hnf : ¬(q.den = 1 ∧ -(2 ^ 62) ≤ q.num ∧ q.num < 2 ^ 62))
    (hst : g7round q = q) (hlen : (format_g7 q).length ≤ 63) :
    readTok (format_g7 q) rest = .ok (.numV q) rest := by
  rw [readTok, if_neg (by omega), strtodParse_format_g7 q, tokDispatch, hst,
    fe_make_number, if_neg hnf]

lemma readTok_sym (name : List Char) (rest : List Char) (hgood : goodSym name = true) :
    readTok name rest = .ok (.symV name) rest := by
  simp only [goodSym, Bool.and_eq_true, Bool.not_eq_true', decide_eq_true_eq,
    beq_eq_false_iff_ne, ne_eq] at hgood
  obtain ⟨⟨⟨⟨⟨⟨⟨hne, hlen⟩, hall⟩, hhead⟩, hk1⟩, hk2⟩, hk3⟩, hnum⟩ := hgood
  have hkw : tokKw name rest = .ok (.symV name) rest := by
    rw [tokKw, if_neg hk1, if_neg hk2, if_neg hk3]
  rw [readTok, if_neg (by omega)]
  cases h : strtodParse name with
  | none =>
    simp only [tokDispatch]
    exact hkw
  | some p =>
    obtain ⟨v, r⟩ := p
    cases r with
    | nil =>
      exfalso
      rw [numTok, h] at hnum
      simp at hnum
    | cons rc rr =>
      rcases v with q | ng | _
      · simp only [tokDispatch]
        exact hkw
      · simp only [tokDispatch]
        exact hkw
      · simp only [tokDispatch]
        exact hkw

end Fe.Rw

namespace Fe.Rw

lemma readF_ws (f : ℕ) (s : List Char) : readF f (' ' :: s) = readF f s := by
  cases f with
  | zero => rw [readF, readF]
  | succ g =>
    rw [readF, readF]
    have hdw : (' ' :: s).dropWhile isWS = s.dropWhile isWS := by
      rw [List.dropWhile_cons, if_pos (by decide)]
    rw [hdw]

lemma readTopF_ok (f : ℕ) (s : List Char) (v : FeVal) (rest : List Char)
    (h : readF f s = .ok v rest) : readTopF f s = .ok v rest := by
  rw [readTopF, h]

lemma readListF_step_rp (f : ℕ) (acc : List FeVal) (tl : FeVal) (s rest : List Char)
    (hv : readF f s = .rp rest) :
    readListF (f + 1) acc tl s = .ok (buildList acc tl) rest := by
  rw [readListF, hv]

lemma readListF_step_ok (f : ℕ) (acc : List FeVal) (tl : FeVal) (s : List Char)
    (v : FeVal) (rest : List Char) (hv : readF f s = .ok v rest) :
    readListF (f + 1) acc tl s =
      (if v = .symV ['.'] then
        (match readTopF f rest with
         | .ok x rest2 => readListF f acc x rest2
         | _ => .err)
       else readListF f (acc ++ [v]) .nilV rest) := by
  rw [readListF, hv]

lemma buildList_append (acc : List FeVal) (v tl : FeVal) :
    buildList (acc ++ [v]) tl = buildList acc (.pairV v tl) := by
  induction acc with
  | nil => rfl
  | cons a r ih =>
    rw [List.cons_append, buildList, ih, buildList]

lemma readF_write_nil (f : ℕ) (rest : List Char) (hf : 1 ≤ f)
    (hrest : rest = [] ∨ ∃ c r, rest = c :: r ∧ isDelim c = true) :
    readF f (['n','i','l'] ++ rest) = .ok .nilV rest := by
  obtain ⟨g, rfl⟩ : ∃ g, f = g + 1 := ⟨f - 1, by omega⟩
  rw [readF_token g _ rest (by decide) (by decide)
    (by intro c r h; injection h with h1 _; rw [← h1]; exact ⟨by decide, by decide⟩) hrest]
  exact readTok_kw_nil rest

lemma readF_write_bool (f : ℕ) (b : Bool) (rest : List Char) (hf : 1 ≤ f)
    (hrest : rest = [] ∨ ∃ c r, rest = c :: r ∧ isDelim c = true) :
    readF f ((if b then ['t','r','u','e'] else ['f','a','l','s','e']) ++ rest) =
      .ok (.boolV b) rest := by
  obtain ⟨g, rfl⟩ : ∃ g, f = g + 1 := ⟨f - 1, by omega⟩
  cases b
  · rw [if_neg (by decide)]
    rw [readF_token g _ rest (by decide) (by decide)
      (by intro c r h; injection h with h1 _; rw [← h1]; exact ⟨by decide, by decide⟩) hrest]
    exact readTok_kw_false rest
  · rw [if_pos rfl]
    rw [readF_token g _ rest (by decide) (by decide)
      (by intro c r h; injection h with h1 _; rw [← h1]; exact ⟨by decide, by decide⟩) hrest]
    exact readTok_kw_true rest

lemma readF_write_fix (f : ℕ) (n : ℤ) (rest : List Char) (hf : 1 ≤ f)
    (h1 : -(2 ^ 62) ≤ n) (h2 : n < 2 ^ 62)
    (hrest : rest = [] ∨ ∃ c r, rest = c :: r ∧ isDelim c = true) :
    readF f (intToChars n ++ rest) = .ok (.fixV n) rest := by
  obtain ⟨g, rfl⟩ : ∃ g, f = g + 1 := ⟨f - 1, by omega⟩
  have hne : intToChars n ≠ [] := by
    rw [intToChars]
    split
    · simp
    · exact natToChars_ne_nil _
  have hall : ∀ c ∈ intToChars n, isTokChar c = true := by
    intro c hc
    rw [intToChars] at hc
    split at hc
    · rcases List.mem_cons.mp hc with rfl | hc
      · decide
      · exact isTokChar_digit (natToChars_digits _ c hc)
    · exact isTokChar_digit (natToChars_digits _ c hc)
  have hhead : ∀ c r, intToChars n = c :: r → ¬ c = '\'' ∧ ¬ c = '"' := by
    intro c r h
    rw [intToChars] at h
    split at h
    · injection h with hc _
      rw [← hc]
      exact ⟨by decide, by decide⟩
    · have hdig : isDigitC c = true := by
        apply natToChars_digits n.toNat
        rw [h]
        simp
      have h48 := (isDigitC_iff.mp hdig).1
      exact ⟨char_ne_of_toNat h48 (by decide), char_ne_of_toNat h48 (by decide)⟩
  rw [readF_token g _ rest hne hall hhead hrest]
  exact readTok_fix n rest h1 h2

lemma readF_write_num (f : ℕ) (q : ℚ) (rest : List Char) (hf : 1 ≤ f)
    (hnf : ¬(q.den = 1 ∧ -(2 ^ 62) ≤ q.num ∧ q.num < 2 ^ 62))
    (hst : g7round q = q) (hlen : (format_g7 q).length ≤ 63)
    (hrest : rest = [] ∨ ∃ c r, rest = c :: r ∧ isDelim c = true) :
    readF f (format_g7 q ++ rest) = .ok (.numV q) rest := by
  obtain ⟨g, rfl⟩ : ∃ g, f = g + 1 := ⟨f - 1, by omega⟩
  have hq0 := num_good_ne_zero q hnf
  obtain ⟨c0, r0, hcons, hc0⟩ := format_g7_head q hq0
  have hhead : ∀ c r, format_g7 q = c :: r → ¬ c = '\'' ∧ ¬ c = '"' := by
    intro c r h
    rw [h] at hcons
    injection hcons with hcc _
    rcases hc0 with hm | hdig
    · rw [← hcc] at hm
      rw [hm]
      exact ⟨by decide, by decide⟩
    · rw [← hcc] at hdig
      have h48 := (isDigitC_iff.mp hdig).1
      exact ⟨char_ne_of_toNat h48 (by decide), char_ne_of_toNat h48 (by decide)⟩
  rw [readF_token g _ rest (by rw [hcons]; simp) (isTokChar_format_g7 q hq0) hhead hrest]
  exact readTok_num q rest hnf hst hlen

lemma readF_write_sym (f : ℕ) (name : List Char) (rest : List Char) (hf : 1 ≤ f)
    (hgood : goodSym name = true)
    (hrest : rest = [] ∨ ∃ c r, rest = c :: r ∧ isDelim c = true) :
    readF f (name ++ rest) = .ok (.symV name) rest := by
  obtain ⟨g, rfl⟩ : ∃ g, f = g + 1 := ⟨f - 1, by omega⟩
  have hg := hgood
  simp only [goodSym, Bool.and_eq_true, Bool.not_eq_true', decide_eq_true_eq,
    beq_eq_false_iff_ne, ne_eq] at hg
  obtain ⟨⟨⟨⟨⟨⟨⟨hne, _⟩, hall⟩, hhd⟩, _⟩, _⟩, _⟩, _⟩ := hg
  have hne' : name ≠ [] := by
    intro h
    rw [h] at hne
    simp at hne
  have hall' : ∀ c ∈ name, isTokChar c = true := by
    intro c hc
    exact List.all_eq_true.mp hall c hc
  have hhead : ∀ c r, name = c :: r → ¬ c = '\'' ∧ ¬ c = '"' := by
    intro c r h
    rw [h] at hhd
    simp only [Bool.and_eq_true, Bool.not_eq_true', beq_eq_false_iff_ne, ne_eq] at hhd
    exact hhd
  rw [readF_token g _ rest hne' hall' hhead hrest]
  exact readTok_sym name rest hgood

end Fe.Rw

namespace Fe.Rw

lemma feval_sizeOf_pos (v : FeVal) : 1 ≤ sizeOf v := by
  cases v <;> simp_arith

lemma bnd_of (v : FeVal) (rest : List Char)
    (h : rest = [] ∨ ∃ c r, rest = c :: r ∧ isDelim c = true) : bnd v rest := by
  cases v <;> first | trivial | exact h

lemma spine_boundary (d : FeVal) (rest : List Char) :
    writeSpine d ++ ')' :: rest = [] ∨
      ∃ c r, writeSpine d ++ ')' :: rest = c :: r ∧ isDelim c = true := by
  cases d with
  | nilV =>
    rw [writeSpine]
    exact Or.inr ⟨')', rest, by simp, by decide⟩
  | pairV a d' =>
    rw [writeSpine, List.cons_append]
    exact Or.inr ⟨' ', _, rfl, by decide⟩
  | boolV b =>
    simp only [writeSpine]
    rw [List.cons_append]
    exact Or.inr ⟨' ', _, rfl, by decide⟩
  | fixV n =>
    simp only [writeSpine]
    rw [List.cons_append]
    exact Or.inr ⟨' ', _, rfl, by decide⟩
  | numV q =>
    simp only [writeSpine]
    rw [List.cons_append]
    exact Or.inr ⟨' ', _, rfl, by decide⟩
  | symV name =>
    simp only [writeSpine]
    rw [List.cons_append]
    exact Or.inr ⟨' ', _, rfl, by decide⟩
  | strV s =>
    simp only [writeSpine]
    rw [List.cons_append]
    exact Or.inr ⟨' ', _, rfl, by decide⟩

lemma readF_rparen (g : ℕ) (rest : List Char) (hg : 1 ≤ g) :
    readF g (')' :: rest) = .rp rest := by
  obtain ⟨h, rfl⟩ : ∃ h, g = h + 1 := ⟨g - 1, by omega⟩
  rw [readF_cons h ')' rest (by decide), readCore, if_neg (by decide), if_pos rfl]

lemma goodSym_dot : goodSym ['.'] = true := by decide

end Fe.Rw

namespace Fe.Rw

lemma read_write_aux : ∀ n : ℕ,
    (∀ v f rest, sizeOf v ≤ n → good v = true → bnd v rest → 2 * sizeOf v ≤ f →
      readF f (writeVal true v ++ rest) = .ok v rest) ∧
    (∀ d f acc rest, sizeOf d ≤ n → goodSpine d = true → 2 * sizeOf d + 2 ≤ f →
      readListF f acc .nilV (writeSpine d ++ ')' :: rest) = .ok (buildList acc d) rest) := by
  intro n
  induction n using Nat.strong_induction_on with
  | _ n ih =>
    have hS1 : ∀ v f rest, sizeOf v ≤ n → good v = true → bnd v rest → 2 * sizeOf v ≤ f →
        readF f (writeVal true v ++ rest) = .ok v rest := by
      intro v f rest hsz hgood hbnd hfuel
      have hpos := feval_sizeOf_pos v
      cases v with
      | nilV =>
        rw [writeVal]
        exact readF_write_nil f rest (by omega) hbnd
      | boolV b =>
        rw [writeVal]
        exact readF_write_bool f b rest (by omega) hbnd
      | fixV m =>
        rw [writeVal]
        rw [good] at hgood
        simp only [Bool.and_eq_true, decide_eq_true_eq] at hgood
        exact readF_write_fix f m rest (by omega) hgood.1 hgood.2 hbnd
      | numV q =>
        rw [writeVal]
        rw [good] at hgood
        simp only [Bool.and_eq_true, Bool.not_eq_true', decide_eq_false_iff_not,
          decide_eq_true_eq] at hgood
        exact readF_write_num f q rest (by omega) hgood.1.1 hgood.1.2 hgood.2 hbnd
      | symV name =>
        rw [writeVal]
        rw [good] at hgood
        exact readF_write_sym f name rest (by omega) hgood hbnd
      | strV s =>
        rw [writeVal, if_pos rfl]
        rw [good] at hgood
        have hstream : ('"' :: (escapeStr s ++ ['"'])) ++ rest =
            '"' :: (escapeStr s ++ '"' :: rest) := by simp
        rw [hstream]
        obtain ⟨g, rfl⟩ : ∃ g, f = g + 1 := ⟨f - 1, by omega⟩
        rw [readF_cons g '"' _ (by decide)]
        rw [readCore, if_neg (by decide), if_neg (by decide), if_neg (by decide),
          if_neg (by decide), if_pos rfl]
        rw [readStrF_escape s rest hgood]
        rw [strCase]
      | pairV a d =>
        have hszp : sizeOf (FeVal.pairV a d) = 1 + sizeOf a + sizeOf d := by simp_arith
        have hpa := feval_sizeOf_pos a
        have hpd := feval_sizeOf_pos d
        rw [good] at hgood
        simp only [Bool.and_eq_true, Bool.not_eq_true', beq_eq_false_iff_ne, ne_eq] at hgood
        obtain ⟨⟨⟨hga, had⟩, haf⟩, hgd⟩ := hgood
        rw [writeVal, if_neg haf]
        have hstream : ('(' :: (writeVal true a ++ (writeSpine d ++ [')']))) ++ rest =
            '(' :: (writeVal true a ++ (writeSpine d ++ ')' :: rest)) := by simp
        rw [hstream]
        obtain ⟨g, rfl⟩ : ∃ g, f = g + 1 := ⟨f - 1, by omega⟩
        rw [readF_cons g '(' _ (by decide),
          readCore, if_neg (by decide), if_neg (by decide), if_pos rfl]
        obtain ⟨h, rfl⟩ : ∃ h, g = h + 1 := ⟨g - 1, by omega⟩
        have hread_a : readF h (writeVal true a ++ (writeSpine d ++ ')' :: rest)) =
            .ok a (writeSpine d ++ ')' :: rest) :=
          (ih (sizeOf a) (by omega)).1 a h _ (le_refl _) hga
            (bnd_of a _ (spine_boundary d rest)) (by omega)
        rw [readListF_step_ok h [] .nilV _ a _ hread_a, if_neg had, List.nil_append]
        have hspine := (ih (sizeOf d) (by omega)).2 d h [a] rest (le_refl _) hgd (by omega)
        rw [hspine]
        rfl
    refine ⟨hS1, ?_⟩
    have hatom : ∀ x : FeVal, ∀ f acc rest, good x = true →
        writeSpine x = ' ' :: '.' :: ' ' :: writeVal true x →
        sizeOf x ≤ n → 2 * sizeOf x + 2 ≤ f →
        readListF f acc .nilV (writeSpine x ++ ')' :: rest) = .ok (buildList acc x) rest := by
      intro x f acc rest hgx hws hszx hfx
      have hpx := feval_sizeOf_pos x
      rw [hws]
      have hstream : (' ' :: '.' :: ' ' :: writeVal true x) ++ ')' :: rest =
          ' ' :: ('.' :: ' ' :: (writeVal true x ++ ')' :: rest)) := by simp
      rw [hstream]
      obtain ⟨g, rfl⟩ : ∃ g, f = g + 1 := ⟨f - 1, by omega⟩
      have hdot : readF g (' ' :: ('.' :: ' ' :: (writeVal true x ++ ')' :: rest))) =
          .ok (.symV ['.']) (' ' :: (writeVal true x ++ ')' :: rest)) := by
        rw [readF_ws]
        obtain ⟨g2, rfl⟩ : ∃ g2, g = g2 + 1 := ⟨g - 1, by omega⟩
        have hsplit : ('.' :: ' ' :: (writeVal true x ++ ')' :: rest)) =
            ['.'] ++ (' ' :: (writeVal true x ++ ')' :: rest)) := rfl
        rw [hsplit, readF_token g2 ['.'] _ (by decide) (by decide)
          (by intro c r h; injection h with h1 _; rw [← h1]; exact ⟨by decide, by decide⟩)
          (Or.inr ⟨' ', _, rfl, by decide⟩)]
        exact readTok_sym ['.'] _ goodSym_dot
      rw [readListF_step_ok g acc .nilV _ _ _ hdot, if_pos rfl]
      have hx : readTopF g (' ' :: (writeVal true x ++ ')' :: rest)) = .ok x (')' :: rest) := by
        apply readTopF_ok
        rw [readF_ws]
        exact hS1 x g (')' :: rest) hszx hgx
          (bnd_of x _ (Or.inr ⟨')', rest, rfl, by decide⟩)) (by omega)
      rw [hx]
      show readListF g acc x (')' :: rest) = .ok (buildList acc x) rest
      obtain ⟨h, rfl⟩ : ∃ h, g = h + 1 := ⟨g - 1, by omega⟩
      rw [readListF_step_rp h acc x _ rest (readF_rparen h rest (by omega))]
    intro d f acc rest hsz hgood hfuel
    have hpos := feval_sizeOf_pos d
    cases d with
    | nilV =>
      rw [writeSpine, List.nil_append]
      obtain ⟨g, rfl⟩ : ∃ g, f = g + 1 := ⟨f - 1, by omega⟩
      rw [readListF_step_rp g acc .nilV _ rest (readF_rparen g rest (by omega))]
    | pairV a d2 =>
      have hszp : sizeOf (FeVal.pairV a d2) = 1 + sizeOf a + sizeOf d2 := by simp_arith
      have hpa := feval_sizeOf_pos a
      have hpd := feval_sizeOf_pos d2
      rw [goodSpine] at hgood
      simp only [Bool.and_eq_true, Bool.not_eq_true', beq_eq_false_iff_ne, ne_eq] at hgood
      obtain ⟨⟨hga, had⟩, hgd2⟩ := hgood
      rw [writeSpine]
      have hstream : (' ' :: (writeVal true a ++ writeSpine d2)) ++ ')' :: rest =
          ' ' :: (writeVal true a ++ (writeSpine d2 ++ ')' :: rest)) := by simp
      rw [hstream]
      obtain ⟨g, rfl⟩ : ∃ g, f = g + 1 := ⟨f - 1, by omega⟩
      have hread_a : readF g (' ' :: (writeVal true a ++ (writeSpine d2 ++ ')' :: rest))) =
          .ok a (writeSpine d2 ++ ')' :: rest) := by
        rw [readF_ws]
        exact hS1 a g _ (by omega) hga (bnd_of a _ (spine_boundary d2 rest)) (by omega)
      rw [readListF_step_ok g acc .nilV _ a _ hread_a, if_neg had]
      have hspine := (ih (sizeOf d2) (by omega)).2 d2 g (acc ++ [a]) rest (le_refl _)
        hgd2 (by omega)
      rw [hspine, buildList_append]
    | boolV b =>
      simp only [goodSpine] at hgood
      exact hatom (.boolV b) f acc rest hgood (by simp only [writeSpine]) hsz hfuel
    | fixV m =>
      simp only [goodSpine] at hgood
      exact hatom (.fixV m) f acc rest hgood (by simp only [writeSpine]) hsz hfuel
    | numV q =>
      simp only [goodSpine] at hgood
      exact hatom (.numV q) f acc rest hgood (by simp only [writeSpine]) hsz hfuel
    | symV name =>
      simp only [goodSpine] at hgood
      exact hatom (.symV name) f acc rest hgood (by simp only [writeSpine]) hsz hfuel
    | strV s =>
      simp only [goodSpine] at hgood
      exact hatom (.strV s) f acc rest hgood (by simp only [writeSpine]) hsz hfuel

end Fe.Rw

namespace Fe.Rw

/-- Claim C5 (corrected): `fe_read ∘ fe_write` is the identity on the
readable values described by `good` — pairs and dotted pairs of readable
values whose cars are neither the `[frame]` sentinel nor the symbol `.`,
strings without backslashes or NUL, in-range fixnums, 7-digit-stable
boxed numbers, non-keyword non-numeric token symbols, booleans, and nil —
when writing with string quoting on, as `fe_write` itself does for every
list element. -/
theorem c5_read_write (v : FeVal) (hgood : good v = true) :
    readTopF (2 * sizeOf v) (writeVal true v) = .ok v [] := by
  have h := (read_write_aux (sizeOf v)).1 v (2 * sizeOf v) [] (le_refl _) hgood
    (bnd_of v [] (Or.inl rfl)) (le_refl _)
  rw [List.append_nil] at h
  exact readTopF_ok _ _ _ _ h

/-- C5, witness: the one-element list `(nil)` written and read back. -/
theorem c5_read_write_witness :
    readTopF (2 * sizeOf (FeVal.pairV .nilV .nilV)) (writeVal true (.pairV .nilV .nilV)) =
      .ok (.pairV .nilV .nilV) [] :=
  c5_read_write (.pairV .nilV .nilV) (by simp [good, goodSpine])

/-- C5, counterexample to the unrestricted claim: two values in the
claim's own readable class that do not round-trip.  The string `"\n"`
(backslash and `n`, both printable) is written without escaping the
backslash, so it reads back as a newline string; the pair
`([frame-sym])` is written as the non-list text `[env frame]`, which
reads back as the symbol `[env` with trailing input left over. -/
theorem c5_roundtrip_counterexample :
    writeVal true (.strV ['\\','n']) = ['"','\\','n','"'] ∧
    readTopF 2 ['"','\\','n','"'] = .ok (.strV ['\n']) [] ∧
    FeVal.strV ['\n'] ≠ .strV ['\\','n'] ∧
    writeVal true (.pairV (.symV frameName) .nilV) =
      ['[','e','n','v',' ','f','r','a','m','e',']'] ∧
    readTopF 2 ['[','e','n','v',' ','f','r','a','m','e',']'] =
      .ok (.symV ['[','e','n','v']) [' ','f','r','a','m','e',']'] := by
  refine ⟨?_, ?_, by decide, ?_, ?_⟩
  · rw [writeVal, if_pos rfl]
    rfl
  · apply readTopF_ok
    rw [readF_cons 1 '"' _ (by decide)]
    rw [readCore, if_neg (by decide), if_neg (by decide), if_neg (by decide),
      if_neg (by decide), if_pos rfl]
    have h1 : readStrF ['\\','n','"'] = some (['\n'], []) := by
      rw [readStrF.eq_def]
      dsimp only
      rw [if_neg (by decide), if_neg (by decide), if_pos rfl]
      have h2 : readStrF ['"'] = some ([], []) := by
        rw [readStrF.eq_def]
        dsimp only
        rw [if_pos rfl]
      rw [h2]
      rfl
    rw [h1, strCase]
  · rw [writeVal, if_pos rfl]
  · apply readTopF_ok
    rw [readF_cons 1 '[' _ (by decide)]
    rw [readCore, if_neg (by decide), if_neg (by decide), if_neg (by decide),
      if_neg (by decide), if_neg (by decide)]
    decide

end Fe.Rw

namespace Fe.Ev

/-! ### The evaluator fragment relevant to claims C2, C7 and C9
(fe.c: `getbound` 674-700, the `P_GET` and `P_QUOTE` primitive cases,
`argstoenv` 851-864, `dolist` 837-848, and the `FE_TMACRO` branch of
`eval`, fe.c:1195-1224).

The arena is the same cell model as the GC section: a list of `Fe.Cell`,
with `Val.ref i` an arena pointer.  Boxed payloads (prim ordinals,
strings, doubles) sit in the `car`/`cdr` fields as in the C union.
Sentinel symbols (`frame_sym`, `return_sym`) are passed explicitly in a
`Globals` record that models the module-global statics of fe.c:106-113;
`fe_open` (fe.c:1292-1299) overwrites those statics with the most
recently opened context's symbol cells, which is what claim C7 is about.
Allocation (`fe_cons`) is idealized as appending a fresh cell — the
claims here do not concern the collector.  `eval`'s `newenv` out-pointer
is written only by `P_LET` and `P_MODULE`, neither of which is in this
fragment, so the environment is loop-invariant in `dolist` and is
captured in the evaluator closure instead of threaded.  `none` models
both a `fe_error` and a form outside the translated fragment (the other
primitives, functions and cfuncs). -/

/-- The `type(x)` macro (fe.c:38-42): fixnums and booleans are immediate,
pairs have an even tag, every other type is `tag >> 2`.  Payload values
other than an arena reference never occur in object position in a
well-formed state; they are mapped to the type of the cell they would
inhabit. -/
def typeOfVal (h : List Cell) : Val → ℕ
  | .ref i => typeOfCell (cellAt h i)
  | .fixnum _ => tNUMBER
  | .boolv _ => tBOOLEAN
  | .nilv => tNIL
  | .numv _ => tNUMBER
  | .strv _ => tSTRING
  | .primv _ => tPRIM
  | .cfuncv _ => tCFUNC
  | .ptrv _ => tPTR

/-- `car(x)` on an arena pointer; reading the car of anything else is a
type-confused access the fragment never performs under its hypotheses. -/
def carAt (h : List Cell) : Val → Val
  | .ref i => (cellAt h i).car
  | _ => .nilv

def cdrAt (h : List Cell) : Val → Val
  | .ref i => (cellAt h i).cdr
  | _ => .nilv

/-- `fe_cons`: allocate a fresh pair cell. -/
def cons (h : List Cell) (a d : Val) : List Cell × Val :=
  (h ++ [⟨settypeFlags tPAIR, a, d⟩], .ref h.length)

/-- `fe_nextarg` (fe.c:235-243): fails on a non-pair argument list. -/
def nextargF (h : List Cell) (arg : Val) : Option (Val × Val) :=
  if typeOfVal h arg = tPAIR then some (carAt h arg, cdrAt h arg) else none

/-- `fe_car` / `fe_cdr`: nil passes through, otherwise a pair is required. -/
def feCar (h : List Cell) (v : Val) : Option Val :=
  if v = .nilv then some .nilv
  else if typeOfVal h v = tPAIR then some (carAt h v) else none

def feCdr (h : List Cell) (v : Val) : Option Val :=
  if v = .nilv then some .nilv
  else if typeOfVal h v = tPAIR then some (cdrAt h v) else none

/-- One binding-search loop of `getbound` (fe.c:681-685, 687-691,
694-697): walk an association chain, returning the binding pair whose
car is `sym`.  `some none` = not found, `none` = out of fuel. -/
def getboundLoop : ℕ → List Cell → Val → Val → Option (Option Val)
  | 0, _, _, _ => none
  | f+1, h, sym, p =>
    if p = .nilv then some none
    else if carAt h (carAt h p) = sym then some (some (carAt h p))
    else getboundLoop f h sym (cdrAt h p)

/-- `getbound` (fe.c:674-700): a frame environment — a pair whose car is
the `frame_sym` static — is searched locals-then-upvals; any other
environment is searched as an association list; in either case an
unbound symbol falls through to the symbol's own global slot `cdr(sym)`. -/
def getboundF (f : ℕ) (h : List Cell) (fs sym env : Val) : Option Val :=
  if typeOfVal h env = tPAIR ∧ carAt h env = fs then
    match getboundLoop f h sym (carAt h (cdrAt h env)) with
    | none => none
    | some (some x) => some x
    | some none =>
      match getboundLoop f h sym (cdrAt h (cdrAt h env)) with
      | none => none
      | some (some x) => some x
      | some none => some (cdrAt h sym)
  else
    match getboundLoop f h sym env with
    | none => none
    | some (some x) => some x
    | some none => some (cdrAt h sym)

/-- The `P_GET` primitive (fe.c:948-955): the property symbol is not
evaluated and must be a symbol; the result is the `cdr` of whatever
binding `getbound` finds in the object. -/
def primGetF (f : ℕ) (h : List Cell) (fs obj sym : Val) : Option Val :=
  if typeOfVal h sym = tSYMBOL then (getboundF f h fs sym obj).map (cdrAt h)
  else none

/-- The upvalue-capture loop of the macro branch (fe.c:1209-1214):
`upvals = cons(getbound(sym, def_env), upvals)` for each free variable. -/
def upvalsF : ℕ → List Cell → Val → Val → Val → Val → Option (List Cell × Val)
  | 0, _, _, _, _, _ => none
  | f+1, h, fs, fv, def_env, acc =>
    if fv = .nilv then some (h, acc)
    else
      match getboundF (f+1) h fs (carAt h fv) def_env with
      | none => none
      | some b =>
        match cons h b acc with
        | (h1, acc1) => upvalsF f h1 fs (cdrAt h fv) def_env acc1

/-- `argstoenv` (fe.c:851-864): bind parameters to (here: unevaluated)
arguments; a non-pair parameter tail captures the remaining arguments. -/
def argstoenvF : ℕ → List Cell → Val → Val → Val → Option (List Cell × Val)
  | 0, _, _, _, _ => none
  | f+1, h, prm, arg, env =>
    if prm = .nilv then some (h, env)
    else if ¬ typeOfVal h prm = tPAIR then
      match cons h prm arg with
      | (h1, b) =>
        match cons h1 b env with
        | (h2, e) => some (h2, e)
    else
      match feCar h arg with
      | none => none
      | some a =>
        match feCdr h arg with
        | none => none
        | some d =>
          match cons h (carAt h prm) a with
          | (h1, b) =>
            match cons h1 b env with
            | (h2, e) => argstoenvF f h2 (cdrAt h2 prm) d e

/-- `is_return_obj` (fe.c:414-416). -/
def isReturnObj (h : List Cell) (rs v : Val) : Bool :=
  typeOfVal h v == tPAIR && carAt h v == rs

/-- `dolist` (fe.c:837-848), parameterized by the evaluator for one
statement (the environment is captured in `ev`; see the fragment note). -/
def dolistH (rs : Val) (ev : List Cell → Val → Option (Val × List Cell)) :
    ℕ → List Cell → Val → Option (Val × List Cell)
  | 0, _, _ => none
  | f+1, h, lst =>
    if lst = .nilv then some (.nilv, h)
    else
      match nextargF h lst with
      | none => none
      | some (stmt, lst2) =>
        match ev h stmt with
        | none => none
        | some (res, h1) =>
          if isReturnObj h1 rs res then some (res, h1)
          else if lst2 = .nilv then some (res, h1)
          else dolistH rs ev f h1 lst2

/-- The sentinel statics of fe.c:106-113 as a record: the evaluator
fragment reads `frame_sym` and `return_sym` through this, modeling that
the C code reads whatever `fe_open` last stored there. -/
structure Globals where
  frame_sym : Val
  return_sym : Val
deriving DecidableEq, Repr

def pQUOTE : ℕ := 11

/-- `prim(fn)`: the primitive ordinal stored in the cdr union field. -/
def primOf (h : List Cell) (fn : Val) : Option ℕ :=
  match cdrAt h fn with
  | .primv n => some n
  | _ => none

/-- Macro-closure accessors: `cdr(fn)` is `(def_env free_vars params . body)`
(fe.c:1196-1202). -/
def macDefEnv (h : List Cell) (fn : Val) : Val := carAt h (cdrAt h fn)

def macFreeVars (h : List Cell) (fn : Val) : Val := carAt h (cdrAt h (cdrAt h fn))

def macParams (h : List Cell) (fn : Val) : Val :=
  carAt h (cdrAt h (cdrAt h (cdrAt h fn)))

def macBody (h : List Cell) (fn : Val) : Val :=
  cdrAt h (cdrAt h (cdrAt h (cdrAt h fn)))

/-- The call dispatch of `eval` restricted to the fragment: `P_QUOTE`
returns its argument unevaluated (fe.c:1060-1062); a macro captures
upvalues, binds the unevaluated arguments, runs the body in the new
frame, copies the resulting cell over the call cell (`*obj = *dolist(...)`)
and re-evaluates the same cell in the same environment (fe.c:1195-1224;
the result of the body must be an arena cell for the `*`-copy to be
defined).  Everything else is `none`. -/
def applyH (g : Globals) (ev : List Cell → Val → Val → Option (Val × List Cell)) (f : ℕ)
    (h : List Cell) (obj fn arg env : Val) : Option (Val × List Cell) :=
  if typeOfVal h fn = tPRIM then
    if primOf h fn = some pQUOTE then
      match nextargF h arg with
      | none => none
      | some (a, _) => some (a, h)
    else none
  else if typeOfVal h fn = tMAC then
    match upvalsF f h g.frame_sym (macFreeVars h fn) (macDefEnv h fn) .nilv with
    | none => none
    | some (h2, upvals) =>
      match argstoenvF f h2 (macParams h fn) arg .nilv with
      | none => none
      | some (h3, locals) =>
        match cons h3 locals upvals with
        | (h4, fr1) =>
          match cons h4 g.frame_sym fr1 with
          | (h5, frame) =>
            match dolistH g.return_sym (fun h6 o => ev h6 o frame) f h5 (macBody h fn) with
            | none => none
            | some (res, h6) =>
              match obj, res with
              | .ref a, .ref r => ev (h6.set a (cellAt h6 r)) obj env
              | _, _ => none
  else none

/-- `eval` (fe.c:882-1234) on the fragment: symbols resolve through
`getbound` to the binding's cdr; non-pairs self-evaluate; a call
evaluates its operator first, reads the argument list from the (possibly
mutated) heap afterwards, and dispatches. -/
def evalF : ℕ → List Cell → Globals → Val → Val → Option (Val × List Cell)
  | 0, _, _, _, _ => none
  | f+1, h, g, obj, env =>
    if typeOfVal h obj = tSYMBOL then
      match getboundF (f+1) h g.frame_sym obj env with
      | none => none
      | some b => some (cdrAt h b, h)
    else if ¬ typeOfVal h obj = tPAIR then some (obj, h)
    else
      match evalF f h g (carAt h obj) env with
      | none => none
      | some (fn, h1) =>
        applyH g (fun h2 o e => evalF f h2 g o e) f h1 obj fn (cdrAt h1 obj) env

end Fe.Ev

namespace Fe.Ev

/-- Claim C2 (corrected), main part: applying a MACRO to a call cell
binds the *unevaluated* argument forms (`cdr` of the call cell, passed
straight to `argstoenv`), evaluates the body in the new frame, copies
the resulting cell over the call cell — both car and cdr, via
`*obj = *dolist(...)` — and re-evaluates that same cell in the same
environment.  (The claim's final clause, that a later evaluation of the
cell can never invoke a macro again, is refuted separately: the
expansion may itself be a macro call.) -/
theorem c2_macro_expand_inplace
    (f : ℕ) (h : List Cell) (g : Globals) (a : ℕ) (env fn : Val)
    (h1 h2 h3 h4 h5 h6 : List Cell) (upvals locals fr1 frame : Val) (r : ℕ)
    (hpair : typeOfVal h (.ref a) = tPAIR)
    (hop : evalF f h g (carAt h (.ref a)) env = some (fn, h1))
    (hmac : typeOfVal h1 fn = tMAC)
    (hup : upvalsF f h1 g.frame_sym (macFreeVars h1 fn) (macDefEnv h1 fn) .nilv =
      some (h2, upvals))
    (hargs : argstoenvF f h2 (macParams h1 fn) (cdrAt h1 (.ref a)) .nilv = some (h3, locals))
    (hfr : cons h3 locals upvals = (h4, fr1))
    (hframe : cons h4 g.frame_sym fr1 = (h5, frame))
    (hdo : dolistH g.return_sym (fun hh o => evalF f hh g o frame) f h5 (macBody h1 fn) =
      some (.ref r, h6)) :
    evalF (f + 1) h g (.ref a) env = evalF f (h6.set a (cellAt h6 r)) g (.ref a) env := by
  rw [evalF]
  rw [if_neg (by rw [hpair]; decide)]
  rw [if_neg (by rw [hpair]; exact fun hn => hn rfl)]
  rw [hop]
  show applyH g (fun h2 o e => evalF f h2 g o e) f h1 (.ref a) fn (cdrAt h1 (.ref a)) env =
    evalF f (h6.set a (cellAt h6 r)) g (.ref a) env
  rw [applyH]
  rw [if_neg (by rw [hmac]; decide)]
  rw [if_pos hmac]
  rw [hup]
  dsimp only
  rw [hargs]
  dsimp only
  rw [hfr]
  dsimp only
  rw [hframe]
  dsimp only
  rw [hdo]

/-- The context used by C2's witness and counterexample: the quine macro
`m` whose body is `((quote (m)))`, so that `(m)` expands — in place — to
`(m)` again.  Cell 0 is the symbol `m` (global value: the macro at cell
2, with guts `(nil nil nil . ((quote (m))))` in cells 3-8), cell 10/11
the symbol `quote` (global value: the `P_QUOTE` primitive at cell 13),
cell 12 the quoted form `(m)`, cell 15 the call cell `(m)`, cells 20-23
the `[frame]` and `return` sentinel symbols. -/
def c2Heap : List Cell :=
  [⟨settypeFlags tSYMBOL, .nilv, .ref 1⟩,
   ⟨settypeFlags tPAIR, .strv ['m'], .ref 2⟩,
   ⟨settypeFlags tMAC, .nilv, .ref 3⟩,
   ⟨settypeFlags tPAIR, .nilv, .ref 4⟩,
   ⟨settypeFlags tPAIR, .nilv, .ref 5⟩,
   ⟨settypeFlags tPAIR, .nilv, .ref 6⟩,
   ⟨settypeFlags tPAIR, .ref 7, .nilv⟩,
   ⟨settypeFlags tPAIR, .ref 10, .ref 8⟩,
   ⟨settypeFlags tPAIR, .ref 12, .nilv⟩,
   ⟨settypeFlags tPAIR, .nilv, .nilv⟩,
   ⟨settypeFlags tSYMBOL, .nilv, .ref 11⟩,
   ⟨settypeFlags tPAIR, .strv ['q','u','o','t','e'], .ref 13⟩,
   ⟨settypeFlags tPAIR, .ref 0, .nilv⟩,
   ⟨settypeFlags tPRIM, .nilv, .primv 11⟩,
   ⟨settypeFlags tPAIR, .nilv, .nilv⟩,
   ⟨settypeFlags tPAIR, .ref 0, .nilv⟩,
   ⟨settypeFlags tPAIR, .nilv, .nilv⟩,
   ⟨settypeFlags tPAIR, .nilv, .nilv⟩,
   ⟨settypeFlags tPAIR, .nilv, .nilv⟩,
   ⟨settypeFlags tPAIR, .nilv, .nilv⟩,
   ⟨settypeFlags tSYMBOL, .nilv, .ref 21⟩,
   ⟨settypeFlags tPAIR, .strv ['[','f','r','a','m','e',']'], .nilv⟩,
   ⟨settypeFlags tSYMBOL, .nilv, .ref 23⟩,
   ⟨settypeFlags tPAIR, .strv ['r','e','t','u','r','n'], .nilv⟩]

def c2G : Globals := ⟨.ref 20, .ref 22⟩

/-- `c2Heap` after building the macro's (empty) frame: the two frame
cells the expansion allocates. -/
def c2H5 : List Cell :=
  c2Heap ++ [⟨settypeFlags tPAIR, .nilv, .nilv⟩, ⟨settypeFlags tPAIR, .ref 20, .ref 24⟩]

/-- C2, witness: one full macro step on the call cell `(m)` — the
operator evaluates to the macro, the body result `(m)` (cell 12) is
copied over call cell 15, and evaluation restarts on cell 15. -/
theorem c2_macro_expand_inplace_witness :
    evalF 4 c2Heap c2G (.ref 15) .nilv =
      evalF 3 (c2H5.set 15 (cellAt c2H5 12)) c2G (.ref 15) .nilv :=
  c2_macro_expand_inplace 3 c2Heap c2G 15 .nilv (.ref 2) c2Heap c2Heap c2Heap
    (c2Heap ++ [⟨settypeFlags tPAIR, .nilv, .nilv⟩]) c2H5 c2H5
    .nilv .nilv (.ref 24) (.ref 25) 12
    (by decide) (by decide) (by decide) (by decide) (by decide) (by decide) (by decide)
    (by decide)

/-- C2, counterexample to the claim's `exactly once per call site'
clause: for the quine macro, after the in-place expansion the call cell
again contains `(m)` (the overwrite reproduces the original cell
exactly), its operator again evaluates to the very same macro, and
evaluation of the call never finishes (every fuel is exhausted) — the
later evaluation of the same call cell does invoke the macro again. -/
theorem c2_macro_again_counterexample :
    typeOfVal c2Heap (.ref 2) = tMAC ∧
    evalF 1 c2Heap c2G (carAt c2Heap (.ref 15)) .nilv = some (.ref 2, c2Heap) ∧
    c2H5.set 15 (cellAt c2H5 12) = c2H5 ∧
    cellAt c2H5 15 = cellAt c2Heap 15 ∧
    evalF 1 c2H5 c2G (carAt c2H5 (.ref 15)) .nilv = some (.ref 2, c2H5) ∧
    typeOfVal c2H5 (.ref 2) = tMAC ∧
    evalF 8 c2Heap c2G (.ref 15) .nilv = none := by
  refine ⟨by decide, by decide, by decide, by decide, by decide, by decide, by decide⟩

end Fe.Ev

namespace Fe.Ev

/-- An association chain of `n` cells in which no binding's car is `sym`
(the shape `getbound`'s search loops walk without finding `sym`). -/
inductive NoBind (h : List Cell) (sym : Val) : Val → ℕ → Prop where
  | nil : NoBind h sym .nilv 0
  | cons (p : Val) (n : ℕ) (hp : ¬ p = .nilv) (hne : ¬ carAt h (carAt h p) = sym)
      (rest : NoBind h sym (cdrAt h p) n) : NoBind h sym p (n + 1)

lemma getboundLoop_nobind (h : List Cell) (sym p : Val) (n f : ℕ)
    (hnb : NoBind h sym p n) (hf : n + 1 ≤ f) :
    getboundLoop f h sym p = some none := by
  induction hnb generalizing f with
  | nil =>
    obtain ⟨g, rfl⟩ : ∃ g, f = g + 1 := ⟨f - 1, by omega⟩
    rw [getboundLoop, if_pos rfl]
  | cons p m hp hne rest ih =>
    obtain ⟨g, rfl⟩ : ∃ g, f = g + 1 := ⟨f - 1, by omega⟩
    rw [getboundLoop, if_neg hp, if_neg hne]
    exact ih g (by omega)

/-- Claim C9: when `sym` has no binding in the environment — an
association list without it, or a closure frame whose locals and upvals
both lack it — `getbound` returns the symbol's own global slot
`cdr(sym)`; consequently `(get obj sym)` on an association list that
does not contain `sym` returns `sym`'s current global value
`cdr(cdr(sym))` rather than nil or an error. -/
theorem c9_getbound_unbound :
    (∀ h fs sym env n f, NoBind h sym env n →
      ¬(typeOfVal h env = tPAIR ∧ carAt h env = fs) → n + 1 ≤ f →
      getboundF f h fs sym env = some (cdrAt h sym)) ∧
    (∀ h fs sym env nl nu f, typeOfVal h env = tPAIR → carAt h env = fs →
      NoBind h sym (carAt h (cdrAt h env)) nl → NoBind h sym (cdrAt h (cdrAt h env)) nu →
      nl + nu + 2 ≤ f → getboundF f h fs sym env = some (cdrAt h sym)) ∧
    (∀ h fs sym env n f, typeOfVal h sym = tSYMBOL → NoBind h sym env n →
      ¬(typeOfVal h env = tPAIR ∧ carAt h env = fs) → n + 1 ≤ f →
      primGetF f h fs env sym = some (cdrAt h (cdrAt h sym))) := by
  have hassoc : ∀ h fs sym env n f, NoBind h sym env n →
      ¬(typeOfVal h env = tPAIR ∧ carAt h env = fs) → n + 1 ≤ f →
      getboundF f h fs sym env = some (cdrAt h sym) := by
    intro h fs sym env n f hnb hnf hf
    rw [getboundF, if_neg hnf, getboundLoop_nobind h sym env n f hnb hf]
  refine ⟨hassoc, ?_, ?_⟩
  · intro h fs sym env nl nu f htp hcar hl hu hf
    rw [getboundF, if_pos ⟨htp, hcar⟩,
      getboundLoop_nobind h sym _ nl f hl (by omega),
      getboundLoop_nobind h sym _ nu f hu (by omega)]
  · intro h fs sym env n f hsym hnb hnf hf
    rw [primGetF, if_pos hsym, hassoc h fs sym env n f hnb hnf hf, Option.map_some']

/-- Heap for C9's witness: symbol `x` (cell 0, global slot cell 1 with
value 42), symbol `y` (cells 2-3), the association list `((y . 7))`
(cells 4-5), the `[frame]` symbol (cells 6-7), and a closure frame with
empty locals and upvals (cells 8-9). -/
def c9Heap : List Cell :=
  [⟨settypeFlags tSYMBOL, .nilv, .ref 1⟩,
   ⟨settypeFlags tPAIR, .strv ['x'], .fixnum 42⟩,
   ⟨settypeFlags tSYMBOL, .nilv, .ref 3⟩,
   ⟨settypeFlags tPAIR, .strv ['y'], .nilv⟩,
   ⟨settypeFlags tPAIR, .ref 2, .fixnum 7⟩,
   ⟨settypeFlags tPAIR, .ref 4, .nilv⟩,
   ⟨settypeFlags tSYMBOL, .nilv, .ref 7⟩,
   ⟨settypeFlags tPAIR, .strv ['[','f','r','a','m','e',']'], .nilv⟩,
   ⟨settypeFlags tPAIR, .ref 6, .ref 9⟩,
   ⟨settypeFlags tPAIR, .nilv, .nilv⟩]

/-- C9, witness: looking `x` up in the association list `((y . 7))` and
in an empty closure frame both yield `x`'s global slot; `(get ((y . 7)) x)`
yields `x`'s global value 42. -/
theorem c9_getbound_unbound_witness :
    getboundF 2 c9Heap (.ref 6) (.ref 0) (.ref 5) = some (cdrAt c9Heap (.ref 0)) ∧
    getboundF 2 c9Heap (.ref 6) (.ref 0) (.ref 8) = some (cdrAt c9Heap (.ref 0)) ∧
    primGetF 2 c9Heap (.ref 6) (.ref 5) (.ref 0) =
      some (cdrAt c9Heap (cdrAt c9Heap (.ref 0))) :=
  ⟨c9_getbound_unbound.1 c9Heap (.ref 6) (.ref 0) (.ref 5) 1 2
      (NoBind.cons _ _ (by decide) (by decide) NoBind.nil) (by decide) (by decide),
   c9_getbound_unbound.2.1 c9Heap (.ref 6) (.ref 0) (.ref 8) 0 0 2
      (by decide) (by decide) NoBind.nil NoBind.nil (by decide),
   c9_getbound_unbound.2.2 c9Heap (.ref 6) (.ref 0) (.ref 5) 1 2
      (by decide) (NoBind.cons _ _ (by decide) (by decide) NoBind.nil)
      (by decide) (by decide)⟩

/-- Heap for C7: one context's arena.  Cell 0/1: symbol `x` with global
value 0; cells 2/3: this context's interned `[frame]` symbol; cells 4-7:
a closure frame binding `x` to 42 in its locals
(`env = ([frame] . (((x . 42)) . nil))`). -/
def c7Heap : List Cell :=
  [⟨settypeFlags tSYMBOL, .nilv, .ref 1⟩,
   ⟨settypeFlags tPAIR, .strv ['x'], .fixnum 0⟩,
   ⟨settypeFlags tSYMBOL, .nilv, .ref 3⟩,
   ⟨settypeFlags tPAIR, .strv ['[','f','r','a','m','e',']'], .nilv⟩,
   ⟨settypeFlags tPAIR, .ref 0, .fixnum 42⟩,
   ⟨settypeFlags tPAIR, .ref 4, .nilv⟩,
   ⟨settypeFlags tPAIR, .ref 5, .nilv⟩,
   ⟨settypeFlags tPAIR, .ref 2, .ref 6⟩]

/-- Claim C7 (the code contradicts it): the frame sentinel is a module
global (fe.c:107), not a context field, and `fe_open` reassigns it to
the newest context's symbol cell (fe.c:1293).  `getbound` on the very
same first-context heap and environment returns the local binding
(value 42) while the static still holds this context's `[frame]` cell
(`ref 2`), but returns the global slot (value 0) once the static holds a
second context's `[frame]` cell (modeled as `ref 99`, a pointer outside
this arena): opening a second context silently changes the first
context's evaluation behavior, contradicting the claimed multi-context
safety. -/
theorem c7_sentinel_global_static :
    getboundF 4 c7Heap (.ref 2) (.ref 0) (.ref 7) = some (.ref 4) ∧
    cdrAt c7Heap (.ref 4) = .fixnum 42 ∧
    getboundF 4 c7Heap (.ref 99) (.ref 0) (.ref 7) = some (.ref 1) ∧
    cdrAt c7Heap (.ref 1) = .fixnum 0 ∧
    getboundF 4 c7Heap (.ref 2) (.ref 0) (.ref 7) ≠
      getboundF 4 c7Heap (.ref 99) (.ref 0) (.ref 7) := by
  refine ⟨by decide, by decide, by decide, by decide, by decide⟩

end Fe.Ev
